import Mathlib

/-!
# AutoHelperTest: the autonomous command scheduler

A shallow embedding of `AutoTest/include/autonomous.hpp`, `AutoTest/src/autonomous.cpp`
and the demo commands of `AutoTest/src/main.cpp`.

Conventions of the embedding.

* `std::vector` is a `List`; `operator[]` is the checked read `xs[i]?`.  A read outside the
  vector is undefined behaviour in C++: every function that performs such a read returns
  `Except.error s`, where `s` is the manager state at the moment of the read (everything done
  before the read is kept in `s`).
* `std::unordered_map` is an association list read with `List.lookup`.
* `size_t` is a `Nat` below `2 ^ 64`; `++` wraps.  `int` is an `Int`; the cast
  `(int)loadedCommands.size()` is `intCast`, and the conversion back to `size_t` made by the
  comparison with `currentCommandIndex` is `sizeCast`.
* `currentTimeMillis()` is the argument `now` of the function that reads the clock.
* The virtual hooks of the concrete command classes are fields of functions.  The calls the
  scheduler makes on hooks are recorded, in program order, in the ghost field `trace`; the
  ghost field `created` numbers the foreground instances the scheduler has created.
-/

namespace team2655

/-! ## Observable calls -/

/-- A call the framework makes on a domain hook.  Foreground calls carry the number of the
instance (`uid`), background calls the index of the instance in `uniqueBgCommands`. -/
inductive Event where
  | create (uid : Nat)
  | start (uid : Nat) (commandName : String) (args : List String)
  | process (uid : Nat)
  | handleComplete (uid : Nat)
  | updateArgs (idx : Nat) (commandName : String) (args : List String)
  | bgProcess (idx : Nat)
  | kill (idx : Nat)
  deriving DecidableEq, Repr

/-! ## AutoCommand -/

/-- The protected data members of `AutoCommand` (autonomous.hpp lines 28-33). -/
structure CommandFields where
  _hasStarted : Bool := false
  _isComplete : Bool := false
  timeout : Int := 0
  startTime : Int := 0
  commandName : String := ""
  arguments : List String := []
  deriving DecidableEq, Repr

/-- A call a hook makes on the base class of its own object. -/
inductive BaseCall where
  | complete
  | setTimeout (timeoutMs : Int)
  deriving DecidableEq, Repr

/-- The pure virtual functions of `AutoCommand` (autonomous.hpp lines 93-103) as implemented by
a concrete subclass whose own data members have type `σ`.  A hook sees the base fields and its
own members; it returns its new members and the base-class calls it makes, in order.
`handleComplete` makes no base-class call (a `handleComplete` that calls `complete()` would
recurse without end). -/
structure CommandHooks (σ : Type) where
  start : CommandFields → σ → String → List String → σ × List BaseCall
  process : CommandFields → σ → σ × List BaseCall
  handleComplete : CommandFields → σ → σ

/-- An object of a concrete subclass of `AutoCommand`.  `uid` is a ghost number given by the
scheduler when it creates the instance. -/
structure AutoCommand (σ : Type) extends CommandFields where
  self : σ
  hooks : CommandHooks σ
  uid : Nat := 0

variable {σ β : Type}

/-- Embeds `AutoCommand::hasTimedOut` (autonomous.cpp lines 28-30). -/
def AutoCommand.hasTimedOut (c : AutoCommand σ) (now : Int) : Bool :=
  decide (c.timeout > 0) && decide (now - c.startTime ≥ c.timeout)

/-- Embeds `AutoCommand::hasStarted` (autonomous.cpp lines 32-34). -/
def AutoCommand.hasStarted (c : AutoCommand σ) : Bool := c._hasStarted

/-- Embeds `AutoCommand::isComplete` (autonomous.cpp lines 36-38). -/
def AutoCommand.isComplete (c : AutoCommand σ) : Bool := c._isComplete

/-- Embeds `AutoCommand::setTimeout` (autonomous.cpp lines 40-42). -/
def AutoCommand.setTimeout (c : AutoCommand σ) (timeoutMs : Int) : AutoCommand σ :=
  { c with timeout := timeoutMs }

/-- Embeds `AutoCommand::getTimeout` (autonomous.cpp lines 44-46). -/
def AutoCommand.getTimeout (c : AutoCommand σ) : Int := c.timeout

/-- Embeds `AutoCommand::complete` (autonomous.cpp lines 69-73): set the flag, then call the
`handleComplete` hook. -/
def AutoCommand.complete (c : AutoCommand σ) : AutoCommand σ × List Event :=
  let c1 : AutoCommand σ := { c with _isComplete := true }
  ({ c1 with self := c1.hooks.handleComplete c1.toCommandFields c1.self },
   [Event.handleComplete c.uid])

/-- Run the base-class calls made by a hook, in order. -/
def AutoCommand.exec (c : AutoCommand σ) : List BaseCall → AutoCommand σ × List Event
  | [] => (c, [])
  | BaseCall.complete :: rest =>
    let r := (c.complete.1).exec rest
    (r.1, c.complete.2 ++ r.2)
  | BaseCall.setTimeout t :: rest => (c.setTimeout t).exec rest

/-- A call of the virtual `start` hook. -/
def AutoCommand.start (c : AutoCommand σ) (commandName : String) (args : List String) :
    AutoCommand σ × List Event :=
  let h := c.hooks.start c.toCommandFields c.self commandName args
  let r := AutoCommand.exec { c with self := h.1 } h.2
  (r.1, Event.start c.uid commandName args :: r.2)

/-- A call of the virtual `process` hook. -/
def AutoCommand.process (c : AutoCommand σ) : AutoCommand σ × List Event :=
  let h := c.hooks.process c.toCommandFields c.self
  let r := AutoCommand.exec { c with self := h.1 } h.2
  (r.1, Event.process c.uid :: r.2)

/-- Embeds `AutoCommand::doStart` (autonomous.cpp lines 48-55). -/
def AutoCommand.doStart (c : AutoCommand σ) (now : Int) (commandName : String)
    (args : List String) : AutoCommand σ × List Event :=
  AutoCommand.start
    { c with commandName := commandName, arguments := args, startTime := now,
             _hasStarted := true }
    commandName args

/-- Embeds `AutoCommand::doProcess` (autonomous.cpp lines 57-67). -/
def AutoCommand.doProcess (c : AutoCommand σ) (now : Int) : AutoCommand σ × List Event :=
  let r1 : AutoCommand σ × List Event := if c.hasTimedOut now then c.complete else (c, [])
  if r1.1._isComplete || !r1.1._hasStarted then r1
  else
    let r2 := r1.1.process
    (r2.1, r1.2 ++ r2.2)

/-! ## BackgroundAutoCommand -/

/-- An object of a concrete subclass of `BackgroundAutoCommand` (autonomous.hpp lines 108-117)
whose own data members have type `β`.  `shouldProcess` is a query. -/
structure BackgroundAutoCommand (β : Type) where
  self : β
  updateArgs : β → String → List String → β
  process : β → β
  kill : β → β
  shouldProcess : β → Bool

/-- Embeds `BackgroundAutoCommand::doUpdateArgs` (autonomous.cpp lines 79-81). -/
def BackgroundAutoCommand.doUpdateArgs (b : BackgroundAutoCommand β) (commandName : String)
    (args : List String) : BackgroundAutoCommand β :=
  { b with self := b.updateArgs b.self commandName args }

/-- A call of the virtual `process` of a background command. -/
def BackgroundAutoCommand.runProcess (b : BackgroundAutoCommand β) : BackgroundAutoCommand β :=
  { b with self := b.process b.self }

/-- A call of the virtual `kill` of a background command. -/
def BackgroundAutoCommand.runKill (b : BackgroundAutoCommand β) : BackgroundAutoCommand β :=
  { b with self := b.kill b.self }

/-! ## AutoManager -/

/-- Embeds `CmdPointer` (autonomous.hpp line 119): a possibly null owning pointer. -/
abbrev CmdPointer (σ : Type) := Option (AutoCommand σ)

/-- Embeds `CmdCreator` (autonomous.hpp line 120). -/
abbrev CmdCreator (σ : Type) := Unit → CmdPointer σ

/-- Embeds `CommandCreator<T>` (autonomous.hpp lines 123-130) for the class with hooks `hooks` and
default-constructed members `init`. -/
def CommandCreator (hooks : CommandHooks σ) (init : σ) : CmdCreator σ :=
  fun _ => some { self := init, hooks := hooks }

/-- The data members of `AutoManager` (autonomous.hpp lines 137-147), with the ghost fields
`trace` and `created`. -/
structure AutoManager (σ β : Type) where
  loadedCommands : List String := []
  loadedArguments : List (List String) := []
  currentCommandIndex : Nat := 2 ^ 64 - 1
  currentCommand : CmdPointer σ := none
  registeredCommands : List (String × CmdCreator σ) := []
  backgroundCommands : List (String × Nat) := []
  uniqueBgCommands : List (BackgroundAutoCommand β) := []
  bgCommandTypes : List String := []
  trace : List Event := []
  created : Nat := 0

/-- The transformation `std::transform(..., ::tolower)` applied to every key. -/
def tolower (s : String) : String := ⟨s.data.map Char.toLower⟩

/-- The cast `(int)n` of a `size_t` to a 32-bit `int`. -/
def intCast (n : Nat) : Int :=
  if n % 2 ^ 32 < 2 ^ 31 then ((n % 2 ^ 32 : Nat) : Int) else ((n % 2 ^ 32 : Nat) : Int) - 2 ^ 32

/-- The conversion of an `int` to `size_t` made by a mixed comparison. -/
def sizeCast (i : Int) : Nat := (i % 2 ^ 64).toNat

/-- The value of `currentCommandIndex++`. -/
def sizeSucc (i : Nat) : Nat := (i + 1) % 2 ^ 64

/-- Embeds `AutoManager::registerCommand(CmdCreator, std::string)` (autonomous.cpp lines 99-108). -/
def AutoManager.registerCommand (m : AutoManager σ β) (creator : CmdCreator σ) (name : String) :
    AutoManager σ β :=
  let name := tolower name
  if (m.backgroundCommands.lookup name).isNone && (m.registeredCommands.lookup name).isNone then
    { m with registeredCommands := m.registeredCommands ++ [(name, creator)] }
  else m

/-- Embeds `AutoManager::registerCommand(CmdCreator, std::vector<std::string>)`
(autonomous.cpp lines 110-114). -/
def AutoManager.registerCommands (m : AutoManager σ β) (creator : CmdCreator σ) :
    List String → AutoManager σ β
  | [] => m
  | name :: names => (m.registerCommand creator name).registerCommands creator names

/-- Embeds `AutoManager::registerBackgroundCommand<T>(std::string)` (autonomous.hpp lines 183-208).
The class `T` is given by `typeName`, the string `typeid(T).name()`, and by `fresh`, the
object made by `new T()`.  The string is implementation-defined and two different classes can
have the same one (with g++, two classes of the same name in the unnamed namespaces of two
translation units). -/
def AutoManager.registerBackgroundCommand (m : AutoManager σ β) (typeName : String)
    (fresh : BackgroundAutoCommand β) (name : String) : AutoManager σ β :=
  let name := tolower name
  if (m.backgroundCommands.lookup name).isNone && (m.registeredCommands.lookup name).isNone then
    if m.bgCommandTypes.indexOf typeName = m.bgCommandTypes.length then
      { m with bgCommandTypes := m.bgCommandTypes ++ [typeName],
               uniqueBgCommands := m.uniqueBgCommands ++ [fresh],
               backgroundCommands :=
                 m.backgroundCommands ++ [(name, (m.uniqueBgCommands ++ [fresh]).length - 1)] }
    else
      { m with backgroundCommands :=
                 m.backgroundCommands ++ [(name, m.bgCommandTypes.indexOf typeName)] }
  else m

/-- Embeds `AutoManager::registerBackgroundCommand<T>(std::vector<std::string>)`
(autonomous.hpp lines 214-224). -/
def AutoManager.registerBackgroundCommands (m : AutoManager σ β) (typeName : String)
    (fresh : BackgroundAutoCommand β) : List String → AutoManager σ β
  | [] => m
  | name :: names =>
    (m.registerBackgroundCommand typeName fresh name).registerBackgroundCommands
      typeName fresh names

/-- Embeds `AutoManager::unregisterAll` (autonomous.cpp lines 116-121). -/
def AutoManager.unregisterAll (m : AutoManager σ β) : AutoManager σ β :=
  { m with registeredCommands := [], backgroundCommands := [], bgCommandTypes := [],
           uniqueBgCommands := [] }

/-- Embeds `AutoManager::loadedCommandCount` (autonomous.cpp lines 203-205). -/
def AutoManager.loadedCommandCount (m : AutoManager σ β) : Nat := m.loadedCommands.length

/-- The test `currentCommandIndex >= ((int)loadedCommands.size())`
(autonomous.cpp lines 243 and 250). -/
def AutoManager.pastEnd (m : AutoManager σ β) : Bool :=
  decide (m.currentCommandIndex ≥ sizeCast (intCast m.loadedCommands.length))

/-- The loop `for (auto const &element : uniqueBgCommands) element->kill();`
(autonomous.cpp lines 293-295); `i` is the index of the head of the list. -/
def killAll : Nat → List (BackgroundAutoCommand β) → List (BackgroundAutoCommand β) × List Event
  | _, [] => ([], [])
  | i, b :: bs => (b.runKill :: (killAll (i + 1) bs).1, Event.kill i :: (killAll (i + 1) bs).2)

/-- The loop `for (...) if (element->shouldProcess()) element->process();`
(autonomous.cpp lines 278-281); `i` is the index of the head of the list. -/
def processAll : Nat → List (BackgroundAutoCommand β) →
    List (BackgroundAutoCommand β) × List Event
  | _, [] => ([], [])
  | i, b :: bs =>
    if b.shouldProcess b.self then
      (b.runProcess :: (processAll (i + 1) bs).1, Event.bgProcess i :: (processAll (i + 1) bs).2)
    else (b :: (processAll (i + 1) bs).1, (processAll (i + 1) bs).2)

/-- Embeds `AutoManager::killAuto` (autonomous.cpp lines 286-296). -/
def AutoManager.killAuto (m : AutoManager σ β) : AutoManager σ β :=
  let ev : List Event :=
    match m.currentCommand with
    | some c => c.complete.2
    | none => []
  { m with currentCommandIndex := m.loadedCommands.length,
           currentCommand := none,
           uniqueBgCommands := (killAll 0 m.uniqueBgCommands).1,
           trace := m.trace ++ ev ++ (killAll 0 m.uniqueBgCommands).2 }

/-- Embeds `AutoManager::clearCommands` (autonomous.cpp lines 207-212). -/
def AutoManager.clearCommands (m : AutoManager σ β) : AutoManager σ β :=
  { m.killAuto with loadedCommands := [], loadedArguments := [],
                    currentCommandIndex := 2 ^ 64 - 1 }

/-- Embeds `AutoManager::addCommand` (autonomous.cpp lines 167-182).  Both vectors have the same
length in every state the public functions produce, so both insertions are in range. -/
def AutoManager.addCommand (m : AutoManager σ β) (command : String) (arguments : List String)
    (pos : Int) : AutoManager σ β :=
  let pos : Int := if pos > intCast m.loadedCommands.length ∨ pos < -1 then -1 else pos
  if pos = -1 then
    { m with loadedCommands := m.loadedCommands ++ [command],
             loadedArguments := m.loadedArguments ++ [arguments] }
  else
    { m with loadedCommands := m.loadedCommands.insertIdx pos.toNat command,
             loadedArguments := m.loadedArguments.insertIdx pos.toNat arguments }

/-- The `while` loop of `AutoManager::handleNextBgCommands` (autonomous.cpp lines 221-228),
entered with the lowered key of the entry under the cursor.  Every iteration moves the cursor
one entry forward and the read of line 226 fails at the end of the script, so the loop makes at
most `loadedCommands.size()` iterations; `fuel` bounds them.  With the fuel given by
`handleNextBgCommands` the case `0` is not reached (`handleNextBgLoop_drain`). -/
def handleNextBgLoop : Nat → AutoManager σ β → String →
    Except (AutoManager σ β) (AutoManager σ β)
  | 0, m, _ => Except.error m
  | fuel + 1, m, key =>
    match m.backgroundCommands.lookup key with
    | none => Except.ok m
    | some idx =>
      match m.uniqueBgCommands[idx]?, m.loadedArguments[m.currentCommandIndex]? with
      | some bg, some args =>
        let m1 : AutoManager σ β :=
          { m with uniqueBgCommands := m.uniqueBgCommands.set idx (bg.doUpdateArgs key args),
                   trace := m.trace ++ [Event.updateArgs idx key args],
                   currentCommandIndex := sizeSucc m.currentCommandIndex }
        match m1.loadedCommands[m1.currentCommandIndex]? with
        | some next => handleNextBgLoop fuel m1 (tolower next)
        | none => Except.error m1
      | _, _ => Except.error m

/-- Embeds `AutoManager::handleNextBgCommands` (autonomous.cpp lines 216-229). -/
def AutoManager.handleNextBgCommands (m : AutoManager σ β) :
    Except (AutoManager σ β) (AutoManager σ β) :=
  match m.loadedCommands[m.currentCommandIndex]? with
  | none => Except.error m
  | some name => handleNextBgLoop (m.loadedCommands.length + 1) m (tolower name)

/-- The test `currentCommand.get() == nullptr || currentCommand.get()->isComplete()`
(autonomous.cpp line 237). -/
def AutoManager.wantsNext (m : AutoManager σ β) : Bool :=
  match m.currentCommand with
  | none => true
  | some c => c.isComplete

/-- The statements `currentCommandIndex++; currentCommand.release();`
(autonomous.cpp lines 239-240). -/
def AutoManager.moveOn (m : AutoManager σ β) : AutoManager σ β :=
  { m with currentCommandIndex := sizeSucc m.currentCommandIndex, currentCommand := none }

/-- The block "Get next command" of `AutoManager::process` (autonomous.cpp lines 253-260): run
the creator registered for the entry under the cursor, if there is one. -/
def AutoManager.createNext (m : AutoManager σ β) :
    Except (AutoManager σ β) (AutoManager σ β × Bool) :=
  match m.loadedCommands[m.currentCommandIndex]? with
  | none => Except.error m
  | some name =>
    match m.registeredCommands.lookup (tolower name) with
    | some creator =>
      match creator () with
      | some c =>
        Except.ok
          ({ m with currentCommand := some { c with uid := m.created },
                    created := m.created + 1,
                    trace := m.trace ++ [Event.create m.created] }, true)
      | none => Except.ok ({ m with currentCommand := none }, true)
    | none => Except.ok (m, true)

/-- The first part of `AutoManager::process` (autonomous.cpp lines 235-265): move on to the
next entry when there is no current command or the current one is complete.  The result is the
new state and the value of the local variable `result`. -/
def AutoManager.advance (m : AutoManager σ β) :
    Except (AutoManager σ β) (AutoManager σ β × Bool) :=
  if m.wantsNext then
    if m.moveOn.pastEnd then Except.ok (m.moveOn, false)
    else
      match m.moveOn.handleNextBgCommands with
      | Except.error e => Except.error e
      | Except.ok m2 =>
        if m2.pastEnd then Except.ok (m2, false)
        else m2.createNext
  else Except.ok (m, true)

/-- The second part of `AutoManager::process` (autonomous.cpp lines 267-275): start or process
the current command. -/
def AutoManager.runCurrent (m : AutoManager σ β) (now : Int) :
    Except (AutoManager σ β) (AutoManager σ β) :=
  match m.currentCommand with
  | none => Except.ok m
  | some c =>
    if !c.hasStarted then
      match m.loadedCommands[m.currentCommandIndex]?,
            m.loadedArguments[m.currentCommandIndex]? with
      | some name, some args =>
        let r1 := c.doStart now name args
        let r2 := r1.1.process
        Except.ok { m with currentCommand := some r2.1, trace := m.trace ++ r1.2 ++ r2.2 }
      | _, _ => Except.error m
    else
      let r := c.doProcess now
      Except.ok { m with currentCommand := some r.1, trace := m.trace ++ r.2 }

/-- The third part of `AutoManager::process` (autonomous.cpp lines 277-281): process the
background commands. -/
def AutoManager.processBackground (m : AutoManager σ β) : AutoManager σ β :=
  { m with uniqueBgCommands := (processAll 0 m.uniqueBgCommands).1,
           trace := m.trace ++ (processAll 0 m.uniqueBgCommands).2 }

/-- Embeds `AutoManager::process` (autonomous.cpp lines 231-284); `now` is the clock reading of this
tick (the clock is read at most once per tick, in `doStart` or in `hasTimedOut`). -/
def AutoManager.process (m : AutoManager σ β) (now : Int) :
    Except (AutoManager σ β) (AutoManager σ β × Bool) :=
  if m.loadedCommandCount < 1 then Except.ok (m, false)
  else
    match m.advance with
    | Except.error e => Except.error e
    | Except.ok (m1, result) =>
      match m1.runCurrent now with
      | Except.error e => Except.error e
      | Except.ok m2 => Except.ok (m2.processBackground, result)

/-! ## The commands of main.cpp -/

/-- The hooks shared by `DriveCommand` and `RotateCommand` (main.cpp lines 12-51), which differ
only in the text they print.  `ms` is the conversion `(int)(stod(s) * 1000)`. -/
def timedHooks (ms : String → Int) : CommandHooks Unit where
  start := fun _ s _ args =>
    match args with
    | [] => (s, [BaseCall.complete])
    | a :: _ => (s, [BaseCall.setTimeout (ms a)])
  process := fun _ s => (s, [])
  handleComplete := fun _ s => s

/-- Embeds `DriveCommand` (main.cpp lines 12-30). -/
def DriveCommand (ms : String → Int) : CommandHooks Unit := timedHooks ms

/-- Embeds `RotateCommand` (main.cpp lines 33-51). -/
def RotateCommand (ms : String → Int) : CommandHooks Unit := timedHooks ms

/-- The value `(int)(stod(s) * 1000)` for a string of decimal digits. -/
def msOfDigits (s : String) : Int :=
  ((s.data.foldl (fun n c => 10 * n + (c.toNat - 48)) 0 * 1000 : Nat) : Int)

/-- The data members of the background commands of main.cpp. -/
inductive BgFields where
  | intake (speed : Int)
  | lifter (targetPos currentPos : Int)
  deriving DecidableEq, Repr

/-- Embeds `IntakeCommand` (main.cpp lines 54-77), default constructed. -/
def IntakeCommand : BackgroundAutoCommand BgFields where
  self := BgFields.intake 0
  updateArgs := fun s commandName _ =>
    if commandName = "intake_in" then BgFields.intake 1
    else if commandName = "intake_out" then BgFields.intake (-1)
    else if commandName = "intake_stop" then BgFields.intake 0
    else s
  process := fun s => s
  kill := fun s => s
  shouldProcess := fun s =>
    match s with
    | BgFields.intake speed => decide (speed ≠ 0)
    | BgFields.lifter _ _ => false

/-- Embeds `LifterCommand` (main.cpp lines 80-106), default constructed; `stoi` is `std::stoi`. -/
def LifterCommand (stoi : String → Int) : BackgroundAutoCommand BgFields where
  self := BgFields.lifter 0 0
  updateArgs := fun s _ args =>
    match s, args with
    | BgFields.lifter _ cur, a :: _ => BgFields.lifter (stoi a) cur
    | s, _ => s
  process := fun s =>
    match s with
    | BgFields.lifter t cur => if t > cur then BgFields.lifter t (cur + 1)
                               else BgFields.lifter t (cur - 1)
    | s => s
  kill := fun s =>
    match s with
    | BgFields.lifter _ cur => BgFields.lifter cur cur
    | s => s
  shouldProcess := fun s =>
    match s with
    | BgFields.lifter t cur => decide (|t - cur| ≠ 0)
    | BgFields.intake _ => false

/-- The manager of main.cpp after the four registration calls (main.cpp lines 112-115). -/
def mainManager : AutoManager Unit BgFields :=
  ((((({} : AutoManager Unit BgFields).registerCommand
        (CommandCreator (DriveCommand msOfDigits) ()) "drive").registerCommand
        (CommandCreator (RotateCommand msOfDigits) ()) "rotate").registerBackgroundCommands
        "IntakeCommand" IntakeCommand ["intake_in", "intake_out", "intake_stop"]
        ).registerBackgroundCommand
        "LifterCommand" (LifterCommand (fun s => msOfDigits s / 1000)) "move_lifter")

/-! ## Sequences of calls and the predicates used by the theorems -/

/-- Successive calls of `process()`, one per clock reading, with nothing in between.  The
result is the last state and the values returned, in order. -/
def AutoManager.processTicks : AutoManager σ β → List Int →
    Except (AutoManager σ β) (AutoManager σ β × List Bool)
  | m, [] => Except.ok (m, [])
  | m, now :: rest =>
    match m.process now with
    | Except.error e => Except.error e
    | Except.ok (m1, r) =>
      match AutoManager.processTicks m1 rest with
      | Except.error e => Except.error e
      | Except.ok (m2, rs) => Except.ok (m2, r :: rs)

/-- A call of a public function of `AutoManager` that drives or edits the script. -/
inductive Op where
  | process (now : Int)
  | killAuto
  | clearCommands
  | addCommand (command : String) (arguments : List String) (pos : Int)
  deriving DecidableEq, Repr

/-- The effect of one call. -/
def AutoManager.apply (m : AutoManager σ β) : Op → Except (AutoManager σ β) (AutoManager σ β)
  | Op.process now =>
    match m.process now with
    | Except.error e => Except.error e
    | Except.ok (m1, _) => Except.ok m1
  | Op.killAuto => Except.ok m.killAuto
  | Op.clearCommands => Except.ok m.clearCommands
  | Op.addCommand command arguments pos => Except.ok (m.addCommand command arguments pos)

/-- The effect of a sequence of calls; it stops at the first out-of-bounds read. -/
def AutoManager.run : AutoManager σ β → List Op → Except (AutoManager σ β) (AutoManager σ β)
  | m, [] => Except.ok m
  | m, op :: ops =>
    match m.apply op with
    | Except.error e => Except.error e
    | Except.ok m1 => AutoManager.run m1 ops

/-- The state carried by an outcome, whether the calls returned or stopped at an
out-of-bounds read. -/
def lastState : Except (AutoManager σ β) (AutoManager σ β) → AutoManager σ β
  | Except.ok s => s
  | Except.error s => s

/-- The state carried by the outcome of a tick. -/
def tickState : Except (AutoManager σ β) (AutoManager σ β × Bool) → AutoManager σ β
  | Except.ok (s, _) => s
  | Except.error s => s

/-- The active foreground command, if any, is already complete. -/
def AutoManager.activeComplete (m : AutoManager σ β) : Bool :=
  match m.currentCommand with
  | some c => c.isComplete
  | none => false

/-- Embeds `killAuto()` and `clearCommands()` are not called while the active command is already
complete. -/
def Op.allowed (m : AutoManager σ β) : Op → Bool
  | Op.killAuto => !m.activeComplete
  | Op.clearCommands => !m.activeComplete
  | _ => true

/-- Every call of the sequence is allowed in the state it is made in. -/
def AutoManager.Allowed : AutoManager σ β → List Op → Prop
  | _, [] => True
  | m, op :: ops =>
    Op.allowed m op = true ∧
      match m.apply op with
      | Except.ok m1 => AutoManager.Allowed m1 ops
      | Except.error _ => True

/-- The hooks call `complete()` at most once per invocation, and the `process` hook not at all
on an object that is already complete. -/
structure CommandHooks.CompletesOnce (h : CommandHooks σ) : Prop where
  start_le : ∀ f s n a, (h.start f s n a).2.count BaseCall.complete ≤ 1
  process_le : ∀ f s,
    (h.process f s).2.count BaseCall.complete ≤ if f._isComplete then 0 else 1

/-- Every registered creator returns null or a fresh, not yet complete object whose hooks
complete at most once. -/
def AutoManager.FreshCreators (m : AutoManager σ β) : Prop :=
  ∀ p ∈ m.registeredCommands, ∀ c, p.2 () = some c →
    c._isComplete = false ∧ c.hooks.CompletesOnce

/-- The invariant behind the once-only behaviour of `handleComplete`. -/
structure AutoManager.CompleteOnce (m : AutoManager σ β) : Prop where
  registry : m.FreshCreators
  atMost : ∀ uid, m.trace.count (Event.handleComplete uid) ≤ 1
  unborn : ∀ uid, m.created ≤ uid → m.trace.count (Event.handleComplete uid) = 0
  current : ∀ c, m.currentCommand = some c →
    c.uid < m.created ∧ c.hooks.CompletesOnce ∧
      m.trace.count (Event.handleComplete c.uid) = if c._isComplete then 1 else 0

/-- The event is a call of `updateArgs`. -/
def Event.isUpdateArgs : Event → Bool
  | Event.updateArgs _ _ _ => true
  | _ => false

/-- The event is a call of `process` on a background command. -/
def Event.isBgProcess : Event → Bool
  | Event.bgProcess _ => true
  | _ => false

/-- The lowered name of script entry `i` is a key of the background registry. -/
def AutoManager.isBgEntry (m : AutoManager σ β) (i : Nat) : Bool :=
  match m.loadedCommands[i]? with
  | some name => (m.backgroundCommands.lookup (tolower name)).isSome
  | none => false

/-- The lowered name of script entry `i` is a key of the foreground registry. -/
def AutoManager.isFgEntry (m : AutoManager σ β) (i : Nat) : Bool :=
  match m.loadedCommands[i]? with
  | some name => (m.registeredCommands.lookup (tolower name)).isSome
  | none => false

/-- The call of `updateArgs` made for script entry `i`: on the instance the lowered name maps
to, with the lowered name and the argument list of the entry. -/
def AutoManager.updateEvent (m : AutoManager σ β) (i : Nat) : Option Event :=
  match m.loadedCommands[i]?, m.loadedArguments[i]? with
  | some name, some args =>
    match m.backgroundCommands.lookup (tolower name) with
    | some idx => some (Event.updateArgs idx (tolower name) args)
    | none => none
  | _, _ => none

/-- The states the public functions keep the manager in: the two script vectors have the same
length, which fits an `int`; the cursor is a `size_t`; every index stored in the background
registry is an index of `uniqueBgCommands`. -/
structure AutoManager.WF (m : AutoManager σ β) : Prop where
  args_len : m.loadedArguments.length = m.loadedCommands.length
  len_lt : m.loadedCommands.length < 2 ^ 31
  idx_lt : m.currentCommandIndex < 2 ^ 64
  bg_lt : ∀ k i, m.backgroundCommands.lookup k = some i → i < m.uniqueBgCommands.length

/-- The manager after one `addCommand(name, args)` call (position -1) per given entry. -/
def AutoManager.withScript (m : AutoManager σ β) (entries : List (String × List String)) :
    AutoManager σ β :=
  entries.foldl (fun s e => s.addCommand e.1 e.2 (-1)) m

/-- What `handleNextBgCommands` leaves untouched in going from `m` to `s`: the script, the
registries, the active command and the instance counter; the trace only grows, by calls of
`updateArgs`. -/
structure LoopFrame (m s : AutoManager σ β) : Prop where
  loadedCommands : s.loadedCommands = m.loadedCommands
  loadedArguments : s.loadedArguments = m.loadedArguments
  currentCommand : s.currentCommand = m.currentCommand
  registeredCommands : s.registeredCommands = m.registeredCommands
  backgroundCommands : s.backgroundCommands = m.backgroundCommands
  bgCommandTypes : s.bgCommandTypes = m.bgCommandTypes
  created : s.created = m.created
  bgLength : s.uniqueBgCommands.length = m.uniqueBgCommands.length
  trace : ∃ evs, s.trace = m.trace ++ evs ∧ ∀ e ∈ evs, e.isUpdateArgs = true

/-- Modelled from the spec: script entry `i` is handed to its background task.  The instance
that the lowered name of the entry is bound to receives `updateArgs` with the lowered name and
with the argument list of the entry; every other instance stays as it is.  Nothing changes when
the name of the entry is not bound to a background task. -/
def AutoManager.handOver (m : AutoManager σ β) (bgs : List (BackgroundAutoCommand β))
    (i : Nat) : List (BackgroundAutoCommand β) :=
  match m.loadedCommands[i]?, m.loadedArguments[i]? with
  | some name, some args =>
    match m.backgroundCommands.lookup (tolower name) with
    | some idx =>
      match bgs[idx]? with
      | some b => bgs.set idx { b with self := b.updateArgs b.self (tolower name) args }
      | none => bgs
    | none => bgs
  | _, _ => bgs

/-- State `s` is state `m` after the `K` script entries under and after the cursor of `m` have
been handed to their background commands: the cursor is `K` entries further, the trace has
grown by the `K` calls of `updateArgs`, in script order, and the instances are those of `m`
after the `K` entries have been handed over, in script order. -/
structure Drained (m s : AutoManager σ β) (K : Nat) extends LoopFrame m s : Prop where
  cursor : s.currentCommandIndex = m.currentCommandIndex + K
  calls : s.trace =
    m.trace ++ (List.range' m.currentCommandIndex K).filterMap m.updateEvent
  instances : s.uniqueBgCommands =
    (List.range' m.currentCommandIndex K).foldl m.handOver m.uniqueBgCommands

/-- What the rest of a tick leaves untouched in going from `m` to `s`: the cursor and the
script; the trace only grows, and not by calls of `updateArgs`. -/
structure Quiet (m s : AutoManager σ β) : Prop where
  cursor : s.currentCommandIndex = m.currentCommandIndex
  loadedCommands : s.loadedCommands = m.loadedCommands
  trace : ∃ evs, s.trace = m.trace ++ evs ∧ ∀ e ∈ evs, e.isUpdateArgs = false

/-- One for a complete command, zero otherwise: the number of `handleComplete` calls a command
in this state is due. -/
def flag (c : AutoCommand σ) : Nat := if c._isComplete then 1 else 0

/-- As far as `handleComplete` goes, the calls concern instance `uid` only. -/
def OnlyFor (uid : Nat) (evs : List Event) : Prop :=
  ∀ u, u ≠ uid → evs.count (Event.handleComplete u) = 0

/-- No active command is complete. -/
def Settled (m : AutoManager σ β) : Prop :=
  ∀ c, m.currentCommand = some c → c._isComplete = false

/-! ## Registration sequences, script editing and the script parser -/

/-- Embeds `AutoManager::addCommands` (autonomous.cpp lines 184-201). -/
def AutoManager.addCommands (m : AutoManager σ β) (commands : List String)
    (arguments : List (List String)) (pos : Int) : AutoManager σ β :=
  if commands.length ≠ arguments.length then m
  else
    let pos : Int := if pos > intCast m.loadedCommands.length ∨ pos < -1 then -1 else pos
    if pos = -1 then
      { m with loadedCommands := m.loadedCommands ++ commands,
               loadedArguments := m.loadedArguments ++ arguments }
    else
      { m with loadedCommands :=
                 m.loadedCommands.take pos.toNat ++ commands ++ m.loadedCommands.drop pos.toNat,
               loadedArguments :=
                 m.loadedArguments.take pos.toNat ++ arguments ++
                   m.loadedArguments.drop pos.toNat }

/-- The loop of `AutoManager::split` (autonomous.cpp lines 87-95) on the characters that are
left in the stream; `cur` holds the characters `std::getline` has extracted for the current
token.  A delimiter ends the token, which is pushed even when it is empty; at the end of the
stream the token is pushed only when characters were extracted (a `getline` that extracts
nothing at the end of the stream fails and ends the loop). -/
def splitLoop (delimiter : Char) : List Char → List Char → List String
  | [], cur => if cur = [] then [] else [String.mk cur]
  | c :: cs, cur =>
    if c = delimiter then String.mk cur :: splitLoop delimiter cs []
    else splitLoop delimiter cs (cur ++ [c])

/-- Embeds `AutoManager::split` (autonomous.cpp lines 87-95). -/
def split (s : String) (delimiter : Char) : List String := splitLoop delimiter s.data []

/-- The replacement `std::regex_replace(text, std::regex("(\r\n|\r|\n)"), "\n")`
(autonomous.cpp line 148): every `\r\n`, every other `\r` and every `\n` becomes `\n`. -/
def normalizeLineEndings : List Char → List Char
  | [] => []
  | '\r' :: '\n' :: cs => '\n' :: normalizeLineEndings cs
  | '\r' :: cs => '\n' :: normalizeLineEndings cs
  | c :: cs => c :: normalizeLineEndings cs

/-- The loop over the lines in `AutoManager::loadScript` (autonomous.cpp lines 153-158).  The
read `columns[0]` is outside the vector when the line has no column. -/
def loadLines (m : AutoManager σ β) : List String → Except (AutoManager σ β) (AutoManager σ β)
  | [] => Except.ok m
  | line :: rest =>
    match split line ',' with
    | [] => Except.error m
    | command :: arguments =>
      loadLines
        { m with loadedCommands := m.loadedCommands ++ [command],
                 loadedArguments := m.loadedArguments ++ [arguments] }
        rest

/-- Embeds `AutoManager::loadScript` (autonomous.cpp lines 125-165).  The argument is the
content of the file, `none` when the file cannot be opened. -/
def AutoManager.loadScript (m : AutoManager σ β) (file : Option String) :
    Except (AutoManager σ β) (AutoManager σ β × Bool) :=
  match file with
  | none => Except.ok (m.clearCommands, false)
  | some contents =>
    match loadLines m.clearCommands
        (split (String.mk (normalizeLineEndings contents.data)) '\n') with
    | Except.error e => Except.error e
    | Except.ok s =>
      Except.ok ({ s with currentCommandIndex := 2 ^ 64 - 1, currentCommand := none }, true)

/-- A registration call. -/
inductive RegOp (σ β : Type) where
  | registerCommand (creator : CmdCreator σ) (name : String)
  | registerBackgroundCommand (typeName : String) (fresh : BackgroundAutoCommand β)
      (name : String)
  | unregisterAll

/-- The name is free: its lowered form is a key of neither registry (the test of
autonomous.cpp line 103 and autonomous.hpp line 193). -/
def AutoManager.isFree (m : AutoManager σ β) (name : String) : Bool :=
  (m.backgroundCommands.lookup (tolower name)).isNone &&
    (m.registeredCommands.lookup (tolower name)).isNone

/-- The effect of one registration call. -/
def AutoManager.register (m : AutoManager σ β) : RegOp σ β → AutoManager σ β
  | RegOp.registerCommand creator name => m.registerCommand creator name
  | RegOp.registerBackgroundCommand typeName fresh name =>
    m.registerBackgroundCommand typeName fresh name
  | RegOp.unregisterAll => m.unregisterAll

/-- The effect of a sequence of registration calls. -/
def AutoManager.registerAll (m : AutoManager σ β) : List (RegOp σ β) → AutoManager σ β
  | [] => m
  | op :: ops => AutoManager.registerAll (m.register op) ops

/-- The background names that are successfully registered, each with the string
`typeid(T).name()` of the class it was registered for: a call
`registerBackgroundCommand<T>(name)` adds `(lowered name, typeid(T).name())` when the name is
free in the state it is made in, and `unregisterAll` empties the list. -/
def successes : AutoManager σ β → List (String × String) → List (RegOp σ β) →
    List (String × String)
  | _, acc, [] => acc
  | m, acc, RegOp.registerBackgroundCommand typeName fresh name :: ops =>
    successes (m.registerBackgroundCommand typeName fresh name)
      (if m.isFree name then acc ++ [(tolower name, typeName)] else acc) ops
  | m, acc, RegOp.registerCommand creator name :: ops =>
    successes (m.registerCommand creator name) acc ops
  | m, _, RegOp.unregisterAll :: ops => successes m.unregisterAll [] ops

/-- The background registry of `m` agrees with the list `acc` of successful registrations. -/
structure Registry (m : AutoManager σ β) (acc : List (String × String)) : Prop where
  sameLength : m.bgCommandTypes.length = m.uniqueBgCommands.length
  nodup : m.bgCommandTypes.Nodup
  inRange : ∀ k i, m.backgroundCommands.lookup k = some i → i < m.uniqueBgCommands.length
  disjoint : ∀ k, (m.registeredCommands.lookup k).isSome = true →
    (m.backgroundCommands.lookup k).isSome = true → False
  keys : ∀ k, (m.backgroundCommands.lookup k).isSome = true ↔ k ∈ acc.map Prod.fst
  typed : ∀ p ∈ acc, ∃ i, m.backgroundCommands.lookup p.1 = some i ∧
    m.bgCommandTypes[i]? = some p.2
  used : ∀ T ∈ m.bgCommandTypes, T ∈ acc.map Prod.snd

/-- The cursor as a position in the script: the value `(size_t)-1` it has before the start
counts as `-1`. -/
def cursorPos (i : Nat) : Int := if i = 2 ^ 64 - 1 then -1 else (i : Int)

/-- The trace of `s` is the trace of `m` followed by calls none of which is a call of
`process` on a background command. -/
def NoBg (m s : AutoManager σ β) : Prop :=
  ∃ evs, s.trace = m.trace ++ evs ∧ ∀ e ∈ evs, e.isBgProcess = false

/-! ## Concrete states -/

/-- The command `startedDrive` after its timeout has completed it. -/
def completedDrive : AutoCommand Unit :=
  { self := (), hooks := DriveCommand msOfDigits, _hasStarted := true, _isComplete := true,
    timeout := 2000, commandName := "drive", arguments := ["2"] }

/-- The script `drive,2`. -/
def driveScript : AutoManager Unit BgFields := mainManager.withScript [("drive", ["2"])]

/-- The script `drive` (no argument). -/
def driveNoArgsScript : AutoManager Unit BgFields := mainManager.withScript [("drive", [])]

/-- The script `intake_in`. -/
def intakeScript : AutoManager Unit BgFields := mainManager.withScript [("intake_in", [])]

/-- The script `drive,2` / `intake_stop`. -/
def driveStopScript : AutoManager Unit BgFields :=
  mainManager.withScript [("drive", ["2"]), ("intake_stop", [])]

/-- The script `intake_in` / `Intake_OUT` / `drive,2`. -/
def runScript : AutoManager Unit BgFields :=
  mainManager.withScript [("intake_in", []), ("Intake_OUT", []), ("drive", ["2"])]

/-- The script `intake_in` / `wait,1` / `rotate,1`; no command is registered as `wait`. -/
def waitScript : AutoManager Unit BgFields :=
  mainManager.withScript [("intake_in", []), ("wait", ["1"]), ("rotate", ["1"])]

/-- The state of `driveScript` after the tick at time 0: the drive command is running. -/
def drivingState : AutoManager Unit BgFields := tickState (driveScript.process 0)

/-- The script `DRIVE,2`. -/
def shoutScript : AutoManager Unit BgFields := mainManager.withScript [("DRIVE", ["2"])]

/-- The script `drive,2` / `intake_in`. -/
def driveIntakeScript : AutoManager Unit BgFields :=
  mainManager.withScript [("drive", ["2"]), ("intake_in", [])]

/-- The script `drive,2` / `intake_in` / `rotate,1` of the demo scenario. -/
def scenarioScript : AutoManager Unit BgFields :=
  mainManager.withScript [("drive", ["2"]), ("intake_in", []), ("rotate", ["1"])]

/-- The drive command of the scenario, started at `t0`. -/
def scenarioDrive (t0 : Int) (complete : Bool) : AutoCommand Unit :=
  { self := (), hooks := DriveCommand msOfDigits, _hasStarted := true, _isComplete := complete,
    timeout := 2000, startTime := t0, commandName := "drive", arguments := ["2"], uid := 0 }

/-- The rotate command of the scenario, started at `t3`. -/
def scenarioRotate (t3 : Int) (complete : Bool) : AutoCommand Unit :=
  { self := (), hooks := RotateCommand msOfDigits, _hasStarted := true, _isComplete := complete,
    timeout := 1000, startTime := t3, commandName := "rotate", arguments := ["1"], uid := 1 }

/-- The scenario while the drive command is the active command. -/
def drivePhase (t0 : Int) (complete : Bool) (tr : List Event) : AutoManager Unit BgFields :=
  { scenarioScript with currentCommandIndex := 0,
                        currentCommand := some (scenarioDrive t0 complete),
                        trace := tr, created := 1 }

/-- The background instances of the scenario after the entry `intake_in`. -/
def scenarioBackground : List (BackgroundAutoCommand BgFields) :=
  [IntakeCommand.doUpdateArgs "intake_in" [], LifterCommand (fun s => msOfDigits s / 1000)]

/-- The scenario while the rotate command is the active command. -/
def rotatePhase (t3 : Int) (complete : Bool) (tr : List Event) : AutoManager Unit BgFields :=
  { scenarioScript with currentCommandIndex := 2,
                        currentCommand := some (scenarioRotate t3 complete),
                        uniqueBgCommands := scenarioBackground,
                        trace := tr, created := 2 }

/-- The scenario after the script has finished, `n` ticks later. -/
def finishedPhase (n : Nat) (tr : List Event) : AutoManager Unit BgFields :=
  { scenarioScript with currentCommandIndex := 3 + n,
                        currentCommand := none,
                        uniqueBgCommands := scenarioBackground,
                        trace := tr, created := 2 }

/-- The state of `driveScript` after the ticks at 0 and 2000 ms: the drive command has timed
out and is complete. -/
def timedOutState : AutoManager Unit BgFields := tickState (drivingState.process 2000)

/-- The state of `driveScript` after the ticks at 0, 2000 and 2050 ms: the script has
finished. -/
def finishedState : AutoManager Unit BgFields := tickState (timedOutState.process 2050)

/-- The script `intake_in` / `move_lifter,3` / `drive,2`. -/
def liftScript : AutoManager Unit BgFields :=
  mainManager.withScript [("intake_in", []), ("move_lifter", ["3"]), ("drive", ["2"])]

/-- The script `MOVE_LIFTER,3` / `INTAKE_IN` / `DRIVE,2`, written in capitals. -/
def capitalsScript : AutoManager Unit BgFields :=
  mainManager.withScript [("MOVE_LIFTER", ["3"]), ("INTAKE_IN", []), ("DRIVE", ["2"])]

/-! # Theorems -/

/-! ## Hook calls -/

@[simp] theorem complete_fst_isComplete (c : AutoCommand σ) : c.complete.1._isComplete = true := rfl
@[simp] theorem complete_fst_uid (c : AutoCommand σ) : c.complete.1.uid = c.uid := rfl
@[simp] theorem complete_fst_hooks (c : AutoCommand σ) : c.complete.1.hooks = c.hooks := rfl
@[simp] theorem complete_fst_hasStarted (c : AutoCommand σ) :
    c.complete.1._hasStarted = c._hasStarted := rfl
@[simp] theorem complete_snd (c : AutoCommand σ) :
    c.complete.2 = [Event.handleComplete c.uid] := rfl

theorem exec_uid (calls : List BaseCall) (c : AutoCommand σ) : (c.exec calls).1.uid = c.uid := by
  induction calls generalizing c with
  | nil => rfl
  | cons a rest ih =>
    cases a with
    | complete => simp [AutoCommand.exec, ih]
    | setTimeout t => simp [AutoCommand.exec, ih, AutoCommand.setTimeout]

theorem exec_hooks (calls : List BaseCall) (c : AutoCommand σ) :
    (c.exec calls).1.hooks = c.hooks := by
  induction calls generalizing c with
  | nil => rfl
  | cons a rest ih =>
    cases a with
    | complete => simp [AutoCommand.exec, ih]
    | setTimeout t => simp [AutoCommand.exec, ih, AutoCommand.setTimeout]

theorem exec_hasStarted (calls : List BaseCall) (c : AutoCommand σ) :
    (c.exec calls).1._hasStarted = c._hasStarted := by
  induction calls generalizing c with
  | nil => rfl
  | cons a rest ih =>
    cases a with
    | complete => simp [AutoCommand.exec, ih]
    | setTimeout t => simp [AutoCommand.exec, ih, AutoCommand.setTimeout]

theorem exec_isComplete (calls : List BaseCall) (c : AutoCommand σ) :
    (c.exec calls).1._isComplete = (c._isComplete || decide (BaseCall.complete ∈ calls)) := by
  induction calls generalizing c with
  | nil => simp [AutoCommand.exec]
  | cons a rest ih =>
    cases a with
    | complete => simp [AutoCommand.exec, ih]
    | setTimeout t => simp [AutoCommand.exec, ih, AutoCommand.setTimeout]

theorem exec_events (calls : List BaseCall) (c : AutoCommand σ) :
    (c.exec calls).2 =
      List.replicate (calls.count BaseCall.complete) (Event.handleComplete c.uid) := by
  induction calls generalizing c with
  | nil => simp [AutoCommand.exec]
  | cons a rest ih =>
    cases a with
    | complete => simp [AutoCommand.exec, ih, List.replicate_succ]
    | setTimeout t => simp [AutoCommand.exec, ih, AutoCommand.setTimeout]

/-! ## AutoCommand: doProcess and complete -/

theorem process_events (c : AutoCommand σ) :
    c.process.2 = Event.process c.uid ::
      List.replicate ((c.hooks.process c.toCommandFields c.self).2.count BaseCall.complete)
        (Event.handleComplete c.uid) := by
  simp [AutoCommand.process, exec_events]

/-- C6 fails as stated: `complete()` on a drive command that is already complete calls
`handleComplete` again. -/
theorem C6_complete_again_calls_hook :
    completedDrive.isComplete = true ∧
    completedDrive.complete.2 = [Event.handleComplete 0] ∧
    completedDrive.complete.2 ≠ [] := by
  decide

/-- C6, amended. Every call of `complete()` leaves the command complete and calls
`handleComplete` exactly once, whether or not the command was complete before; the other base
fields keep their values, so on a command that is already complete no base field changes. -/
theorem C6_complete_every_call (c : AutoCommand σ) :
    c.complete.1.isComplete = true ∧
    c.complete.2 = [Event.handleComplete c.uid] ∧
    c.complete.1.toCommandFields = { c.toCommandFields with _isComplete := true } :=
  ⟨rfl, rfl, rfl⟩

/-! ## Casts -/

theorem sizeCast_intCast {n : Nat} (h : n < 2 ^ 31) : sizeCast (intCast n) = n := by
  have h1 : n % 2 ^ 32 = n := Nat.mod_eq_of_lt (by omega)
  unfold sizeCast intCast
  rw [h1, if_pos h]
  have h2 : ((n : Int) % 2 ^ 64) = (n : Int) := Int.emod_eq_of_lt (by omega) (by omega)
  rw [h2]
  simp

theorem sizeSucc_eq {i : Nat} (h : i + 1 < 2 ^ 64) : sizeSucc i = i + 1 :=
  Nat.mod_eq_of_lt h

theorem pastEnd_eq (m : AutoManager σ β) (h : m.loadedCommands.length < 2 ^ 31) :
    m.pastEnd = decide (m.loadedCommands.length ≤ m.currentCommandIndex) := by
  simp [AutoManager.pastEnd, sizeCast_intCast h]

/-! ## The background loops -/

theorem killAll_snd (bs : List (BackgroundAutoCommand β)) (i : Nat) :
    (killAll i bs).2 = (List.range' i bs.length).map Event.kill := by
  induction bs generalizing i with
  | nil => rfl
  | cons b bs ih => simp [killAll, ih, List.range'_succ]

theorem processAll_length (bs : List (BackgroundAutoCommand β)) (i : Nat) :
    (processAll i bs).1.length = bs.length := by
  induction bs generalizing i with
  | nil => rfl
  | cons b bs ih =>
    unfold processAll
    split <;> simp [ih]

theorem processAll_events (bs : List (BackgroundAutoCommand β)) (i : Nat) :
    ∀ e ∈ (processAll i bs).2, e.isBgProcess = true := by
  induction bs generalizing i with
  | nil => simp [processAll]
  | cons b bs ih =>
    unfold processAll
    split
    · intro e he
      rcases List.mem_cons.1 he with h | h
      · subst h; rfl
      · exact ih _ e h
    · exact ih _

/-! ## killAuto and clearCommands -/

/-- A tick of a manager that has no active command and whose cursor is at or past the end of
a non-empty script: the cursor moves on, the background commands are processed, and the
result is `false`. -/
theorem process_idle (m : AutoManager σ β) (now : Int)
    (hne : m.loadedCommands ≠ []) (hcur : m.currentCommand = none)
    (hlen : m.loadedCommands.length < 2 ^ 31)
    (hidx : m.loadedCommands.length ≤ m.currentCommandIndex + 1)
    (hw : m.currentCommandIndex + 1 < 2 ^ 64) :
    m.process now = Except.ok (m.moveOn.processBackground, false) := by
  have h1 : ¬ m.loadedCommandCount < 1 := by
    have := List.length_pos.2 hne
    simp only [AutoManager.loadedCommandCount]; omega
  have hwn : m.wantsNext = true := by simp [AutoManager.wantsNext, hcur]
  have hp : m.moveOn.pastEnd = true := by
    rw [pastEnd_eq _ (by simpa [AutoManager.moveOn] using hlen)]
    simp only [decide_eq_true_eq, AutoManager.moveOn, sizeSucc_eq hw]; omega
  have ha : m.advance = Except.ok (m.moveOn, false) := by
    unfold AutoManager.advance
    rw [if_pos hwn, if_pos hp]
  have hr : m.moveOn.runCurrent now = Except.ok m.moveOn := rfl
  unfold AutoManager.process
  rw [if_neg h1, ha]
  simp only [hr]

theorem processTicks_idle (nows : List Int) (m : AutoManager σ β)
    (hne : m.loadedCommands ≠ []) (hcur : m.currentCommand = none)
    (hlen : m.loadedCommands.length < 2 ^ 31)
    (hidx : m.loadedCommands.length ≤ m.currentCommandIndex)
    (hw : m.currentCommandIndex + nows.length < 2 ^ 64) :
    ∃ s evs, m.processTicks nows = Except.ok (s, List.replicate nows.length false) ∧
      s.currentCommand = none ∧ s.created = m.created ∧
      s.trace = m.trace ++ evs ∧ ∀ e ∈ evs, e.isBgProcess = true := by
  induction nows generalizing m with
  | nil => exact ⟨m, [], rfl, hcur, rfl, by simp, by simp⟩
  | cons now rest ih =>
    simp only [List.length_cons] at hw
    have hp := process_idle m now hne hcur hlen (by omega) (by omega)
    have hi : m.moveOn.processBackground.currentCommandIndex = m.currentCommandIndex + 1 :=
      sizeSucc_eq (by omega)
    obtain ⟨s, evs, hs, h1, h2, h3, h4⟩ :=
      ih m.moveOn.processBackground hne rfl hlen
        (by rw [hi]; show m.loadedCommands.length ≤ _; omega) (by rw [hi]; omega)
    refine ⟨s, (processAll 0 m.uniqueBgCommands).2 ++ evs, ?_, h1, h2, ?_, ?_⟩
    · simp only [AutoManager.processTicks, hp, hs, List.length_cons, List.replicate_succ]
    · rw [h3, ← List.append_assoc]; rfl
    · intro e he
      rcases List.mem_append.1 he with h | h
      · exact processAll_events _ _ e h
      · exact h4 e h

/-- C8. After `clearCommands()` the script is empty and the next `process()` returns `false`
(it returns at once, leaving the state as it is). -/
theorem C8_clearCommands (m : AutoManager σ β) (now : Int) :
    m.clearCommands.loadedCommandCount = 0 ∧
    m.clearCommands.process now = Except.ok (m.clearCommands, false) := by
  constructor
  · rfl
  · simp [AutoManager.process, AutoManager.loadedCommandCount, AutoManager.clearCommands]

/-! ## handleNextBgCommands -/

theorem loopFrame_refl (m : AutoManager σ β) : LoopFrame m m :=
  ⟨rfl, rfl, rfl, rfl, rfl, rfl, rfl, rfl, [], by simp, by simp⟩

theorem loopFrame_trans {a b c : AutoManager σ β} (h1 : LoopFrame a b) (h2 : LoopFrame b c) :
    LoopFrame a c := by
  obtain ⟨e1, he1, hu1⟩ := h1.trace
  obtain ⟨e2, he2, hu2⟩ := h2.trace
  refine ⟨h2.loadedCommands.trans h1.loadedCommands, h2.loadedArguments.trans h1.loadedArguments,
    h2.currentCommand.trans h1.currentCommand,
    h2.registeredCommands.trans h1.registeredCommands,
    h2.backgroundCommands.trans h1.backgroundCommands,
    h2.bgCommandTypes.trans h1.bgCommandTypes, h2.created.trans h1.created,
    h2.bgLength.trans h1.bgLength, e1 ++ e2, ?_, ?_⟩
  · rw [he2, he1, List.append_assoc]
  · intro e he
    rcases List.mem_append.1 he with h | h
    · exact hu1 e h
    · exact hu2 e h

/-- One iteration of the loop body (autonomous.cpp lines 222-223). -/
theorem loopFrame_step (m : AutoManager σ β) (idx : Nat) (bg : BackgroundAutoCommand β)
    (key : String) (args : List String) :
    LoopFrame m
      { m with uniqueBgCommands := m.uniqueBgCommands.set idx (bg.doUpdateArgs key args),
               trace := m.trace ++ [Event.updateArgs idx key args],
               currentCommandIndex := sizeSucc m.currentCommandIndex } :=
  ⟨rfl, rfl, rfl, rfl, rfl, rfl, rfl, by simp, [Event.updateArgs idx key args], rfl,
    by simp [Event.isUpdateArgs]⟩

theorem handleNextBgLoop_frame (fuel : Nat) :
    ∀ (m : AutoManager σ β) (key : String), LoopFrame m (lastState (handleNextBgLoop fuel m key)) := by
  induction fuel with
  | zero => intro m key; exact loopFrame_refl m
  | succ f ih =>
    intro m key
    unfold handleNextBgLoop
    split
    · exact loopFrame_refl m
    · split
      · simp only
        split
        · exact loopFrame_trans (loopFrame_step m _ _ key _) (ih _ _)
        · exact loopFrame_step m _ _ key _
      · exact loopFrame_refl m

theorem handleNextBgCommands_frame (m : AutoManager σ β) :
    LoopFrame m (lastState m.handleNextBgCommands) := by
  unfold AutoManager.handleNextBgCommands
  split
  · exact loopFrame_refl m
  · exact handleNextBgLoop_frame _ _ _

theorem updateEvent_congr {m s : AutoManager σ β} (h : LoopFrame m s) :
    s.updateEvent = m.updateEvent := by
  funext i
  simp [AutoManager.updateEvent, h.loadedCommands, h.loadedArguments, h.backgroundCommands]

theorem isBgEntry_congr {m s : AutoManager σ β} (h : LoopFrame m s) :
    s.isBgEntry = m.isBgEntry := by
  funext i
  simp [AutoManager.isBgEntry, h.loadedCommands, h.backgroundCommands]

theorem handOver_congr {m s : AutoManager σ β} (h : LoopFrame m s) :
    s.handOver = m.handOver := by
  funext bgs i
  simp [AutoManager.handOver, h.loadedCommands, h.loadedArguments, h.backgroundCommands]

theorem drained_zero (m : AutoManager σ β) : Drained m m 0 :=
  ⟨loopFrame_refl m, rfl, by simp, by simp⟩

theorem drained_cons {m m1 s : AutoManager σ β} {K : Nat}
    (h1 : Drained m m1 1) (h2 : Drained m1 s K) : Drained m s (K + 1) := by
  refine ⟨loopFrame_trans h1.toLoopFrame h2.toLoopFrame, ?_, ?_, ?_⟩
  · rw [h2.cursor, h1.cursor]; omega
  · rw [h2.calls, h1.calls, h1.cursor, updateEvent_congr h1.toLoopFrame, List.append_assoc,
      ← List.filterMap_append]
    congr 2
  · rw [h2.instances, h1.instances, h1.cursor, handOver_congr h1.toLoopFrame,
      ← List.foldl_append]
    congr 1

theorem updateEvent_of_bg (m : AutoManager σ β) (i idx : Nat) (name : String)
    (args : List String) (h1 : m.loadedCommands[i]? = some name)
    (h2 : m.loadedArguments[i]? = some args)
    (h3 : m.backgroundCommands.lookup (tolower name) = some idx) :
    m.updateEvent i = some (Event.updateArgs idx (tolower name) args) := by
  simp [AutoManager.updateEvent, h1, h2, h3]

/-- The loop of `handleNextBgCommands` on a run of `K` background entries that starts under the
cursor: the `K` entries are drained; the loop then stops with an out-of-bounds read when the
run reaches the end of the script, and goes on with the entry after the run otherwise. -/
theorem handleNextBgLoop_drain (K : Nat) :
    ∀ (fuel : Nat) (m : AutoManager σ β) (key : String),
      m.loadedArguments.length = m.loadedCommands.length →
      (∀ k i, m.backgroundCommands.lookup k = some i → i < m.uniqueBgCommands.length) →
      m.currentCommandIndex + K ≤ m.loadedCommands.length →
      m.loadedCommands.length < 2 ^ 64 →
      K ≤ fuel →
      (∀ j, j < K → m.isBgEntry (m.currentCommandIndex + j) = true) →
      (∀ n, m.loadedCommands[m.currentCommandIndex]? = some n → key = tolower n) →
      ∃ s, Drained m s K ∧
        (m.currentCommandIndex + K = m.loadedCommands.length → 1 ≤ K →
          handleNextBgLoop fuel m key = Except.error s) ∧
        (∀ n, m.loadedCommands[m.currentCommandIndex + K]? = some n →
          handleNextBgLoop fuel m key = handleNextBgLoop (fuel - K) s (tolower n)) := by
  induction K with
  | zero =>
    intro fuel m key _ _ _ _ _ _ hkey
    refine ⟨m, drained_zero m, ?_, ?_⟩
    · intro _ h; omega
    · intro n hn
      rw [hkey n (by simpa using hn)]; rfl
  | succ K ih =>
    intro fuel m key hargs hbg hle hlen hfuel hrun hkey
    obtain ⟨f, rfl⟩ : ∃ f, fuel = f + 1 := ⟨fuel - 1, by omega⟩
    have hc : m.currentCommandIndex < m.loadedCommands.length := by omega
    -- the entry under the cursor
    have h0 := hrun 0 (by omega)
    simp only [AutoManager.isBgEntry, Nat.add_zero] at h0
    obtain ⟨name, hname⟩ : ∃ name, m.loadedCommands[m.currentCommandIndex]? = some name :=
      ⟨_, List.getElem?_eq_getElem hc⟩
    rw [hname] at h0
    obtain ⟨idx, hidx⟩ := Option.isSome_iff_exists.1 h0
    have hk := hkey name hname
    subst hk
    obtain ⟨args, hargsAt⟩ : ∃ a, m.loadedArguments[m.currentCommandIndex]? = some a :=
      ⟨_, List.getElem?_eq_getElem (by omega)⟩
    obtain ⟨bg, hbgAt⟩ : ∃ b, m.uniqueBgCommands[idx]? = some b :=
      ⟨_, List.getElem?_eq_getElem (hbg _ _ hidx)⟩
    have hsucc : sizeSucc m.currentCommandIndex = m.currentCommandIndex + 1 :=
      sizeSucc_eq (by omega)
    -- the state after the first iteration
    let m1 : AutoManager σ β :=
      { m with uniqueBgCommands := m.uniqueBgCommands.set idx (bg.doUpdateArgs (tolower name) args),
               trace := m.trace ++ [Event.updateArgs idx (tolower name) args],
               currentCommandIndex := sizeSucc m.currentCommandIndex }
    have hd1 : Drained m m1 1 := by
      refine ⟨loopFrame_step m idx bg (tolower name) args, ?_, ?_, ?_⟩
      · exact hsucc
      · simp [m1, updateEvent_of_bg m _ idx name args hname hargsAt hidx]
      · simp only [m1, List.range'_one, List.foldl_cons, List.foldl_nil, AutoManager.handOver,
          hname, hargsAt, hidx, hbgAt]
        rfl
    have hunf : handleNextBgLoop (f + 1) m (tolower name) =
        match m.loadedCommands[m.currentCommandIndex + 1]? with
        | some next => handleNextBgLoop f m1 (tolower next)
        | none => Except.error m1 := by
      rw [handleNextBgLoop]
      simp only [hidx, hbgAt, hargsAt, hsucc, m1]
    cases hnext : m.loadedCommands[m.currentCommandIndex + 1]? with
    | none =>
      have hK : K = 0 := by
        have := List.getElem?_eq_none_iff.1 hnext
        omega
      subst hK
      refine ⟨m1, hd1, ?_, ?_⟩
      · intro _ _
        rw [hunf, hnext]
      · intro n hn
        rw [hnext] at hn
        cases hn
    | some next =>
      have hm1c : m1.currentCommandIndex = m.currentCommandIndex + 1 := hsucc
      obtain ⟨s, hds, herr, hgo⟩ := ih f m1 (tolower next) hargs
        (by intro k i hki; simpa [m1] using hbg k i hki)
        (by rw [hm1c]; show m.currentCommandIndex + 1 + K ≤ m.loadedCommands.length; omega)
        hlen (by omega)
        (by
          intro j hj
          rw [isBgEntry_congr hd1.toLoopFrame, hm1c]
          have := hrun (j + 1) (by omega)
          rwa [show m.currentCommandIndex + 1 + j = m.currentCommandIndex + (j + 1) by omega])
        (by
          intro n hn
          rw [hm1c] at hn
          have : m1.loadedCommands = m.loadedCommands := rfl
          rw [this, hnext] at hn
          cases hn; rfl)
      refine ⟨s, drained_cons hd1 hds, ?_, ?_⟩
      · intro hend _
        have hK : 1 ≤ K := by
          rcases Nat.eq_zero_or_pos K with h | h
          · subst h
            have := List.getElem?_eq_none_iff.2 (show m.loadedCommands.length ≤ m.currentCommandIndex + 1 by omega)
            rw [this] at hnext; cases hnext
          · exact h
        rw [hunf, hnext]
        exact herr (by rw [hm1c]; show m.currentCommandIndex + 1 + K = m.loadedCommands.length; omega) hK
      · intro n hn
        rw [hunf, hnext]
        have := hgo n (by
          rw [hm1c]
          show m.loadedCommands[m.currentCommandIndex + 1 + K]? = some n
          rwa [show m.currentCommandIndex + 1 + K = m.currentCommandIndex + (K + 1) by omega])
        simpa using this

/-! ## The advance step of process -/

theorem handleNextBgCommands_run (m : AutoManager σ β) (K : Nat) (hwf : m.WF)
    (hrun : ∀ j, j < K → m.isBgEntry (m.currentCommandIndex + j) = true)
    (hmax : m.isBgEntry (m.currentCommandIndex + K) = false)
    (hc : m.currentCommandIndex < m.loadedCommands.length)
    (hle : m.currentCommandIndex + K ≤ m.loadedCommands.length) :
    ∃ s, Drained m s K ∧
      (m.currentCommandIndex + K < m.loadedCommands.length →
        m.handleNextBgCommands = Except.ok s) ∧
      (m.currentCommandIndex + K = m.loadedCommands.length →
        m.handleNextBgCommands = Except.error s) := by
  obtain ⟨name, hname⟩ : ∃ name, m.loadedCommands[m.currentCommandIndex]? = some name :=
    ⟨_, List.getElem?_eq_getElem hc⟩
  have hlen := hwf.len_lt
  obtain ⟨s, hd, herr, hgo⟩ := handleNextBgLoop_drain K (m.loadedCommands.length + 1) m
    (tolower name) hwf.args_len hwf.bg_lt hle (by omega) (by omega) hrun
    (by intro n hn; rw [hname] at hn; cases hn; rfl)
  refine ⟨s, hd, ?_, ?_⟩
  · intro hlt
    obtain ⟨n, hn⟩ : ∃ n, m.loadedCommands[m.currentCommandIndex + K]? = some n :=
      ⟨_, List.getElem?_eq_getElem hlt⟩
    have hnb : s.backgroundCommands.lookup (tolower n) = none := by
      simp only [AutoManager.isBgEntry, hn] at hmax
      rw [hd.backgroundCommands]
      simpa using hmax
    obtain ⟨f, hf⟩ : ∃ f, m.loadedCommands.length + 1 - K = f + 1 :=
      ⟨m.loadedCommands.length - K, by omega⟩
    simp only [AutoManager.handleNextBgCommands, hname, hgo n hn, hf]
    rw [handleNextBgLoop]
    simp only [hnb]
  · intro heq
    have hK : 1 ≤ K := by omega
    simp only [AutoManager.handleNextBgCommands, hname, herr heq hK]

theorem WF_moveOn {m : AutoManager σ β} (hwf : m.WF) : m.moveOn.WF :=
  ⟨hwf.args_len, hwf.len_lt, Nat.mod_lt _ (by norm_num), hwf.bg_lt⟩


theorem quiet_refl (m : AutoManager σ β) : Quiet m m := ⟨rfl, rfl, [], by simp, by simp⟩

theorem quiet_trans {a b c : AutoManager σ β} (h1 : Quiet a b) (h2 : Quiet b c) : Quiet a c := by
  obtain ⟨e1, he1, hu1⟩ := h1.trace
  obtain ⟨e2, he2, hu2⟩ := h2.trace
  refine ⟨h2.cursor.trans h1.cursor, h2.loadedCommands.trans h1.loadedCommands, e1 ++ e2, ?_, ?_⟩
  · rw [he2, he1, List.append_assoc]
  · intro e he
    rcases List.mem_append.1 he with h | h
    · exact hu1 e h
    · exact hu2 e h

theorem quiet_of_append (m : AutoManager σ β) (s : AutoManager σ β) (evs : List Event)
    (h1 : s.currentCommandIndex = m.currentCommandIndex)
    (h2 : s.loadedCommands = m.loadedCommands) (h3 : s.trace = m.trace ++ evs)
    (h4 : ∀ e ∈ evs, e.isUpdateArgs = false) : Quiet m s := ⟨h1, h2, evs, h3, h4⟩

theorem createNext_spec (m : AutoManager σ β)
    (hc : m.currentCommandIndex < m.loadedCommands.length) :
    ∃ s, m.createNext = Except.ok (s, true) ∧ Quiet m s ∧
      s.loadedArguments = m.loadedArguments := by
  obtain ⟨name, hname⟩ : ∃ name, m.loadedCommands[m.currentCommandIndex]? = some name :=
    ⟨_, List.getElem?_eq_getElem hc⟩
  unfold AutoManager.createNext
  rw [hname]
  simp only
  split
  · split
    · refine ⟨_, rfl, quiet_of_append m _ [Event.create m.created] rfl rfl rfl ?_, rfl⟩
      simp [Event.isUpdateArgs]
    · exact ⟨_, rfl, quiet_of_append m _ [] rfl rfl (List.append_nil _).symm (by simp), rfl⟩
  · exact ⟨m, rfl, quiet_refl m, rfl⟩

theorem process_no_updateArgs (c : AutoCommand σ) : ∀ e ∈ c.process.2, e.isUpdateArgs = false := by
  intro e he
  rw [process_events] at he
  rcases List.mem_cons.1 he with h | h
  · subst h; rfl
  · rw [List.eq_of_mem_replicate h]; rfl

theorem start_events (c : AutoCommand σ) (name : String) (args : List String) :
    (c.start name args).2 = Event.start c.uid name args ::
      List.replicate ((c.hooks.start c.toCommandFields c.self name args).2.count BaseCall.complete)
        (Event.handleComplete c.uid) := by
  simp [AutoCommand.start, exec_events]

theorem doStart_no_updateArgs (c : AutoCommand σ) (now : Int) (name : String)
    (args : List String) : ∀ e ∈ (c.doStart now name args).2, e.isUpdateArgs = false := by
  intro e he
  rw [AutoCommand.doStart, start_events] at he
  rcases List.mem_cons.1 he with h | h
  · subst h; rfl
  · rw [List.eq_of_mem_replicate h]; rfl

theorem doProcess_cases (c : AutoCommand σ) (now : Int) :
    c.doProcess now = c.complete ∨ c.doProcess now = (c, []) ∨ c.doProcess now = c.process := by
  unfold AutoCommand.doProcess
  by_cases ht : c.hasTimedOut now = true
  · left; simp [ht]
  · right
    by_cases hg : (c._isComplete || !c._hasStarted) = true
    · left; simp [ht, hg]
    · right
      simp only [ht, Bool.false_eq_true, if_false]
      rw [if_neg hg]
      simp

theorem doProcess_no_updateArgs (c : AutoCommand σ) (now : Int) :
    ∀ e ∈ (c.doProcess now).2, e.isUpdateArgs = false := by
  intro e he
  rcases doProcess_cases c now with h | h | h <;> rw [h] at he
  · rw [complete_snd] at he
    rw [List.mem_singleton.1 he]; rfl
  · simp at he
  · exact process_no_updateArgs _ e he

theorem runCurrent_spec (m : AutoManager σ β) (now : Int)
    (hc : m.currentCommandIndex < m.loadedCommands.length)
    (hargs : m.loadedArguments.length = m.loadedCommands.length) :
    ∃ s, m.runCurrent now = Except.ok s ∧ Quiet m s := by
  obtain ⟨name, hname⟩ : ∃ name, m.loadedCommands[m.currentCommandIndex]? = some name :=
    ⟨_, List.getElem?_eq_getElem hc⟩
  obtain ⟨args, hargsAt⟩ : ∃ a, m.loadedArguments[m.currentCommandIndex]? = some a :=
    ⟨_, List.getElem?_eq_getElem (by omega)⟩
  unfold AutoManager.runCurrent
  split
  · exact ⟨m, rfl, quiet_refl m⟩
  · rename_i c _
    split
    · rw [hname, hargsAt]
      refine ⟨_, rfl, quiet_of_append m _
        ((c.doStart now name args).2 ++ (c.doStart now name args).1.process.2) rfl rfl
        (by simp [List.append_assoc]) ?_⟩
      intro e he
      rcases List.mem_append.1 he with h | h
      · exact doStart_no_updateArgs _ _ _ _ e h
      · exact process_no_updateArgs _ e h
    · exact ⟨_, rfl, quiet_of_append m _ (c.doProcess now).2 rfl rfl rfl
        (doProcess_no_updateArgs c now)⟩

theorem processBackground_quiet (m : AutoManager σ β) : Quiet m m.processBackground := by
  refine quiet_of_append m _ (processAll 0 m.uniqueBgCommands).2 rfl rfl rfl ?_
  intro e he
  have := processAll_events _ _ e he
  cases e <;> simp_all [Event.isBgProcess, Event.isUpdateArgs]

/-- A tick that moves the cursor onto a run of `K` background entries (`K` may be zero) which
is followed by an entry that is not a background entry, or by the end of the script. -/
theorem process_run (m : AutoManager σ β) (now : Int) (K : Nat) (hwf : m.WF)
    (hnext : m.wantsNext = true)
    (hc : sizeSucc m.currentCommandIndex < m.loadedCommands.length)
    (hfit : sizeSucc m.currentCommandIndex + K ≤ m.loadedCommands.length)
    (hrun : ∀ j, j < K → m.isBgEntry (sizeSucc m.currentCommandIndex + j) = true)
    (hmax : m.isBgEntry (sizeSucc m.currentCommandIndex + K) = false) :
    ∃ s, Drained m.moveOn s K ∧
      (sizeSucc m.currentCommandIndex + K = m.loadedCommands.length →
        m.process now = Except.error s) ∧
      (sizeSucc m.currentCommandIndex + K < m.loadedCommands.length →
        ∃ s1 s2, s.createNext = Except.ok (s1, true) ∧ s1.runCurrent now = Except.ok s2 ∧
          Quiet s s1 ∧ Quiet s1 s2 ∧
          m.process now = Except.ok (s2.processBackground, true)) := by
  have hwf1 := WF_moveOn hwf
  have hidx1 : m.moveOn.currentCommandIndex = sizeSucc m.currentCommandIndex := rfl
  have hbgE : m.moveOn.isBgEntry = m.isBgEntry := rfl
  obtain ⟨s, hd, hok, herr⟩ := handleNextBgCommands_run m.moveOn K hwf1
    (by rw [hbgE, hidx1]; exact hrun) (by rw [hbgE, hidx1]; exact hmax) hc hfit
  have h1 : ¬ m.loadedCommandCount < 1 := by
    simp only [AutoManager.loadedCommandCount]; omega
  have hp : m.moveOn.pastEnd = false := by
    rw [pastEnd_eq _ hwf1.len_lt]
    simp only [decide_eq_false_iff_not, not_le]
    exact hc
  refine ⟨s, hd, ?_, ?_⟩
  · intro hend
    have ha : m.advance = Except.error s := by
      unfold AutoManager.advance
      rw [if_pos hnext, hp, herr hend]
      simp
    unfold AutoManager.process
    rw [if_neg h1, ha]
  · intro hlt
    have hsc : s.currentCommandIndex < s.loadedCommands.length := by
      rw [hd.cursor, hd.loadedCommands]; exact hlt
    have hps : s.pastEnd = false := by
      rw [pastEnd_eq _ (by rw [hd.loadedCommands]; exact hwf1.len_lt)]
      simp only [decide_eq_false_iff_not, not_le]
      exact hsc
    obtain ⟨s1, hs1, hq1, ha1⟩ := createNext_spec s hsc
    have hs1c : s1.currentCommandIndex < s1.loadedCommands.length := by
      rw [hq1.cursor, hq1.loadedCommands]; exact hsc
    obtain ⟨s2, hs2, hq2⟩ := runCurrent_spec s1 now hs1c
      (by rw [ha1, hq1.loadedCommands, hd.loadedArguments, hd.loadedCommands]
          exact hwf1.args_len)
    have ha : m.advance = Except.ok (s1, true) := by
      unfold AutoManager.advance
      rw [if_pos hnext, hp, hok hlt]
      simp [hps, hs1]
    refine ⟨s1, s2, hs1, hs2, hq1, hq2, ?_⟩
    unfold AutoManager.process
    rw [if_neg h1, ha]
    simp only [hs2]


/-! ## Runs of background entries -/

theorem filterMap_range'_of_isSome {α : Type} (f : Nat → Option α) (K : Nat) :
    ∀ c, (∀ j, j < K → (f (c + j)).isSome = true) →
      ((List.range' c K).filterMap f).length = K ∧
      ∀ j, j < K → ((List.range' c K).filterMap f)[j]? = f (c + j) := by
  induction K with
  | zero => intro c _; exact ⟨rfl, fun j hj => absurd hj (Nat.not_lt_zero j)⟩
  | succ K ih =>
    intro c h
    obtain ⟨a, ha⟩ := Option.isSome_iff_exists.1 (h 0 (by omega))
    rw [Nat.add_zero] at ha
    obtain ⟨hl, hg⟩ := ih (c + 1) (by
      intro j hj
      rw [show c + 1 + j = c + (j + 1) by omega]
      exact h (j + 1) (by omega))
    rw [List.range'_succ, List.filterMap_cons_some ha]
    refine ⟨by simp [hl], ?_⟩
    intro j hj
    cases j with
    | zero => simpa using ha.symm
    | succ j =>
      rw [List.getElem?_cons_succ, hg j (by omega), show c + 1 + j = c + (j + 1) by omega]

theorem updateEvent_of_isBgEntry (m : AutoManager σ β) (i : Nat)
    (hargs : m.loadedArguments.length = m.loadedCommands.length)
    (hb : m.isBgEntry i = true) :
    ∃ name args idx, m.loadedCommands[i]? = some name ∧ m.loadedArguments[i]? = some args ∧
      m.backgroundCommands.lookup (tolower name) = some idx ∧
      m.updateEvent i = some (Event.updateArgs idx (tolower name) args) := by
  unfold AutoManager.isBgEntry at hb
  cases hname : m.loadedCommands[i]? with
  | none => rw [hname] at hb; cases hb
  | some name =>
    rw [hname] at hb
    obtain ⟨idx, hidx⟩ := Option.isSome_iff_exists.1 hb
    have hi : i < m.loadedCommands.length := by
      by_contra hcon
      rw [List.getElem?_eq_none_iff.2 (by omega)] at hname
      cases hname
    obtain ⟨args, hargsAt⟩ : ∃ a, m.loadedArguments[i]? = some a :=
      ⟨_, List.getElem?_eq_getElem (by omega)⟩
    exact ⟨name, args, idx, rfl, hargsAt, hidx, updateEvent_of_bg m i idx name args hname hargsAt hidx⟩

/-! ## The instances after a tick -/

theorem createNext_instances (m : AutoManager σ β) :
    (tickState m.createNext).uniqueBgCommands = m.uniqueBgCommands := by
  unfold AutoManager.createNext
  split
  · rfl
  · split
    · split <;> rfl
    · rfl

theorem runCurrent_instances (m : AutoManager σ β) (now : Int) :
    (lastState (m.runCurrent now)).uniqueBgCommands = m.uniqueBgCommands := by
  unfold AutoManager.runCurrent
  split
  · rfl
  · split
    · split <;> rfl
    · rfl

/-- The background instances after a tick that moves the cursor onto a run of `K` background
entries: the `K` entries have been handed over, in script order; when the tick returns, the
loop over the background commands has then run. -/
theorem process_run_instances (m : AutoManager σ β) (now : Int) (K : Nat) (hwf : m.WF)
    (hnext : m.wantsNext = true)
    (hc : sizeSucc m.currentCommandIndex < m.loadedCommands.length)
    (hfit : sizeSucc m.currentCommandIndex + K ≤ m.loadedCommands.length)
    (hrun : ∀ j, j < K → m.isBgEntry (sizeSucc m.currentCommandIndex + j) = true)
    (hmax : m.isBgEntry (sizeSucc m.currentCommandIndex + K) = false) :
    (sizeSucc m.currentCommandIndex + K = m.loadedCommands.length →
      ∃ e, m.process now = Except.error e ∧
        e.uniqueBgCommands =
          (List.range' (sizeSucc m.currentCommandIndex) K).foldl m.handOver
            m.uniqueBgCommands) ∧
    (sizeSucc m.currentCommandIndex + K < m.loadedCommands.length →
      ∃ s, m.process now = Except.ok (s, true) ∧
        s.uniqueBgCommands =
          (processAll 0 ((List.range' (sizeSucc m.currentCommandIndex) K).foldl m.handOver
            m.uniqueBgCommands)).1) := by
  obtain ⟨t, hd, hend, hgo⟩ := process_run m now K hwf hnext hc hfit hrun hmax
  have hi : t.uniqueBgCommands =
      (List.range' (sizeSucc m.currentCommandIndex) K).foldl m.handOver m.uniqueBgCommands :=
    hd.instances
  constructor
  · intro heq
    exact ⟨t, hend heq, hi⟩
  · intro hlt
    obtain ⟨s1, s2, hs1, hs2, _, _, hp⟩ := hgo hlt
    have h1 := createNext_instances t
    rw [hs1] at h1
    have h2 := runCurrent_instances s1 now
    rw [hs2] at h2
    simp only [tickState, lastState] at h1 h2
    refine ⟨_, hp, ?_⟩
    show (processAll 0 s2.uniqueBgCommands).1 = _
    rw [h2, h1, hi]

theorem handOver_of_bg (m : AutoManager σ β) (i idx : Nat) (name : String)
    (args : List String) (h1 : m.loadedCommands[i]? = some name)
    (h2 : m.loadedArguments[i]? = some args)
    (h3 : m.backgroundCommands.lookup (tolower name) = some idx)
    (bgs : List (BackgroundAutoCommand β)) (b : BackgroundAutoCommand β)
    (h4 : bgs[idx]? = some b) :
    m.handOver bgs i = bgs.set idx { b with self := b.updateArgs b.self (tolower name) args } := by
  simp only [AutoManager.handOver, h1, h2, h3, h4]

/-- C3. A tick that moves the cursor onto a run of `K ≥ 1` entries whose lowered names are
background keys (entries `c .. c+K-1`, the entry after them not being one): the first `K`
calls of the tick are the `K` calls of `updateArgs`, in script order, each on the instance the
lowered name maps to and with the argument list of its entry; no other call of `updateArgs` is
made in the tick, so everything else the tick does (creating and starting the next foreground
command) comes after them; the cursor ends at `c + K`.  The instances afterwards are the
instances before with the `K` entries handed over in script order: entry `c + j` replaces the
members of instance `idx`, the one its lowered name maps to, by the result of its `updateArgs`
hook on the lowered name and the argument list of the entry.  When an entry follows the run
the tick returns `true`, after the loop over the background commands has run on these
instances; when the run ends the script the tick stops, after the `K` calls, at the
out-of-bounds read of C2. -/
theorem C3_background_run_drained (m : AutoManager σ β) (now : Int) (K : Nat) (hwf : m.WF)
    (hnext : m.wantsNext = true) (hK : 1 ≤ K)
    (hfit : sizeSucc m.currentCommandIndex + K ≤ m.loadedCommands.length)
    (hrun : ∀ j, j < K → m.isBgEntry (sizeSucc m.currentCommandIndex + j) = true)
    (hmax : m.isBgEntry (sizeSucc m.currentCommandIndex + K) = false) :
    ∃ calls rest,
      (tickState (m.process now)).trace = m.trace ++ calls ++ rest ∧
      calls.length = K ∧
      (∀ j, j < K → ∃ name args idx,
        m.loadedCommands[sizeSucc m.currentCommandIndex + j]? = some name ∧
        m.loadedArguments[sizeSucc m.currentCommandIndex + j]? = some args ∧
        m.backgroundCommands.lookup (tolower name) = some idx ∧
        calls[j]? = some (Event.updateArgs idx (tolower name) args) ∧
        ∀ bgs b, bgs[idx]? = some b →
          m.handOver bgs (sizeSucc m.currentCommandIndex + j) =
            bgs.set idx { b with self := b.updateArgs b.self (tolower name) args }) ∧
      (∀ e ∈ rest, e.isUpdateArgs = false) ∧
      (tickState (m.process now)).currentCommandIndex =
        sizeSucc m.currentCommandIndex + K ∧
      (sizeSucc m.currentCommandIndex + K < m.loadedCommands.length →
        ∃ s, m.process now = Except.ok (s, true) ∧
          s.uniqueBgCommands =
            (processAll 0 ((List.range' (sizeSucc m.currentCommandIndex) K).foldl
              m.handOver m.uniqueBgCommands)).1) ∧
      (sizeSucc m.currentCommandIndex + K = m.loadedCommands.length →
        ∃ s, m.process now = Except.error s ∧
          s.uniqueBgCommands =
            (List.range' (sizeSucc m.currentCommandIndex) K).foldl
              m.handOver m.uniqueBgCommands) := by
  obtain ⟨s, hd, hend, hgo⟩ := process_run m now K hwf hnext (by omega) hfit hrun hmax
  obtain ⟨hierr, hiok⟩ := process_run_instances m now K hwf hnext (by omega) hfit hrun hmax
  have hev : ∀ j, j < K → (m.updateEvent (sizeSucc m.currentCommandIndex + j)).isSome = true := by
    intro j hj
    obtain ⟨_, _, _, _, _, _, h⟩ := updateEvent_of_isBgEntry m _ hwf.args_len (hrun j hj)
    rw [h]; rfl
  obtain ⟨hlen, hget⟩ := filterMap_range'_of_isSome m.updateEvent K _ hev
  have hcalls : s.trace = m.trace ++
      (List.range' (sizeSucc m.currentCommandIndex) K).filterMap m.updateEvent := hd.calls
  have hcur : s.currentCommandIndex = sizeSucc m.currentCommandIndex + K := hd.cursor
  have hjs : ∀ j, j < K → ∃ name args idx,
        m.loadedCommands[sizeSucc m.currentCommandIndex + j]? = some name ∧
        m.loadedArguments[sizeSucc m.currentCommandIndex + j]? = some args ∧
        m.backgroundCommands.lookup (tolower name) = some idx ∧
        ((List.range' (sizeSucc m.currentCommandIndex) K).filterMap m.updateEvent)[j]? =
          some (Event.updateArgs idx (tolower name) args) ∧
        ∀ bgs b, bgs[idx]? = some b →
          m.handOver bgs (sizeSucc m.currentCommandIndex + j) =
            bgs.set idx { b with self := b.updateArgs b.self (tolower name) args } := by
    intro j hj
    obtain ⟨name, args, idx, h1, h2, h3, h4⟩ :=
      updateEvent_of_isBgEntry m _ hwf.args_len (hrun j hj)
    exact ⟨name, args, idx, h1, h2, h3, by rw [hget j hj, h4],
      fun bgs b hb => handOver_of_bg m _ idx name args h1 h2 h3 bgs b hb⟩
  rcases Nat.lt_or_eq_of_le hfit with hlt | heq
  · obtain ⟨s1, s2, _, _, hq1, hq2, hp⟩ := hgo hlt
    have hq := quiet_trans (quiet_trans hq1 hq2) (processBackground_quiet s2)
    obtain ⟨rest, hrest, hno⟩ := hq.trace
    refine ⟨_, rest, ?_, hlen, hjs, hno, ?_, fun _ => hiok hlt, fun h => absurd h (by omega)⟩
    · rw [hp]; simp only [tickState]; rw [hrest, hcalls]
    · rw [hp]; simp only [tickState]; rw [hq.cursor, hcur]
  · have hp := hend heq
    refine ⟨_, [], ?_, hlen, hjs, by simp, ?_, fun h => absurd h (by omega), fun _ => hierr heq⟩
    · rw [hp]; simp only [tickState]; rw [hcalls]; simp
    · rw [hp]; simp only [tickState]; rw [hcur]


/-! ## handleComplete is called once per call of complete -/

theorem count_of_isUpdateArgs (evs : List Event) (h : ∀ e ∈ evs, e.isUpdateArgs = true)
    (u : Nat) : evs.count (Event.handleComplete u) = 0 := by
  rw [List.count_eq_zero]
  intro hm
  have := h _ hm
  cases this

theorem count_of_isBgProcess (evs : List Event) (h : ∀ e ∈ evs, e.isBgProcess = true)
    (u : Nat) : evs.count (Event.handleComplete u) = 0 := by
  rw [List.count_eq_zero]
  intro hm
  have := h _ hm
  cases this

theorem count_kills (l : List Nat) (u : Nat) :
    (l.map Event.kill).count (Event.handleComplete u) = 0 := by
  rw [List.count_eq_zero]
  intro hm
  obtain ⟨_, _, h⟩ := List.mem_map.1 hm
  cases h

theorem count_replicate_hc (n uid u : Nat) :
    (List.replicate n (Event.handleComplete uid)).count (Event.handleComplete u) =
      if u = uid then n else 0 := by
  rw [List.count_replicate]
  by_cases h : u = uid
  · subst h; simp
  · have : ¬ (Event.handleComplete uid = Event.handleComplete u) := by
      intro h2; cases h2; exact h rfl
    simp [h, this]

theorem lookup_mem {α : Type} (l : List (String × α)) (k : String) (v : α)
    (h : l.lookup k = some v) : ∃ p ∈ l, p.2 = v := by
  induction l with
  | nil => cases h
  | cons p l ih =>
    obtain ⟨k', v'⟩ := p
    rw [List.lookup_cons] at h
    split at h
    · cases h; exact ⟨_, List.mem_cons_self _ _, rfl⟩
    · obtain ⟨q, hq, hv⟩ := ih h
      exact ⟨q, List.mem_cons_of_mem _ hq, hv⟩


theorem exec_flag (c : AutoCommand σ) (calls : List BaseCall)
    (h : calls.count BaseCall.complete ≤ if c._isComplete then 0 else 1) :
    flag c + (c.exec calls).2.count (Event.handleComplete c.uid) = flag (c.exec calls).1 ∧
    OnlyFor c.uid (c.exec calls).2 := by
  constructor
  · rw [exec_events, count_replicate_hc, if_pos rfl]
    unfold flag
    rw [exec_isComplete]
    by_cases hc : c._isComplete = true
    · rw [if_pos hc] at h
      simp [hc]
      omega
    · rw [if_neg hc] at h
      have hc' : c._isComplete = false := by simpa using hc
      rcases Nat.eq_zero_or_pos (calls.count BaseCall.complete) with h0 | h1
      · have : BaseCall.complete ∉ calls := List.count_eq_zero.1 h0
        simp [hc', h0, this]
      · have : BaseCall.complete ∈ calls := List.count_pos_iff.1 h1
        have h2 : calls.count BaseCall.complete = 1 := by omega
        simp [hc', h2, this]
  · intro u hu
    rw [exec_events, count_replicate_hc, if_neg hu]

theorem process_flag (c : AutoCommand σ) (h : c.hooks.CompletesOnce) :
    flag c + c.process.2.count (Event.handleComplete c.uid) = flag c.process.1 ∧
    OnlyFor c.uid c.process.2 ∧ c.process.1.uid = c.uid ∧ c.process.1.hooks = c.hooks := by
  have h1 := exec_flag { c with self := (c.hooks.process c.toCommandFields c.self).1 }
    (c.hooks.process c.toCommandFields c.self).2 (h.process_le _ _)
  refine ⟨?_, ?_, exec_uid _ _, exec_hooks _ _⟩
  · have := h1.1
    simp only [AutoCommand.process, List.count_cons]
    simpa [flag] using this
  · intro u hu
    have := h1.2 u hu
    simp only [AutoCommand.process, List.count_cons]
    simpa using this

theorem doStart_flag (c : AutoCommand σ) (now : Int) (name : String) (args : List String)
    (h : c.hooks.CompletesOnce) (hc : c._isComplete = false) :
    flag c + (c.doStart now name args).2.count (Event.handleComplete c.uid) =
      flag (c.doStart now name args).1 ∧
    OnlyFor c.uid (c.doStart now name args).2 ∧ (c.doStart now name args).1.uid = c.uid ∧
    (c.doStart now name args).1.hooks = c.hooks := by
  let c' : AutoCommand σ :=
    { c with commandName := name, arguments := args, startTime := now, _hasStarted := true }
  have h1 := exec_flag { c' with self := (c'.hooks.start c'.toCommandFields c'.self name args).1 }
    (c'.hooks.start c'.toCommandFields c'.self name args).2
    (by have := h.start_le c'.toCommandFields c'.self name args
        simpa [c', hc] using this)
  refine ⟨?_, ?_, exec_uid _ _, exec_hooks _ _⟩
  · have := h1.1
    simp only [AutoCommand.doStart, AutoCommand.start, List.count_cons]
    simpa [flag, c'] using this
  · intro u hu
    have := h1.2 u hu
    simp only [AutoCommand.doStart, AutoCommand.start, List.count_cons]
    simpa [c'] using this

theorem doProcess_flag (c : AutoCommand σ) (now : Int) (h : c.hooks.CompletesOnce)
    (hc : c._isComplete = false) :
    flag c + (c.doProcess now).2.count (Event.handleComplete c.uid) = flag (c.doProcess now).1 ∧
    OnlyFor c.uid (c.doProcess now).2 ∧ (c.doProcess now).1.uid = c.uid ∧
    (c.doProcess now).1.hooks = c.hooks := by
  rcases doProcess_cases c now with h1 | h1 | h1 <;> rw [h1]
  · refine ⟨by simp [flag, hc], ?_, rfl, rfl⟩
    intro u hu
    rw [complete_snd, List.count_singleton]
    have : ¬ (Event.handleComplete c.uid = Event.handleComplete u) := by
      intro h2; cases h2; exact hu rfl
    simp [this]
  · exact ⟨by simp, fun u _ => by simp, rfl, rfl⟩
  · exact process_flag c h


theorem AutoManager.CompleteOnce.frame {m s : AutoManager σ β} (h : m.CompleteOnce)
    (hreg : s.registeredCommands = m.registeredCommands) (hcr : s.created = m.created)
    (hcur : s.currentCommand = m.currentCommand ∨ s.currentCommand = none)
    (evs : List Event) (htr : s.trace = m.trace ++ evs)
    (hno : ∀ u, evs.count (Event.handleComplete u) = 0) : s.CompleteOnce := by
  have hcount : ∀ u, s.trace.count (Event.handleComplete u) =
      m.trace.count (Event.handleComplete u) := by
    intro u; rw [htr, List.count_append, hno u, Nat.add_zero]
  refine ⟨?_, ?_, ?_, ?_⟩
  · intro p hp; rw [hreg] at hp; exact h.registry p hp
  · intro u; rw [hcount]; exact h.atMost u
  · intro u hu; rw [hcount]; rw [hcr] at hu; exact h.unborn u hu
  · intro c hc
    rcases hcur with h1 | h1
    · rw [h1] at hc
      rw [hcount, hcr]; exact h.current c hc
    · rw [h1] at hc; cases hc

theorem AutoManager.CompleteOnce.created_step {m : AutoManager σ β} (h : m.CompleteOnce)
    (c0 : AutoCommand σ) (hc0 : c0._isComplete = false) (hh : c0.hooks.CompletesOnce) :
    AutoManager.CompleteOnce
      { m with currentCommand := some { c0 with uid := m.created },
               created := m.created + 1,
               trace := m.trace ++ [Event.create m.created] } := by
  have hcount : ∀ u, (m.trace ++ [Event.create m.created]).count (Event.handleComplete u) =
      m.trace.count (Event.handleComplete u) := by
    intro u; rw [List.count_append]; simp
  refine ⟨h.registry, ?_, ?_, ?_⟩
  · intro u; show List.count _ (m.trace ++ _) ≤ 1; rw [hcount]; exact h.atMost u
  · intro u hu
    show List.count _ (m.trace ++ _) = 0
    rw [hcount]; exact h.unborn u (by simp only at hu; omega)
  · intro c hc
    simp only [Option.some.injEq] at hc
    subst hc
    refine ⟨Nat.lt_succ_self _, hh, ?_⟩
    show List.count _ (m.trace ++ _) = _
    rw [hcount]
    simp only [hc0]
    exact h.unborn _ (le_refl _)

theorem AutoManager.CompleteOnce.current_step {m : AutoManager σ β} (h : m.CompleteOnce)
    (c c' : AutoCommand σ) (hc : m.currentCommand = some c) (evs : List Event)
    (huid : c'.uid = c.uid) (hhooks : c'.hooks = c.hooks)
    (hflag : flag c + evs.count (Event.handleComplete c.uid) = flag c')
    (honly : OnlyFor c.uid evs) :
    AutoManager.CompleteOnce
      { m with currentCommand := some c', trace := m.trace ++ evs } := by
  obtain ⟨hlt, hh, hcnt⟩ := h.current c hc
  have hcnt' : m.trace.count (Event.handleComplete c.uid) = flag c := hcnt
  have hle : flag c' ≤ 1 := by unfold flag; split <;> omega
  refine ⟨h.registry, ?_, ?_, ?_⟩
  · intro u
    show List.count _ (m.trace ++ evs) ≤ 1
    rw [List.count_append]
    by_cases hu : u = c.uid
    · subst hu; rw [hcnt', hflag]; exact hle
    · rw [honly u hu, Nat.add_zero]; exact h.atMost u
  · intro u hu
    show List.count _ (m.trace ++ evs) = 0
    rw [List.count_append, honly u (by simp only at hu; omega), Nat.add_zero]
    exact h.unborn u hu
  · intro d hd
    simp only [Option.some.injEq] at hd
    subst hd
    refine ⟨by rw [huid]; exact hlt, by rw [hhooks]; exact hh, ?_⟩
    show List.count _ (m.trace ++ evs) = flag c'
    rw [huid, List.count_append, hcnt', hflag]

theorem createNext_inv (m : AutoManager σ β) (h : m.CompleteOnce)
    (hcur : m.currentCommand = none) :
    match m.createNext with
    | Except.ok (a, _) => a.CompleteOnce ∧ Settled a
    | Except.error e => e.CompleteOnce := by
  have hs : Settled m := by intro c hc; rw [hcur] at hc; cases hc
  cases hn : m.loadedCommands[m.currentCommandIndex]? with
  | none => simp only [AutoManager.createNext, hn]; exact h
  | some name =>
    cases hl : m.registeredCommands.lookup (tolower name) with
    | none => simp only [AutoManager.createNext, hn, hl]; exact ⟨h, hs⟩
    | some creator =>
      cases hc0 : creator () with
      | none =>
        simp only [AutoManager.createNext, hn, hl, hc0]
        exact ⟨h.frame rfl rfl (Or.inr rfl) [] (List.append_nil _).symm (by simp),
          by intro c hc; cases hc⟩
      | some c0 =>
        simp only [AutoManager.createNext, hn, hl, hc0]
        obtain ⟨p, hp, hpv⟩ := lookup_mem _ _ _ hl
        obtain ⟨hf, hh⟩ := h.registry p hp c0 (by rw [hpv]; exact hc0)
        refine ⟨h.created_step c0 hf hh, ?_⟩
        intro c hc
        simp only [Option.some.injEq] at hc
        subst hc
        exact hf

theorem advance_inv (m : AutoManager σ β) (h : m.CompleteOnce) :
    match m.advance with
    | Except.ok (a, _) => a.CompleteOnce ∧ Settled a
    | Except.error e => e.CompleteOnce := by
  by_cases hw : m.wantsNext = true
  · have hmo : m.moveOn.CompleteOnce :=
      h.frame rfl rfl (Or.inr rfl) [] (List.append_nil _).symm (by simp)
    have hsm : Settled m.moveOn := by intro c hc; cases hc
    by_cases hp : m.moveOn.pastEnd = true
    · simp only [AutoManager.advance, hw, hp, if_true]
      exact ⟨hmo, hsm⟩
    · have hf := handleNextBgCommands_frame m.moveOn
      cases hr : m.moveOn.handleNextBgCommands with
      | error e =>
        rw [hr] at hf
        obtain ⟨evs, he, hu⟩ := hf.trace
        simp only [AutoManager.advance, hw, hp, if_true, if_false, hr]
        exact hmo.frame hf.registeredCommands hf.created (Or.inl hf.currentCommand) evs he
          (count_of_isUpdateArgs evs hu)
      | ok s =>
        rw [hr] at hf
        obtain ⟨evs, he, hu⟩ := hf.trace
        have hsi : s.CompleteOnce :=
          hmo.frame hf.registeredCommands hf.created (Or.inl hf.currentCommand) evs he
            (count_of_isUpdateArgs evs hu)
        have hsc : s.currentCommand = none := hf.currentCommand
        by_cases hp2 : s.pastEnd = true
        · simp only [AutoManager.advance, hw, hp, if_true, if_false, hr, hp2]
          exact ⟨hsi, by intro c hc; rw [hsc] at hc; cases hc⟩
        · simp only [AutoManager.advance, hw, hp, if_true, if_false, hr, hp2]
          exact createNext_inv s hsi hsc
  · simp only [AutoManager.advance, hw, if_false]
    refine ⟨h, ?_⟩
    intro c hc
    simp only [AutoManager.wantsNext, hc, AutoCommand.isComplete] at hw
    simpa using hw

theorem runCurrent_inv (m : AutoManager σ β) (now : Int) (h : m.CompleteOnce)
    (hs : Settled m) : (lastState (m.runCurrent now)).CompleteOnce := by
  unfold AutoManager.runCurrent
  split
  · exact h
  · rename_i c hc
    obtain ⟨_, hh, _⟩ := h.current c hc
    split
    · split
      · rename_i name args _ _
        obtain ⟨f1, o1, u1, k1⟩ := doStart_flag c now name args hh (hs c hc)
        obtain ⟨f2, o2, u2, k2⟩ := process_flag (c.doStart now name args).1 (by rw [k1]; exact hh)
        have := h.current_step c (c.doStart now name args).1.process.1 hc
          ((c.doStart now name args).2 ++ (c.doStart now name args).1.process.2)
          (by rw [u2, u1]) (by rw [k2, k1])
          (by rw [List.count_append, ← f2, ← f1, u1]; omega)
          (by intro u hu
              rw [List.count_append, o1 u hu, o2 u (by rw [u1]; exact hu)])
        simpa [lastState, List.append_assoc] using this
      · exact h
    · obtain ⟨f1, o1, u1, k1⟩ := doProcess_flag c now hh (hs c hc)
      exact h.current_step c (c.doProcess now).1 hc (c.doProcess now).2 u1 k1 f1 o1

theorem processBackground_inv (m : AutoManager σ β) (h : m.CompleteOnce) :
    m.processBackground.CompleteOnce :=
  h.frame rfl rfl (Or.inl rfl) (processAll 0 m.uniqueBgCommands).2 rfl
    (count_of_isBgProcess _ (processAll_events _ _))

theorem process_inv (m : AutoManager σ β) (now : Int) (h : m.CompleteOnce) :
    (tickState (m.process now)).CompleteOnce := by
  unfold AutoManager.process
  split
  · exact h
  · have ha := advance_inv m h
    cases hr : m.advance with
    | error e => rw [hr] at ha; exact ha
    | ok p =>
      obtain ⟨a, r⟩ := p
      rw [hr] at ha
      have hc := runCurrent_inv a now ha.1 ha.2
      simp only
      cases hr2 : a.runCurrent now with
      | error e => rw [hr2] at hc; exact hc
      | ok s => rw [hr2] at hc; exact processBackground_inv s hc


theorem killAuto_inv (m : AutoManager σ β) (h : m.CompleteOnce)
    (ha : m.activeComplete = false) :
    m.killAuto.CompleteOnce ∧
    ∀ c, m.currentCommand = some c →
      m.killAuto.trace.count (Event.handleComplete c.uid) = 1 := by
  have hk : ∀ u, (killAll 0 m.uniqueBgCommands).2.count (Event.handleComplete u) = 0 := by
    intro u; rw [killAll_snd]; exact count_kills _ u
  cases hc : m.currentCommand with
  | none =>
    refine ⟨?_, fun c hcc => by cases hcc⟩
    refine h.frame rfl rfl (Or.inr rfl) (killAll 0 m.uniqueBgCommands).2 ?_ hk
    simp [AutoManager.killAuto, hc]
  | some c =>
    have hnc : c._isComplete = false := by
      simpa [AutoManager.activeComplete, hc, AutoCommand.isComplete] using ha
    obtain ⟨hlt, hh, hcnt⟩ := h.current c hc
    rw [hnc] at hcnt
    have htr : m.killAuto.trace =
        m.trace ++ ([Event.handleComplete c.uid] ++ (killAll 0 m.uniqueBgCommands).2) := by
      simp [AutoManager.killAuto, hc]
    have hcount : ∀ u, m.killAuto.trace.count (Event.handleComplete u) =
        m.trace.count (Event.handleComplete u) + if u = c.uid then 1 else 0 := by
      intro u
      rw [htr, List.count_append, List.count_append, hk u, Nat.add_zero, List.count_singleton]
      by_cases hu : u = c.uid
      · subst hu; simp
      · have : ¬ (Event.handleComplete c.uid = Event.handleComplete u) := by
          intro h2; cases h2; exact hu rfl
        simp [hu, this]
    refine ⟨⟨h.registry, ?_, ?_, ?_⟩, ?_⟩
    · intro u
      rw [hcount]
      by_cases hu : u = c.uid
      · subst hu; rw [if_pos rfl]
        have : List.count (Event.handleComplete c.uid) m.trace = 0 := hcnt
        omega
      · rw [if_neg hu, Nat.add_zero]; exact h.atMost u
    · intro u hu
      rw [hcount, if_neg (by
        have : m.killAuto.created = m.created := rfl
        rw [this] at hu; omega), Nat.add_zero]
      exact h.unborn u hu
    · intro d hd; cases hd
    · intro d hd
      cases hd
      rw [hcount, if_pos rfl]
      have : List.count (Event.handleComplete c.uid) m.trace = 0 := hcnt
      omega

theorem clearCommands_inv (m : AutoManager σ β) (h : m.CompleteOnce)
    (ha : m.activeComplete = false) :
    m.clearCommands.CompleteOnce ∧
    ∀ c, m.currentCommand = some c →
      m.clearCommands.trace.count (Event.handleComplete c.uid) = 1 := by
  obtain ⟨h1, h2⟩ := killAuto_inv m h ha
  exact ⟨h1.frame rfl rfl (Or.inl rfl) [] (List.append_nil _).symm (by simp), h2⟩

theorem addCommand_fields (m : AutoManager σ β) (command : String)
    (arguments : List String) (pos : Int) :
    (m.addCommand command arguments pos).registeredCommands = m.registeredCommands ∧
    (m.addCommand command arguments pos).created = m.created ∧
    (m.addCommand command arguments pos).currentCommand = m.currentCommand ∧
    (m.addCommand command arguments pos).trace = m.trace := by
  unfold AutoManager.addCommand
  dsimp only
  split_ifs <;> exact ⟨rfl, rfl, rfl, rfl⟩

theorem addCommand_inv (m : AutoManager σ β) (h : m.CompleteOnce) (command : String)
    (arguments : List String) (pos : Int) :
    (m.addCommand command arguments pos).CompleteOnce := by
  obtain ⟨h1, h2, h3, h4⟩ := addCommand_fields m command arguments pos
  exact h.frame h1 h2 (Or.inl h3) [] (by rw [h4, List.append_nil]) (by simp)

theorem apply_process (m : AutoManager σ β) (now : Int) :
    lastState (m.apply (Op.process now)) = tickState (m.process now) := by
  cases hr : m.process now with
  | error e => simp only [AutoManager.apply, hr, lastState, tickState]
  | ok p =>
    obtain ⟨a, r⟩ := p
    simp only [AutoManager.apply, hr, lastState, tickState]

theorem apply_inv (m : AutoManager σ β) (op : Op) (h : m.CompleteOnce)
    (ha : Op.allowed m op = true) : (lastState (m.apply op)).CompleteOnce := by
  cases op with
  | process now => rw [apply_process]; exact process_inv m now h
  | killAuto => exact (killAuto_inv m h (by simpa [Op.allowed] using ha)).1
  | clearCommands => exact (clearCommands_inv m h (by simpa [Op.allowed] using ha)).1
  | addCommand command arguments pos => exact addCommand_inv m h command arguments pos

theorem run_inv (ops : List Op) :
    ∀ (m : AutoManager σ β), m.CompleteOnce → m.Allowed ops →
      (lastState (m.run ops)).CompleteOnce := by
  induction ops with
  | nil => intro m h _; exact h
  | cons op ops ih =>
    intro m h ha
    obtain ⟨ha1, ha2⟩ := ha
    have hi := apply_inv m op h ha1
    unfold AutoManager.run
    cases hr : m.apply op with
    | error e => rw [hr] at hi; exact hi
    | ok m1 =>
      rw [hr] at hi ha2
      exact ih m1 hi ha2

/-! ### The trace only grows -/

theorem grows_refl (l : List Event) : l <+: l := ⟨[], List.append_nil l⟩

theorem grows_append (l r : List Event) : l <+: l ++ r := ⟨r, rfl⟩

theorem createNext_grows (m : AutoManager σ β) :
    m.trace <+: (tickState m.createNext).trace := by
  unfold AutoManager.createNext
  split
  · exact grows_refl _
  · split
    · split
      · exact grows_append _ _
      · exact grows_refl _
    · exact grows_refl _

theorem advance_grows (m : AutoManager σ β) : m.trace <+: (tickState m.advance).trace := by
  unfold AutoManager.advance
  split
  · split
    · exact grows_refl _
    · have hf := handleNextBgCommands_frame m.moveOn
      cases hr : m.moveOn.handleNextBgCommands with
      | error e =>
        rw [hr] at hf
        obtain ⟨evs, he, _⟩ := hf.trace
        exact ⟨evs, he.symm⟩
      | ok s =>
        rw [hr] at hf
        obtain ⟨evs, he, _⟩ := hf.trace
        have hs : m.trace <+: s.trace := ⟨evs, he.symm⟩
        simp only
        split
        · exact hs
        · exact hs.trans (createNext_grows s)
  · exact grows_refl _

theorem runCurrent_grows (m : AutoManager σ β) (now : Int) :
    m.trace <+: (lastState (m.runCurrent now)).trace := by
  unfold AutoManager.runCurrent
  split
  · exact grows_refl _
  · split
    · split
      · simp only [lastState, List.append_assoc]
        exact grows_append _ _
      · exact grows_refl _
    · exact grows_append _ _

theorem process_grows (m : AutoManager σ β) (now : Int) :
    m.trace <+: (tickState (m.process now)).trace := by
  unfold AutoManager.process
  split
  · exact grows_refl _
  · have ha := advance_grows m
    cases hr : m.advance with
    | error e => rw [hr] at ha; exact ha
    | ok p =>
      obtain ⟨a, r⟩ := p
      rw [hr] at ha
      have hc := runCurrent_grows a now
      simp only
      cases hr2 : a.runCurrent now with
      | error e => rw [hr2] at hc; exact ha.trans hc
      | ok s =>
        rw [hr2] at hc
        exact (ha.trans hc).trans (grows_append _ _)

theorem apply_grows (m : AutoManager σ β) (op : Op) :
    m.trace <+: (lastState (m.apply op)).trace := by
  cases op with
  | process now => rw [apply_process]; exact process_grows m now
  | killAuto =>
    simp only [AutoManager.apply, lastState, AutoManager.killAuto, List.append_assoc]
    exact grows_append _ _
  | clearCommands =>
    simp only [AutoManager.apply, lastState, AutoManager.clearCommands, AutoManager.killAuto,
      List.append_assoc]
    exact grows_append _ _
  | addCommand command arguments pos =>
    simp only [AutoManager.apply, lastState, (addCommand_fields m command arguments pos).2.2.2]
    exact grows_refl _

theorem run_grows (ops : List Op) :
    ∀ (m : AutoManager σ β), m.trace <+: (lastState (m.run ops)).trace := by
  induction ops with
  | nil => intro m; exact grows_refl _
  | cons op ops ih =>
    intro m
    have hi := apply_grows m op
    unfold AutoManager.run
    cases hr : m.apply op with
    | error e => rw [hr] at hi; exact hi
    | ok m1 =>
      rw [hr] at hi
      exact hi.trans (ih m1)

theorem run_append (ops1 ops2 : List Op) :
    ∀ (m m1 : AutoManager σ β), m.run ops1 = Except.ok m1 →
      m.run (ops1 ++ ops2) = m1.run ops2 := by
  induction ops1 with
  | nil => intro m m1 h; cases h; rfl
  | cons op ops ih =>
    intro m m1 h
    simp only [List.cons_append, AutoManager.run] at h ⊢
    cases hr : m.apply op with
    | error e => rw [hr] at h; cases h
    | ok m2 =>
      rw [hr] at h
      simp only
      exact ih m2 m1 h

theorem allowed_append (ops1 ops2 : List Op) :
    ∀ (m m1 : AutoManager σ β), m.run ops1 = Except.ok m1 → m.Allowed (ops1 ++ ops2) →
      m.Allowed ops1 ∧ m1.Allowed ops2 := by
  induction ops1 with
  | nil => intro m m1 h ha; cases h; exact ⟨trivial, ha⟩
  | cons op ops ih =>
    intro m m1 h ha
    simp only [List.cons_append, AutoManager.run, AutoManager.Allowed] at h ha ⊢
    cases hr : m.apply op with
    | error e => rw [hr] at h; cases h
    | ok m2 =>
      rw [hr] at h ha
      simp only at h ha ⊢
      obtain ⟨h1, h2⟩ := ih m2 m1 h ha.2
      exact ⟨⟨ha.1, h1⟩, h2⟩

/-- C1, amended. Commands made by fresh creators, whose hooks call `complete()` at most once
and not on a complete object; any sequence of `process`, `killAuto`, `clearCommands` and
`addCommand` calls in which `killAuto()` and `clearCommands()` are not called while the active
command is already complete.  Then no instance receives `handleComplete` more than once, an
instance seen complete after some call has received it exactly once, and so has the instance
that is active when `killAuto()` or `clearCommands()` is called. -/
theorem C1_handleComplete_once (m0 m1 : AutoManager σ β) (ops1 ops2 : List Op)
    (c : AutoCommand σ)
    (hreg : m0.FreshCreators) (hcur : m0.currentCommand = none)
    (htr : ∀ uid, m0.trace.count (Event.handleComplete uid) = 0)
    (hall : m0.Allowed (ops1 ++ ops2))
    (h1 : m0.run ops1 = Except.ok m1) (hc : m1.currentCommand = some c) :
    (∀ uid, (lastState (m0.run (ops1 ++ ops2))).trace.count (Event.handleComplete uid) ≤ 1) ∧
    (c.isComplete = true →
      (lastState (m0.run (ops1 ++ ops2))).trace.count (Event.handleComplete c.uid) = 1) ∧
    (∀ rest, ops2 = Op.killAuto :: rest ∨ ops2 = Op.clearCommands :: rest →
      (lastState (m0.run (ops1 ++ ops2))).trace.count (Event.handleComplete c.uid) = 1) := by
  have h0 : m0.CompleteOnce :=
    ⟨hreg, by intro u; rw [htr]; omega, by intro u _; exact htr u,
      by intro d hd; rw [hcur] at hd; cases hd⟩
  obtain ⟨ha1, ha2⟩ := allowed_append ops1 ops2 m0 m1 h1 hall
  have hi1 : m1.CompleteOnce := by
    have := run_inv ops1 m0 h0 ha1
    rwa [h1] at this
  have hfin := run_inv (ops1 ++ ops2) m0 h0 hall
  have hrun := run_append ops1 ops2 m0 m1 h1
  refine ⟨hfin.atMost, ?_, ?_⟩
  · intro hcomp
    have hc1 : m1.trace.count (Event.handleComplete c.uid) = 1 := by
      have := (hi1.current c hc).2.2
      simp only [AutoCommand.isComplete] at hcomp
      rwa [hcomp] at this
    have hle := (run_grows ops2 m1).sublist.count_le (Event.handleComplete c.uid)
    rw [← hrun] at hle
    have := hfin.atMost c.uid
    omega
  · intro rest hrest
    have hup := hfin.atMost c.uid
    rcases hrest with h | h
    · subst h
      obtain ⟨hal, _⟩ := ha2
      have hk := (killAuto_inv m1 hi1 (by simpa [Op.allowed] using hal)).2 c hc
      have hle := (run_grows rest m1.killAuto).sublist.count_le (Event.handleComplete c.uid)
      rw [hrun]
      rw [hrun] at hup
      simp only [AutoManager.run, AutoManager.apply] at hup ⊢
      omega
    · subst h
      obtain ⟨hal, _⟩ := ha2
      have hk := (clearCommands_inv m1 hi1 (by simpa [Op.allowed] using hal)).2 c hc
      have hle := (run_grows rest m1.clearCommands).sublist.count_le
        (Event.handleComplete c.uid)
      rw [hrun]
      rw [hrun] at hup
      simp only [AutoManager.run, AutoManager.apply] at hup ⊢
      omega


/-! ## Entries with an unknown name -/

theorem exists_run (m : AutoManager σ β) (n : Nat) :
    ∀ c, c ≤ m.loadedCommands.length → m.loadedCommands.length - c = n →
      ∃ K, c + K ≤ m.loadedCommands.length ∧
        (∀ j, j < K → m.isBgEntry (c + j) = true) ∧ m.isBgEntry (c + K) = false := by
  induction n with
  | zero =>
    intro c hle hc
    refine ⟨0, hle, fun j hj => absurd hj (Nat.not_lt_zero j), ?_⟩
    simp only [AutoManager.isBgEntry, Nat.add_zero]
    rw [List.getElem?_eq_none_iff.2 (by omega)]
  | succ n ih =>
    intro c hle hc
    by_cases hb : m.isBgEntry c = true
    · obtain ⟨K, h1, h2, h3⟩ := ih (c + 1) (by omega) (by omega)
      refine ⟨K + 1, by omega, ?_, by rwa [show c + (K + 1) = c + 1 + K by omega]⟩
      intro j hj
      cases j with
      | zero => exact hb
      | succ j =>
        rw [show c + (j + 1) = c + 1 + j by omega]
        exact h2 j (by omega)
    · exact ⟨0, hle, fun j hj => absurd hj (Nat.not_lt_zero j), by simpa using hb⟩

theorem WF_processBackground {m : AutoManager σ β} (h : m.WF) : m.processBackground.WF :=
  ⟨h.args_len, h.len_lt, h.idx_lt, by
    intro k i hki
    show i < (processAll 0 m.uniqueBgCommands).1.length
    rw [processAll_length]; exact h.bg_lt k i hki⟩

theorem WF_of_drained {m s : AutoManager σ β} {K : Nat} (h : m.WF) (hd : Drained m s K)
    (hK : m.currentCommandIndex + K ≤ m.loadedCommands.length) : s.WF :=
  ⟨by rw [hd.loadedArguments, hd.loadedCommands]; exact h.args_len,
   by rw [hd.loadedCommands]; exact h.len_lt,
   by rw [hd.cursor]; have := h.len_lt; omega,
   by intro k i hki
      rw [hd.backgroundCommands] at hki
      rw [hd.bgLength]; exact h.bg_lt k i hki⟩

/-- The tick that moves the cursor (over `K ≥ 0` background entries) onto an entry whose name
is in neither registry. -/
theorem process_unknown (m : AutoManager σ β) (now : Int) (K : Nat) (hwf : m.WF)
    (hnext : m.wantsNext = true)
    (hfit : sizeSucc m.currentCommandIndex + K < m.loadedCommands.length)
    (hrun : ∀ j, j < K → m.isBgEntry (sizeSucc m.currentCommandIndex + j) = true)
    (hnobg : m.isBgEntry (sizeSucc m.currentCommandIndex + K) = false)
    (hnofg : m.isFgEntry (sizeSucc m.currentCommandIndex + K) = false) :
    ∃ s, Drained m.moveOn s K ∧ m.process now = Except.ok (s.processBackground, true) := by
  obtain ⟨s, hd, _, hgo⟩ := process_run m now K hwf hnext (by omega) (by omega) hrun hnobg
  obtain ⟨s1, s2, hs1, hs2, _, _, hp⟩ := hgo hfit
  have hidx : s.currentCommandIndex = sizeSucc m.currentCommandIndex + K := hd.cursor
  obtain ⟨name, hname⟩ : ∃ name, m.loadedCommands[sizeSucc m.currentCommandIndex + K]? = some name :=
    ⟨_, List.getElem?_eq_getElem hfit⟩
  have hl : s.registeredCommands.lookup (tolower name) = none := by
    rw [hd.registeredCommands]
    simp only [AutoManager.isFgEntry, hname] at hnofg
    simpa [AutoManager.moveOn] using hnofg
  have hcn : s.createNext = Except.ok (s, true) := by
    have : s.loadedCommands[s.currentCommandIndex]? = some name := by
      rw [hidx, hd.loadedCommands]; exact hname
    simp only [AutoManager.createNext, this, hl]
  rw [hcn] at hs1
  cases hs1
  have hrc : s.runCurrent now = Except.ok s := by
    have : s.currentCommand = none := hd.currentCommand
    simp only [AutoManager.runCurrent, this]
  rw [hrc] at hs2
  cases hs2
  exact ⟨s, hd, hp⟩


/-- The tick that finds a foreground entry right under the new cursor: the creator is run and
the new command is started with the name and the arguments of the entry as they are written
in the script. -/
theorem process_foreground (m : AutoManager σ β) (now : Int) (hwf : m.WF)
    (hnext : m.wantsNext = true) (name : String) (args : List String)
    (creator : CmdCreator σ) (c0 : AutoCommand σ)
    (hname : m.loadedCommands[sizeSucc m.currentCommandIndex]? = some name)
    (hargs : m.loadedArguments[sizeSucc m.currentCommandIndex]? = some args)
    (hnobg : m.backgroundCommands.lookup (tolower name) = none)
    (hfg : m.registeredCommands.lookup (tolower name) = some creator)
    (hc0 : creator () = some c0) (hns : c0.hasStarted = false) :
    ∃ s rest, m.process now = Except.ok (s, true) ∧
      s.currentCommandIndex = sizeSucc m.currentCommandIndex ∧
      s.trace = m.trace ++
        Event.create m.created :: Event.start m.created name args :: rest := by
  have hlt : sizeSucc m.currentCommandIndex < m.loadedCommands.length := by
    by_contra hcon
    rw [List.getElem?_eq_none_iff.2 (by omega)] at hname
    cases hname
  obtain ⟨t, hd, _, hgo⟩ := process_run m now 0 hwf hnext hlt (by omega)
    (fun j hj => absurd hj (Nat.not_lt_zero j))
    (by simp [AutoManager.isBgEntry, hname, hnobg])
  obtain ⟨s1, s2, hs1, hs2, _, _, hp⟩ := hgo (by omega)
  have hti : t.currentCommandIndex = sizeSucc m.currentCommandIndex := hd.cursor
  have htn : t.loadedCommands[t.currentCommandIndex]? = some name := by
    rw [hti, hd.loadedCommands]; exact hname
  have hta : t.loadedArguments[t.currentCommandIndex]? = some args := by
    rw [hti, hd.loadedArguments]; exact hargs
  have htr : t.trace = m.trace := by
    have := hd.calls
    simpa [AutoManager.moveOn] using this
  have htc : t.created = m.created := hd.created
  have hcn : t.createNext = Except.ok
      ({ t with currentCommand := some { c0 with uid := t.created },
                created := t.created + 1,
                trace := t.trace ++ [Event.create t.created] }, true) := by
    have hl : t.registeredCommands.lookup (tolower name) = some creator := by
      rw [hd.registeredCommands]; exact hfg
    simp only [AutoManager.createNext, htn, hl, hc0]
  rw [hcn] at hs1
  cases hs1
  have hns' : (({ c0 with uid := t.created } : AutoCommand σ)).hasStarted = false := hns
  simp only [AutoManager.runCurrent, hns', htn, hta, Bool.not_false, if_true] at hs2
  cases hs2
  have hds : (({ c0 with uid := t.created } : AutoCommand σ).doStart now name args).2 =
      Event.start t.created name args ::
        (({ c0 with uid := t.created } : AutoCommand σ).doStart now name args).2.tail := rfl
  refine ⟨_, (({ c0 with uid := t.created } : AutoCommand σ).doStart now name args).2.tail ++
    ((({ c0 with uid := t.created } : AutoCommand σ).doStart now name args).1.process.2 ++
      (processAll 0 t.uniqueBgCommands).2), hp, hti, ?_⟩
  simp only [AutoManager.processBackground]
  rw [hds, htr, htc]
  simp only [List.append_assoc, List.singleton_append, List.cons_append, List.tail_cons,
    List.nil_append]

/-- C10. A tick that moves the cursor (over `K ≥ 0` background entries) onto an entry `i`
whose lowered name is in neither registry creates and starts nothing and returns `true`; the
next tick moves the cursor past `i`: it returns `false` when `i` was the last index; otherwise
it dispatches entry `i + 1`: when that entry is a background entry its `updateArgs` call is
the first call of the tick, and when it is a foreground entry (with a creator that returns a
fresh object) the command is created and started with the name and arguments of entry `i + 1`
and the tick returns `true`. -/
theorem C10_unknown_entry_skipped (m : AutoManager σ β) (now now2 : Int) (K : Nat)
    (hwf : m.WF) (hnext : m.wantsNext = true)
    (hfit : sizeSucc m.currentCommandIndex + K < m.loadedCommands.length)
    (hrun : ∀ j, j < K → m.isBgEntry (sizeSucc m.currentCommandIndex + j) = true)
    (hnobg : m.isBgEntry (sizeSucc m.currentCommandIndex + K) = false)
    (hnofg : m.isFgEntry (sizeSucc m.currentCommandIndex + K) = false) :
    ∃ s, m.process now = Except.ok (s, true) ∧
      s.currentCommand = none ∧ s.created = m.created ∧
      s.currentCommandIndex = sizeSucc m.currentCommandIndex + K ∧
      (∃ evs, s.trace = m.trace ++ evs ∧
        ∀ e ∈ evs, e.isUpdateArgs = true ∨ e.isBgProcess = true) ∧
      (sizeSucc m.currentCommandIndex + K + 1 = m.loadedCommands.length →
        ∃ s2, s.process now2 = Except.ok (s2, false) ∧
          s2.currentCommand = none ∧ s2.created = m.created) ∧
      (sizeSucc m.currentCommandIndex + K + 1 < m.loadedCommands.length →
        sizeSucc m.currentCommandIndex + K < (tickState (s.process now2)).currentCommandIndex ∧
        (∀ name args idx,
          m.loadedCommands[sizeSucc m.currentCommandIndex + K + 1]? = some name →
          m.loadedArguments[sizeSucc m.currentCommandIndex + K + 1]? = some args →
          m.backgroundCommands.lookup (tolower name) = some idx →
          ∃ rest, (tickState (s.process now2)).trace =
            s.trace ++ Event.updateArgs idx (tolower name) args :: rest) ∧
        (∀ name args creator c0,
          m.loadedCommands[sizeSucc m.currentCommandIndex + K + 1]? = some name →
          m.loadedArguments[sizeSucc m.currentCommandIndex + K + 1]? = some args →
          m.backgroundCommands.lookup (tolower name) = none →
          m.registeredCommands.lookup (tolower name) = some creator →
          creator () = some c0 → c0.hasStarted = false →
          ∃ s2 rest, s.process now2 = Except.ok (s2, true) ∧
            s2.currentCommandIndex = sizeSucc m.currentCommandIndex + K + 1 ∧
            s2.trace = s.trace ++
              Event.create s.created :: Event.start s.created name args :: rest)) := by
  obtain ⟨s, hd, hp⟩ := process_unknown m now K hwf hnext hfit hrun hnobg hnofg
  have hwfs : s.WF := WF_of_drained (WF_moveOn hwf) hd (Nat.le_of_lt hfit)
  have hwf' : s.processBackground.WF := WF_processBackground hwfs
  have hcur : s.processBackground.currentCommand = none := hd.currentCommand
  have hidx : s.processBackground.currentCommandIndex = sizeSucc m.currentCommandIndex + K :=
    hd.cursor
  have hcmds : s.processBackground.loadedCommands = m.loadedCommands := hd.loadedCommands
  have hargs : s.processBackground.loadedArguments = m.loadedArguments := hd.loadedArguments
  have hbgs : s.processBackground.backgroundCommands = m.backgroundCommands :=
    hd.backgroundCommands
  have hfgs : s.processBackground.registeredCommands = m.registeredCommands :=
    hd.registeredCommands
  have hnext' : s.processBackground.wantsNext = true := by
    simp [AutoManager.wantsNext, hcur]
  have hlen := hwf.len_lt
  have hsucc : sizeSucc s.processBackground.currentCommandIndex =
      sizeSucc m.currentCommandIndex + K + 1 := by
    rw [hidx]; exact sizeSucc_eq (by omega)
  have hbgE : s.processBackground.isBgEntry = m.isBgEntry := by
    funext i; simp [AutoManager.isBgEntry, hcmds, hbgs]
  have hupd : s.processBackground.updateEvent = m.updateEvent := by
    funext i; simp [AutoManager.updateEvent, hcmds, hargs, hbgs]
  refine ⟨s.processBackground, hp, hcur, hd.created, hidx, ?_, ?_, ?_⟩
  · obtain ⟨evs, he, hu⟩ := hd.trace
    refine ⟨evs ++ (processAll 0 s.uniqueBgCommands).2, ?_, ?_⟩
    · show s.trace ++ _ = _
      rw [he, List.append_assoc]; rfl
    · intro e he'
      rcases List.mem_append.1 he' with h | h
      · exact Or.inl (hu e h)
      · exact Or.inr (processAll_events _ _ e h)
  · intro hlast
    have := process_idle s.processBackground now2
      (by rw [hcmds]; intro h; rw [h] at hfit; simp at hfit) hcur
      (by rw [hcmds]; exact hlen) (by rw [hcmds, hidx]; omega) (by rw [hidx]; omega)
    exact ⟨_, this, rfl, hd.created⟩
  · intro hmore
    obtain ⟨K2, hK2, hrun2, hmax2⟩ := exists_run m _
      (sizeSucc m.currentCommandIndex + K + 1) (Nat.le_of_lt hmore) rfl
    obtain ⟨t, hdt, hend, hgo⟩ := process_run s.processBackground now2 K2 hwf' hnext'
      (by rw [hsucc, hcmds]; exact hmore) (by rw [hsucc, hcmds]; exact hK2)
      (by rw [hsucc, hbgE]; exact hrun2) (by rw [hsucc, hbgE]; exact hmax2)
    have htcur : t.currentCommandIndex = sizeSucc m.currentCommandIndex + K + 1 + K2 := by
      rw [hdt.cursor]; show sizeSucc s.processBackground.currentCommandIndex + K2 = _
      rw [hsucc]
    have htcalls : t.trace = s.processBackground.trace ++
        (List.range' (sizeSucc m.currentCommandIndex + K + 1) K2).filterMap m.updateEvent := by
      have := hdt.calls
      rw [show s.processBackground.moveOn.updateEvent = m.updateEvent from hupd] at this
      rw [this]
      show s.processBackground.trace ++
        (List.range' (sizeSucc s.processBackground.currentCommandIndex) K2).filterMap _ = _
      rw [hsucc]
    -- the state and the trace of the outcome
    have hout : (tickState (s.processBackground.process now2)).currentCommandIndex =
          sizeSucc m.currentCommandIndex + K + 1 + K2 ∧
        ∃ rest, (tickState (s.processBackground.process now2)).trace = t.trace ++ rest := by
      rcases Nat.lt_or_eq_of_le hK2 with hlt | heq
      · obtain ⟨s1, s2, _, _, hq1, hq2, hp2⟩ := hgo (by rw [hsucc, hcmds]; exact hlt)
        have hq := quiet_trans (quiet_trans hq1 hq2) (processBackground_quiet s2)
        obtain ⟨rest, hrest, _⟩ := hq.trace
        rw [hp2]
        exact ⟨by simp only [tickState]; rw [hq.cursor, htcur], rest, hrest⟩
      · have hp2 := hend (by rw [hsucc, hcmds]; exact heq)
        rw [hp2]
        exact ⟨htcur, [], by simp [tickState]⟩
    refine ⟨by rw [hout.1]; omega, ?_, ?_⟩
    · intro name args idx hn ha hb
      have hbg1 : m.isBgEntry (sizeSucc m.currentCommandIndex + K + 1) = true := by
        simp [AutoManager.isBgEntry, hn, hb]
      have hK2pos : 1 ≤ K2 := by
        rcases Nat.eq_zero_or_pos K2 with h0 | h0
        · subst h0; rw [Nat.add_zero, hbg1] at hmax2; cases hmax2
        · exact h0
      obtain ⟨K3, rfl⟩ : ∃ K3, K2 = K3 + 1 := ⟨K2 - 1, by omega⟩
      obtain ⟨rest, hrest⟩ := hout.2
      refine ⟨(List.range' (sizeSucc m.currentCommandIndex + K + 1 + 1) K3).filterMap
        m.updateEvent ++ rest, ?_⟩
      rw [hrest, htcalls, List.range'_succ,
        List.filterMap_cons_some (updateEvent_of_bg m _ idx name args hn ha hb)]
      simp
    · intro name args creator c0 hn ha hb hf hc0 hns
      obtain ⟨s2, rest, h1, h2, h3⟩ := process_foreground s.processBackground now2 hwf' hnext'
        name args creator c0 (by rw [hsucc, hcmds]; exact hn) (by rw [hsucc, hargs]; exact ha)
        (by rw [hbgs]; exact hb) (by rw [hfgs]; exact hf) hc0 hns
      exact ⟨s2, rest, h1, by rw [h2, hsucc], h3⟩


/-! ## The commands of main.cpp -/

theorem timedHooks_completesOnce (ms : String → Int) : (timedHooks ms).CompletesOnce := by
  refine ⟨?_, ?_⟩
  · intro f s n a
    cases a with
    | nil => simp [timedHooks]
    | cons x xs => simp [timedHooks]
  · intro f s
    simp [timedHooks]

theorem mainManager_registered :
    mainManager.registeredCommands =
      [("drive", CommandCreator (DriveCommand msOfDigits) ()),
       ("rotate", CommandCreator (RotateCommand msOfDigits) ())] := rfl

theorem mainManager_freshCreators : mainManager.FreshCreators := by
  intro p hp c hc
  rw [mainManager_registered] at hp
  simp only [List.mem_cons, List.mem_singleton, List.not_mem_nil, or_false] at hp
  rcases hp with h | h <;> subst h <;>
    (simp only [CommandCreator, Option.some.injEq] at hc
     subst hc
     exact ⟨rfl, timedHooks_completesOnce _⟩)

theorem lookup_lt_of_forall (l : List (String × Nat)) (n : Nat) (h : ∀ p ∈ l, p.2 < n)
    (k : String) (i : Nat) (hl : l.lookup k = some i) : i < n := by
  obtain ⟨p, hp, hv⟩ := lookup_mem l k i hl
  rw [← hv]; exact h p hp

/-- C2, at the failing input: the script `intake_in`, whose only entry is a background entry.
The first tick calls `updateArgs`, moves the cursor to 1 and then reads `loadedCommands[1]`
in a script of length 1. -/
theorem C2_read_past_end_of_script :
    ∃ e, intakeScript.process 0 = Except.error e ∧
      e.loadedCommands.length = 1 ∧ e.currentCommandIndex = 1 ∧
      e.loadedCommands[e.currentCommandIndex]? = none ∧
      e.trace = [Event.updateArgs 0 "intake_in" []] :=
  ⟨_, rfl, rfl, rfl, rfl, rfl⟩

/-- C4, at the failing input: the script `drive` (no argument).  In its first tick the start
hook of the drive command calls `complete()`, and the tick then calls the `process` hook of
the command that is already complete. -/
theorem C4_process_called_after_complete :
    ∃ s c, driveNoArgsScript.process 0 = Except.ok (s, true) ∧
      s.currentCommand = some c ∧ c.isComplete = true ∧
      s.trace = [Event.create 0, Event.start 0 "drive" [], Event.handleComplete 0,
                 Event.process 0] :=
  ⟨_, _, rfl, rfl, rfl, rfl⟩

/-- C9, at the failing input: the script `drive,2` / `intake_stop`.  The tick after the drive
command has completed moves the cursor past the last index, but stops at the out-of-bounds read
of `handleNextBgCommands` instead of returning `false`. -/
theorem C9_no_result_after_trailing_background_entry :
    ∃ e, driveStopScript.processTicks [0, 2000, 2050] = (Except.error e) ∧
      e.loadedCommands.length = 2 ∧ e.currentCommandIndex = 2 :=
  ⟨_, rfl, rfl, rfl⟩

/-- C1 fails as stated: with the script `drive,2`, the tick at 2000 ms completes the drive
command by timeout and a `killAuto()` before the next tick completes it again; instance 0
receives `handleComplete` twice. -/
theorem C1_handleComplete_twice :
    (lastState (driveScript.run [Op.process 0, Op.process 2000, Op.killAuto])).trace =
        [Event.create 0, Event.start 0 "drive" ["2"], Event.process 0,
         Event.handleComplete 0, Event.handleComplete 0, Event.kill 0, Event.kill 1] ∧
    (lastState (driveScript.run [Op.process 0, Op.process 2000, Op.killAuto])).trace.count
        (Event.handleComplete 0) = 2 := by
  constructor
  · rfl
  · decide

/-- The value returned by a tick that returns: with a non-empty script, `true` exactly when
the cursor is a valid index afterwards.  (A tick that runs into a run of background entries
at the end of the script does not return, see `process_run`.) -/
theorem process_result_iff (m : AutoManager σ β) (now : Int) (hwf : m.WF)
    (hne : m.loadedCommands ≠ [])
    (hact : m.wantsNext = false → m.currentCommandIndex < m.loadedCommands.length)
    (s : AutoManager σ β) (r : Bool) (hp : m.process now = Except.ok (s, r)) :
    (r = true ↔ s.currentCommandIndex < s.loadedCommands.length) := by
  have hpos := List.length_pos.2 hne
  have h1 : ¬ m.loadedCommandCount < 1 := by
    simp only [AutoManager.loadedCommandCount]; omega
  by_cases hw : m.wantsNext = true
  · by_cases hc : sizeSucc m.currentCommandIndex < m.loadedCommands.length
    · obtain ⟨K, hK, hrun, hmax⟩ := exists_run m _ (sizeSucc m.currentCommandIndex)
        (Nat.le_of_lt hc) rfl
      obtain ⟨t, hd, hend, hgo⟩ := process_run m now K hwf hw hc hK hrun hmax
      rcases Nat.lt_or_eq_of_le hK with hlt | heq
      · obtain ⟨s1, s2, _, _, hq1, hq2, hp2⟩ := hgo hlt
        rw [hp2] at hp
        cases hp
        have hq := quiet_trans (quiet_trans hq1 hq2) (processBackground_quiet s2)
        rw [hq.cursor, hq.loadedCommands, hd.cursor, hd.loadedCommands]
        exact ⟨fun _ => hlt, fun _ => rfl⟩
      · rw [hend heq] at hp; cases hp
    · have hpe : m.moveOn.pastEnd = true := by
        rw [pastEnd_eq _ (WF_moveOn hwf).len_lt]
        simp only [decide_eq_true_eq]
        exact Nat.le_of_not_lt hc
      have ha : m.advance = Except.ok (m.moveOn, false) := by
        unfold AutoManager.advance
        rw [if_pos hw, if_pos hpe]
      have hr : m.moveOn.runCurrent now = Except.ok m.moveOn := rfl
      unfold AutoManager.process at hp
      rw [if_neg h1, ha] at hp
      simp only [hr] at hp
      cases hp
      constructor
      · intro h; cases h
      · intro h; exact absurd h hc
  · have hw' : m.wantsNext = false := by simpa using hw
    have hlt := hact hw'
    have ha : m.advance = Except.ok (m, true) := by
      unfold AutoManager.advance
      rw [if_neg hw]
    obtain ⟨s2, hs2, hq⟩ := runCurrent_spec m now hlt hwf.args_len
    unfold AutoManager.process at hp
    rw [if_neg h1, ha] at hp
    simp only [hs2] at hp
    cases hp
    have hq2 := quiet_trans hq (processBackground_quiet s2)
    rw [hq2.cursor, hq2.loadedCommands]
    exact ⟨fun _ => hlt, fun _ => rfl⟩

/-! ## The theorems at concrete inputs -/

theorem mainManager_bg_lt (k : String) (i : Nat)
    (h : mainManager.backgroundCommands.lookup k = some i) :
    i < mainManager.uniqueBgCommands.length :=
  lookup_lt_of_forall _ _ (by decide) k i h

theorem runScript_WF : runScript.WF :=
  ⟨rfl, by decide, by decide, mainManager_bg_lt⟩

theorem waitScript_WF : waitScript.WF :=
  ⟨rfl, by decide, by decide, mainManager_bg_lt⟩


/-- C1 amended, at a concrete input: the script `drive,2` ticked at 0, 2000 and 2050 ms.  After
the second tick the drive command is complete. -/
theorem C1_handleComplete_once_witness :
    (∀ uid, (lastState (driveScript.run ([Op.process 0, Op.process 2000] ++
        [Op.process 2050]))).trace.count (Event.handleComplete uid) ≤ 1) ∧
    (completedDrive.isComplete = true →
      (lastState (driveScript.run ([Op.process 0, Op.process 2000] ++
        [Op.process 2050]))).trace.count (Event.handleComplete completedDrive.uid) = 1) ∧
    (∀ rest, [Op.process 2050] = Op.killAuto :: rest ∨
        [Op.process 2050] = Op.clearCommands :: rest →
      (lastState (driveScript.run ([Op.process 0, Op.process 2000] ++
        [Op.process 2050]))).trace.count (Event.handleComplete completedDrive.uid) = 1) :=
  C1_handleComplete_once driveScript
    (lastState (driveScript.run [Op.process 0, Op.process 2000]))
    [Op.process 0, Op.process 2000] [Op.process 2050] completedDrive
    mainManager_freshCreators rfl (fun _ => rfl) ⟨rfl, rfl, rfl, trivial⟩ rfl rfl

theorem liftScript_WF : liftScript.WF :=
  ⟨rfl, by decide, by decide, mainManager_bg_lt⟩

/-- C3, at a concrete input: the script `intake_in` / `move_lifter,3` / `drive,2`, first tick.
Afterwards the speed of the intake is 1 and the lifter has the target 3 and has made one
step. -/
theorem C3_background_run_drained_witness :
    (tickState (liftScript.process 0)).uniqueBgCommands.map (fun b => b.self) =
      [BgFields.intake 1, BgFields.lifter 3 1] ∧
    ∃ calls rest,
      (tickState (liftScript.process 0)).trace = liftScript.trace ++ calls ++ rest ∧
      calls.length = 2 ∧
      (∀ j, j < 2 → ∃ name args idx,
        liftScript.loadedCommands[sizeSucc liftScript.currentCommandIndex + j]? = some name ∧
        liftScript.loadedArguments[sizeSucc liftScript.currentCommandIndex + j]? = some args ∧
        liftScript.backgroundCommands.lookup (tolower name) = some idx ∧
        calls[j]? = some (Event.updateArgs idx (tolower name) args) ∧
        ∀ bgs b, bgs[idx]? = some b →
          liftScript.handOver bgs (sizeSucc liftScript.currentCommandIndex + j) =
            bgs.set idx { b with self := b.updateArgs b.self (tolower name) args }) ∧
      (∀ e ∈ rest, e.isUpdateArgs = false) ∧
      (tickState (liftScript.process 0)).currentCommandIndex =
        sizeSucc liftScript.currentCommandIndex + 2 ∧
      (sizeSucc liftScript.currentCommandIndex + 2 < liftScript.loadedCommands.length →
        ∃ s, liftScript.process 0 = Except.ok (s, true) ∧
          s.uniqueBgCommands =
            (processAll 0 ((List.range' (sizeSucc liftScript.currentCommandIndex) 2).foldl
              liftScript.handOver liftScript.uniqueBgCommands)).1) ∧
      (sizeSucc liftScript.currentCommandIndex + 2 = liftScript.loadedCommands.length →
        ∃ s, liftScript.process 0 = Except.error s ∧
          s.uniqueBgCommands =
            (List.range' (sizeSucc liftScript.currentCommandIndex) 2).foldl
              liftScript.handOver liftScript.uniqueBgCommands) :=
  ⟨by decide, C3_background_run_drained liftScript 0 2 liftScript_WF rfl (by decide) (by decide)
    (by decide) rfl⟩

/-- C10, at a concrete input: the script `intake_in` / `wait,1` / `rotate,1`, in which `wait`
is not registered; ticks at 0 and 50 ms. -/
theorem C10_unknown_entry_skipped_witness :
    ∃ s, waitScript.process 0 = Except.ok (s, true) ∧
      s.currentCommand = none ∧ s.created = waitScript.created ∧
      s.currentCommandIndex = sizeSucc waitScript.currentCommandIndex + 1 ∧
      (∃ evs, s.trace = waitScript.trace ++ evs ∧
        ∀ e ∈ evs, e.isUpdateArgs = true ∨ e.isBgProcess = true) ∧
      (sizeSucc waitScript.currentCommandIndex + 1 + 1 = waitScript.loadedCommands.length →
        ∃ s2, s.process 50 = Except.ok (s2, false) ∧
          s2.currentCommand = none ∧ s2.created = waitScript.created) ∧
      (sizeSucc waitScript.currentCommandIndex + 1 + 1 < waitScript.loadedCommands.length →
        sizeSucc waitScript.currentCommandIndex + 1 <
          (tickState (s.process 50)).currentCommandIndex ∧
        (∀ name args idx,
          waitScript.loadedCommands[sizeSucc waitScript.currentCommandIndex + 1 + 1]? =
            some name →
          waitScript.loadedArguments[sizeSucc waitScript.currentCommandIndex + 1 + 1]? =
            some args →
          waitScript.backgroundCommands.lookup (tolower name) = some idx →
          ∃ rest, (tickState (s.process 50)).trace =
            s.trace ++ Event.updateArgs idx (tolower name) args :: rest) ∧
        (∀ name args creator c0,
          waitScript.loadedCommands[sizeSucc waitScript.currentCommandIndex + 1 + 1]? =
            some name →
          waitScript.loadedArguments[sizeSucc waitScript.currentCommandIndex + 1 + 1]? =
            some args →
          waitScript.backgroundCommands.lookup (tolower name) = none →
          waitScript.registeredCommands.lookup (tolower name) = some creator →
          creator () = some c0 → c0.hasStarted = false →
          ∃ s2 rest, s.process 50 = Except.ok (s2, true) ∧
            s2.currentCommandIndex = sizeSucc waitScript.currentCommandIndex + 1 + 1 ∧
            s2.trace = s.trace ++
              Event.create s.created :: Event.start s.created name args :: rest)) :=
  C10_unknown_entry_skipped waitScript 0 50 1 waitScript_WF rfl (by decide) (by decide)
    rfl rfl

/-! ## Registration -/

theorem lookup_append_single {α : Type} (l : List (String × α)) (n k : String) (v : α) :
    (l ++ [(n, v)]).lookup k =
      match l.lookup k with
      | some x => some x
      | none => if k = n then some v else none := by
  rw [List.lookup_append]
  cases h : l.lookup k with
  | some x => simp
  | none =>
    by_cases hk : k = n
    · subst hk; simp [List.lookup]
    · have : (k == n) = false := by simpa using hk
      simp [List.lookup, this, hk]

theorem registry_empty (m : AutoManager σ β) (h1 : m.registeredCommands = [])
    (h2 : m.backgroundCommands = []) (h3 : m.bgCommandTypes = [])
    (h4 : m.uniqueBgCommands = []) : Registry m [] := by
  refine ⟨by rw [h3, h4]; rfl, by rw [h3]; exact List.nodup_nil, ?_, ?_, ?_, ?_, ?_⟩
  · intro k i h; rw [h2] at h; cases h
  · intro k h; rw [h1] at h; cases h
  · intro k; rw [h2]; simp
  · intro p hp; cases hp
  · intro T hT; rw [h3] at hT; cases hT

theorem registry_registerCommand (m : AutoManager σ β) (acc : List (String × String))
    (h : Registry m acc) (creator : CmdCreator σ) (name : String) :
    Registry (m.registerCommand creator name) acc := by
  unfold AutoManager.registerCommand
  simp only
  split
  · rename_i hfree
    simp only [Bool.and_eq_true, Option.isNone_iff_eq_none] at hfree
    refine ⟨h.sameLength, h.nodup, h.inRange, ?_, h.keys, h.typed, h.used⟩
    intro k hk hb
    simp only [lookup_append_single] at hk
    cases hl : m.registeredCommands.lookup k with
    | some x => exact h.disjoint k (by rw [hl]; rfl) hb
    | none =>
      rw [hl] at hk
      by_cases hkn : k = tolower name
      · subst hkn
        rw [hfree.1] at hb; cases hb
      · simp [hkn] at hk
  · exact h


theorem registry_registerBackground (m : AutoManager σ β) (acc : List (String × String))
    (h : Registry m acc) (typeName : String) (fresh : BackgroundAutoCommand β)
    (name : String) :
    Registry (m.registerBackgroundCommand typeName fresh name)
      (if m.isFree name then acc ++ [(tolower name, typeName)] else acc) := by
  by_cases hfree : m.isFree name = true
  · have hf := hfree
    simp only [AutoManager.isFree, Bool.and_eq_true, Option.isNone_iff_eq_none] at hf
    rw [if_pos hfree]
    have hcond : ((m.backgroundCommands.lookup (tolower name)).isNone &&
        (m.registeredCommands.lookup (tolower name)).isNone) = true := hfree
    by_cases hnew : m.bgCommandTypes.indexOf typeName = m.bgCommandTypes.length
    · have hnot : typeName ∉ m.bgCommandTypes := List.indexOf_eq_length.1 hnew
      simp only [AutoManager.registerBackgroundCommand, hcond, if_true, hnew]
      refine ⟨?_, ?_, ?_, ?_, ?_, ?_, ?_⟩
      · simp [h.sameLength]
      · exact List.nodup_append.2 ⟨h.nodup, List.nodup_singleton _, by
          intro a ha hb
          rw [List.mem_singleton] at hb
          subst hb; exact hnot ha⟩
      · intro k i hk
        simp only [lookup_append_single] at hk
        simp only [List.length_append, List.length_singleton]
        cases hl : m.backgroundCommands.lookup k with
        | some x =>
          rw [hl] at hk
          cases hk
          have := h.inRange k _ hl
          omega
        | none =>
          rw [hl] at hk
          by_cases hkn : k = tolower name
          · simp only [hkn, if_true, Option.some.injEq, List.length_append,
              List.length_singleton] at hk
            omega
          · simp [hkn] at hk
      · intro k hk hb
        simp only [lookup_append_single] at hb
        cases hl : m.backgroundCommands.lookup k with
        | some x => exact h.disjoint k hk (by rw [hl]; rfl)
        | none =>
          rw [hl] at hb
          by_cases hkn : k = tolower name
          · subst hkn; rw [hf.2] at hk; cases hk
          · simp [hkn] at hb
      · intro k
        simp only [lookup_append_single, List.map_append, List.map_cons, List.map_nil,
          List.mem_append, List.mem_singleton]
        rw [← h.keys k]
        cases hl : m.backgroundCommands.lookup k with
        | some x => simp
        | none =>
          by_cases hkn : k = tolower name
          · simp [hkn]
          · simp [hkn]
      · intro p hp
        rcases List.mem_append.1 hp with hp | hp
        · obtain ⟨i, hi, ht⟩ := h.typed p hp
          refine ⟨i, by simp only [lookup_append_single, hi], ?_⟩
          have hlt : i < m.bgCommandTypes.length := by
            by_contra hcon
            rw [List.getElem?_eq_none_iff.2 (by omega)] at ht
            cases ht
          rw [List.getElem?_append_left hlt]; exact ht
        · rw [List.mem_singleton] at hp
          subst hp
          refine ⟨m.uniqueBgCommands.length, ?_, ?_⟩
          · simp [lookup_append_single, hf.1]
          · rw [← h.sameLength]; simp
      · intro T hT
        simp only [List.map_append, List.map_cons, List.map_nil, List.mem_append,
          List.mem_singleton]
        rcases List.mem_append.1 hT with hT | hT
        · exact Or.inl (h.used T hT)
        · exact Or.inr (List.mem_singleton.1 hT)
    · have hmem : typeName ∈ m.bgCommandTypes := by
        by_contra hcon
        exact hnew (List.indexOf_eq_length.2 hcon)
      have hlt : m.bgCommandTypes.indexOf typeName < m.bgCommandTypes.length :=
        List.indexOf_lt_length.2 hmem
      simp only [AutoManager.registerBackgroundCommand, hcond, if_true, hnew, if_false]
      refine ⟨h.sameLength, h.nodup, ?_, ?_, ?_, ?_, ?_⟩
      · intro k i hk
        simp only [lookup_append_single] at hk
        cases hl : m.backgroundCommands.lookup k with
        | some x =>
          rw [hl] at hk
          cases hk
          exact h.inRange k _ hl
        | none =>
          rw [hl] at hk
          by_cases hkn : k = tolower name
          · simp only [hkn, if_true, Option.some.injEq] at hk
            rw [← hk, ← h.sameLength]; exact hlt
          · simp [hkn] at hk
      · intro k hk hb
        simp only [lookup_append_single] at hb
        cases hl : m.backgroundCommands.lookup k with
        | some x => exact h.disjoint k hk (by rw [hl]; rfl)
        | none =>
          rw [hl] at hb
          by_cases hkn : k = tolower name
          · subst hkn; rw [hf.2] at hk; cases hk
          · simp [hkn] at hb
      · intro k
        simp only [lookup_append_single, List.map_append, List.map_cons, List.map_nil,
          List.mem_append, List.mem_singleton]
        rw [← h.keys k]
        cases hl : m.backgroundCommands.lookup k with
        | some x => simp
        | none =>
          by_cases hkn : k = tolower name
          · simp [hkn]
          · simp [hkn]
      · intro p hp
        rcases List.mem_append.1 hp with hp | hp
        · obtain ⟨i, hi, ht⟩ := h.typed p hp
          exact ⟨i, by simp only [lookup_append_single, hi], ht⟩
        · rw [List.mem_singleton] at hp
          subst hp
          refine ⟨m.bgCommandTypes.indexOf typeName, ?_, ?_⟩
          · simp [lookup_append_single, hf.1]
          · exact List.getElem?_indexOf hmem
      · intro T hT
        simp only [List.map_append, List.map_cons, List.map_nil, List.mem_append,
          List.mem_singleton]
        exact Or.inl (h.used T hT)
  · have hcond : ¬ ((m.backgroundCommands.lookup (tolower name)).isNone &&
        (m.registeredCommands.lookup (tolower name)).isNone) = true := hfree
    simp only [AutoManager.registerBackgroundCommand, hcond, if_false]
    rw [if_neg hfree]
    exact h

theorem registry_successes (ops : List (RegOp σ β)) :
    ∀ (m : AutoManager σ β) (acc : List (String × String)), Registry m acc →
      Registry (m.registerAll ops) (successes m acc ops) := by
  induction ops with
  | nil => intro m acc h; exact h
  | cons op ops ih =>
    intro m acc h
    cases op with
    | registerCommand creator name =>
      exact ih _ _ (registry_registerCommand m acc h creator name)
    | registerBackgroundCommand typeName fresh name =>
      exact ih _ _ (registry_registerBackground m acc h typeName fresh name)
    | unregisterAll =>
      exact ih _ _ (registry_empty m.unregisterAll rfl rfl rfl rfl)

theorem registry_reachable (ops : List (RegOp σ β)) :
    Registry (({} : AutoManager σ β).registerAll ops) (successes {} [] ops) :=
  registry_successes ops {} [] (registry_empty {} rfl rfl rfl rfl)

/-- After any sequence of `registerCommand`, `registerBackgroundCommand` and `unregisterAll`
calls on an empty manager: the keys of the background registry are exactly the successfully
registered background names; two such names map to the same index of `uniqueBgCommands`
exactly when the classes they were registered for have the same `typeid(T).name()`; and the
number of instances in `uniqueBgCommands` is the number of distinct such strings that have a
successfully registered name.  Classes are told apart by that string only. -/
theorem registry_one_instance_per_type_name (ops : List (RegOp σ β)) :
    (∀ k, ((({} : AutoManager σ β).registerAll ops).backgroundCommands.lookup k).isSome = true ↔
      k ∈ (successes ({} : AutoManager σ β) [] ops).map Prod.fst) ∧
    (∀ p ∈ successes ({} : AutoManager σ β) [] ops,
      ∀ q ∈ successes ({} : AutoManager σ β) [] ops,
      ∃ i j, (({} : AutoManager σ β).registerAll ops).backgroundCommands.lookup p.1 = some i ∧
        (({} : AutoManager σ β).registerAll ops).backgroundCommands.lookup q.1 = some j ∧
        i < (({} : AutoManager σ β).registerAll ops).uniqueBgCommands.length ∧
        j < (({} : AutoManager σ β).registerAll ops).uniqueBgCommands.length ∧
        (p.2 = q.2 ↔ i = j)) ∧
    (({} : AutoManager σ β).registerAll ops).uniqueBgCommands.length =
      ((successes ({} : AutoManager σ β) [] ops).map Prod.snd).dedup.length := by
  have h := registry_reachable ops
  refine ⟨h.keys, ?_, ?_⟩
  · intro p hp q hq
    obtain ⟨i, hi, hti⟩ := h.typed p hp
    obtain ⟨j, hj, htj⟩ := h.typed q hq
    refine ⟨i, j, hi, hj, h.inRange _ _ hi, h.inRange _ _ hj, ?_⟩
    have hil : i < (({} : AutoManager σ β).registerAll ops).bgCommandTypes.length := by
      rw [h.sameLength]; exact h.inRange _ _ hi
    have hjl : j < (({} : AutoManager σ β).registerAll ops).bgCommandTypes.length := by
      rw [h.sameLength]; exact h.inRange _ _ hj
    rw [List.getElem?_eq_getElem hil, Option.some.injEq] at hti
    rw [List.getElem?_eq_getElem hjl, Option.some.injEq] at htj
    constructor
    · intro hpq
      exact (List.Nodup.getElem_inj_iff h.nodup).1 (by rw [hti, htj, hpq])
    · intro hij
      subst hij
      rw [← hti, ← htj]
  · rw [← h.sameLength]
    have hperm : (({} : AutoManager σ β).registerAll ops).bgCommandTypes.Perm
        ((successes ({} : AutoManager σ β) [] ops).map Prod.snd).dedup := by
      rw [List.perm_ext_iff_of_nodup h.nodup (List.nodup_dedup _)]
      intro T
      rw [List.mem_dedup]
      constructor
      · exact h.used T
      · intro hT
        obtain ⟨p, hp, hpT⟩ := List.mem_map.1 hT
        obtain ⟨i, _, hti⟩ := h.typed p hp
        rw [← hpT]
        exact List.mem_iff_getElem?.2 ⟨i, hti⟩
    exact hperm.length_eq

/-- C12, at the failing input: two classes for which `typeid(T).name()` is the same string
(with g++, two different classes called `Intake` in the unnamed namespaces of two translation
units both give `N12_GLOBAL__N_16IntakeE`), `first` being the object `new T()` of the one and
`second` that of the other, registered on an empty manager under the names `intake` and
`lift`.  Both names map to index 0 and there is one instance, the object of the first class:
no object of the second class is made, whatever that class is. -/
theorem C12_types_sharing_a_name (first second : BackgroundAutoCommand β) :
    ((({} : AutoManager σ β).registerBackgroundCommand "N12_GLOBAL__N_16IntakeE" first
        "intake").registerBackgroundCommand "N12_GLOBAL__N_16IntakeE" second
        "lift").backgroundCommands.lookup "intake" = some 0 ∧
    ((({} : AutoManager σ β).registerBackgroundCommand "N12_GLOBAL__N_16IntakeE" first
        "intake").registerBackgroundCommand "N12_GLOBAL__N_16IntakeE" second
        "lift").backgroundCommands.lookup "lift" = some 0 ∧
    ((({} : AutoManager σ β).registerBackgroundCommand "N12_GLOBAL__N_16IntakeE" first
        "intake").registerBackgroundCommand "N12_GLOBAL__N_16IntakeE" second
        "lift").uniqueBgCommands = [first] ∧
    ((({} : AutoManager σ β).registerBackgroundCommand "N12_GLOBAL__N_16IntakeE" first
        "intake").registerBackgroundCommand "N12_GLOBAL__N_16IntakeE" second
        "lift").bgCommandTypes = ["N12_GLOBAL__N_16IntakeE"] :=
  ⟨rfl, rfl, rfl, rfl⟩

/-- C13. After any sequence of `registerCommand`, `registerBackgroundCommand` and
`unregisterAll` calls on an empty manager, no string is a key of both the foreground and the
background registry. -/
theorem C13_registries_disjoint (ops : List (RegOp σ β)) (k : String) :
    (((({} : AutoManager σ β).registerAll ops).registeredCommands.lookup k).isSome &&
      ((({} : AutoManager σ β).registerAll ops).backgroundCommands.lookup k).isSome) = false := by
  have h := (registry_reachable ops).disjoint k
  cases h1 : ((({} : AutoManager σ β).registerAll ops).registeredCommands.lookup k).isSome with
  | false => rfl
  | true =>
    cases h2 : ((({} : AutoManager σ β).registerAll ops).backgroundCommands.lookup k).isSome with
    | false => rfl
    | true => exact absurd (h h1 h2) id

/-- C14. A name whose lowered form is already a key of the foreground or of the background
registry: `registerCommand` and `registerBackgroundCommand` with that name return the manager
state unchanged (both registries, `uniqueBgCommands` and `bgCommandTypes` included). -/
theorem C14_collision_leaves_state (m : AutoManager σ β) (creator : CmdCreator σ)
    (typeName : String) (fresh : BackgroundAutoCommand β) (name : String)
    (h : (m.registeredCommands.lookup (tolower name)).isSome = true ∨
      (m.backgroundCommands.lookup (tolower name)).isSome = true) :
    m.registerCommand creator name = m ∧
    m.registerBackgroundCommand typeName fresh name = m := by
  have hcond : ¬ ((m.backgroundCommands.lookup (tolower name)).isNone &&
      (m.registeredCommands.lookup (tolower name)).isNone) = true := by
    intro hc
    simp only [Bool.and_eq_true, Option.isNone_iff_eq_none] at hc
    rcases h with h | h
    · rw [hc.2] at h; cases h
    · rw [hc.1] at h; cases h
  constructor
  · simp only [AutoManager.registerCommand, hcond, Bool.false_eq_true, if_false]
  · simp only [AutoManager.registerBackgroundCommand, hcond, Bool.false_eq_true, if_false]

/-- C14, at a concrete input: the manager of main.cpp and the name `DRIVE`. -/
theorem C14_collision_leaves_state_witness :
    mainManager.registerCommand (CommandCreator (RotateCommand msOfDigits) ()) "DRIVE" =
      mainManager ∧
    mainManager.registerBackgroundCommand "IntakeCommand" IntakeCommand "DRIVE" =
      mainManager :=
  C14_collision_leaves_state mainManager (CommandCreator (RotateCommand msOfDigits) ())
    "IntakeCommand" IntakeCommand "DRIVE" (Or.inl rfl)

/-- C20. After any sequence of `registerCommand`, `registerBackgroundCommand` and
`unregisterAll` calls on an empty manager: `bgCommandTypes` and `uniqueBgCommands` have the
same length, `bgCommandTypes` has no duplicate, and every index stored in `backgroundCommands`
is an index of `uniqueBgCommands`, so the read `uniqueBgCommands[backgroundCommands[key]]` is
inside the vector. -/
theorem C20_background_registry_well_formed (ops : List (RegOp σ β)) :
    (({} : AutoManager σ β).registerAll ops).bgCommandTypes.length =
      (({} : AutoManager σ β).registerAll ops).uniqueBgCommands.length ∧
    (({} : AutoManager σ β).registerAll ops).bgCommandTypes.Nodup ∧
    ∀ k i, (({} : AutoManager σ β).registerAll ops).backgroundCommands.lookup k = some i →
      i < (({} : AutoManager σ β).registerAll ops).uniqueBgCommands.length ∧
      ((({} : AutoManager σ β).registerAll ops).uniqueBgCommands[i]?).isSome = true := by
  have h := registry_reachable ops
  refine ⟨h.sameLength, h.nodup, ?_⟩
  intro k i hk
  have hlt := h.inRange k i hk
  exact ⟨hlt, by rw [List.getElem?_eq_getElem hlt]; rfl⟩

/-! ## addCommand -/

theorem intCast_eq {n : Nat} (h : n < 2 ^ 31) : intCast n = (n : Int) := by
  have h1 : n % 2 ^ 32 = n := Nat.mod_eq_of_lt (by omega)
  unfold intCast
  rw [h1, if_pos h]

theorem insertIdx_eq_take_drop {α : Type} (a : α) :
    ∀ (n : Nat) (l : List α), n ≤ l.length → l.insertIdx n a = l.take n ++ a :: l.drop n := by
  intro n
  induction n with
  | zero => intro l _; simp
  | succ n ih =>
    intro l hl
    cases l with
    | nil => simp at hl
    | cons x xs =>
      simp only [List.length_cons] at hl
      rw [List.insertIdx_succ_cons, ih xs (by omega)]
      simp

/-- C15. A script of length `n` (both vectors, `n` within the range of `int`): for
`0 ≤ pos ≤ n`, `addCommand` puts the entry at index `pos`, after the first `pos` entries and
before the others, which keep their order; for `pos < -1` or `pos > n` the result is the
result of `addCommand` with `pos = -1`, that is the old script with the entry appended. -/
theorem C15_addCommand_position (m : AutoManager σ β) (command : String)
    (arguments : List String) (pos : Int)
    (hlen : m.loadedCommands.length < 2 ^ 31)
    (hargs : m.loadedArguments.length = m.loadedCommands.length) :
    ((0 ≤ pos ∧ pos ≤ m.loadedCommands.length) →
      (m.addCommand command arguments pos).loadedCommands =
        m.loadedCommands.take pos.toNat ++ command :: m.loadedCommands.drop pos.toNat ∧
      (m.addCommand command arguments pos).loadedArguments =
        m.loadedArguments.take pos.toNat ++ arguments :: m.loadedArguments.drop pos.toNat ∧
      (m.addCommand command arguments pos).loadedCommands[pos.toNat]? = some command ∧
      (m.addCommand command arguments pos).loadedArguments[pos.toNat]? = some arguments) ∧
    ((pos < -1 ∨ pos > m.loadedCommands.length) →
      m.addCommand command arguments pos = m.addCommand command arguments (-1) ∧
      (m.addCommand command arguments pos).loadedCommands = m.loadedCommands ++ [command] ∧
      (m.addCommand command arguments pos).loadedArguments =
        m.loadedArguments ++ [arguments]) := by
  have hcast := intCast_eq hlen
  constructor
  · rintro ⟨h0, hn⟩
    have hc1 : ¬ (pos > intCast m.loadedCommands.length ∨ pos < -1) := by
      rw [hcast]; omega
    have hc2 : ¬ pos = -1 := by omega
    have hle : pos.toNat ≤ m.loadedCommands.length := by omega
    have e1 : (m.addCommand command arguments pos).loadedCommands =
        m.loadedCommands.insertIdx pos.toNat command := by
      simp only [AutoManager.addCommand, hc1, if_false, hc2]
    have e2 : (m.addCommand command arguments pos).loadedArguments =
        m.loadedArguments.insertIdx pos.toNat arguments := by
      simp only [AutoManager.addCommand, hc1, if_false, hc2]
    rw [e1, e2, insertIdx_eq_take_drop _ _ _ hle,
      insertIdx_eq_take_drop _ _ _ (by rw [hargs]; exact hle)]
    refine ⟨rfl, rfl, ?_, ?_⟩
    · rw [List.getElem?_append_right (by simp [hle])]
      simp [Nat.min_eq_left hle]
    · rw [List.getElem?_append_right (by simp [hargs, hle])]
      simp [Nat.min_eq_left (show pos.toNat ≤ m.loadedArguments.length by rw [hargs]; exact hle)]
  · intro h
    have hc1 : (pos > intCast m.loadedCommands.length ∨ pos < -1) := by
      rw [hcast]; omega
    have e : m.addCommand command arguments pos =
        { m with loadedCommands := m.loadedCommands ++ [command],
                 loadedArguments := m.loadedArguments ++ [arguments] } := by
      simp only [AutoManager.addCommand, hc1, if_true]
    have e' : m.addCommand command arguments (-1) =
        { m with loadedCommands := m.loadedCommands ++ [command],
                 loadedArguments := m.loadedArguments ++ [arguments] } := by
      have hc : ¬ ((-1 : Int) > intCast m.loadedCommands.length ∨ (-1 : Int) < -1) := by
        rw [hcast]; omega
      simp only [AutoManager.addCommand, hc, if_false, if_true]
    rw [e, e']
    exact ⟨rfl, rfl, rfl⟩

/-- C15, at a concrete input: the script `intake_in` / `Intake_OUT` / `drive,2` and position
1. -/
theorem C15_addCommand_position_witness :
    ((0 ≤ (1 : Int) ∧ (1 : Int) ≤ runScript.loadedCommands.length) →
      (runScript.addCommand "rotate" ["1"] 1).loadedCommands =
        runScript.loadedCommands.take (1 : Int).toNat ++
          "rotate" :: runScript.loadedCommands.drop (1 : Int).toNat ∧
      (runScript.addCommand "rotate" ["1"] 1).loadedArguments =
        runScript.loadedArguments.take (1 : Int).toNat ++
          ["1"] :: runScript.loadedArguments.drop (1 : Int).toNat ∧
      (runScript.addCommand "rotate" ["1"] 1).loadedCommands[(1 : Int).toNat]? =
        some "rotate" ∧
      (runScript.addCommand "rotate" ["1"] 1).loadedArguments[(1 : Int).toNat]? =
        some ["1"]) ∧
    (((1 : Int) < -1 ∨ (1 : Int) > runScript.loadedCommands.length) →
      runScript.addCommand "rotate" ["1"] 1 = runScript.addCommand "rotate" ["1"] (-1) ∧
      (runScript.addCommand "rotate" ["1"] 1).loadedCommands =
        runScript.loadedCommands ++ ["rotate"] ∧
      (runScript.addCommand "rotate" ["1"] 1).loadedArguments =
        runScript.loadedArguments ++ [["1"]]) :=
  C15_addCommand_position runScript "rotate" ["1"] 1 (by decide) rfl

/-! ## The cursor -/

theorem cursorPos_of_lt {i : Nat} (h : i < 2 ^ 64 - 1) : cursorPos i = (i : Int) := by
  unfold cursorPos
  rw [if_neg (by omega)]

theorem cursorPos_ge (i : Nat) : -1 ≤ cursorPos i := by
  unfold cursorPos
  split <;> omega

theorem runCurrent_cursor (m : AutoManager σ β) (now : Int) :
    (lastState (m.runCurrent now)).currentCommandIndex = m.currentCommandIndex := by
  unfold AutoManager.runCurrent
  split
  · rfl
  · split
    · split
      · rfl
      · rfl
    · rfl

/-- The cursor after a tick, whether the tick returns or stops at an out-of-bounds read. -/
theorem process_cursor (m : AutoManager σ β) (now : Int) (hwf : m.WF) :
    (tickState (m.process now)).currentCommandIndex = m.currentCommandIndex ∨
    ∃ K, (sizeSucc m.currentCommandIndex + K ≤ m.loadedCommands.length ∨ K = 0) ∧
      (tickState (m.process now)).currentCommandIndex = sizeSucc m.currentCommandIndex + K := by
  by_cases h1 : m.loadedCommandCount < 1
  · left
    simp only [AutoManager.process, h1, if_true, tickState]
  by_cases hw : m.wantsNext = true
  · right
    by_cases hc : sizeSucc m.currentCommandIndex < m.loadedCommands.length
    · obtain ⟨K, hK, hrun, hmax⟩ := exists_run m _ (sizeSucc m.currentCommandIndex)
        (Nat.le_of_lt hc) rfl
      obtain ⟨t, hd, hend, hgo⟩ := process_run m now K hwf hw hc hK hrun hmax
      refine ⟨K, Or.inl hK, ?_⟩
      rcases Nat.lt_or_eq_of_le hK with hlt | heq
      · obtain ⟨s1, s2, _, _, hq1, hq2, hp2⟩ := hgo hlt
        rw [hp2]
        have hq := quiet_trans (quiet_trans hq1 hq2) (processBackground_quiet s2)
        simp only [tickState]
        rw [hq.cursor, hd.cursor]; rfl
      · rw [hend heq]
        simp only [tickState]
        rw [hd.cursor]; rfl
    · have hpe : m.moveOn.pastEnd = true := by
        rw [pastEnd_eq _ (WF_moveOn hwf).len_lt]
        simp only [decide_eq_true_eq]
        exact Nat.le_of_not_lt hc
      have ha : m.advance = Except.ok (m.moveOn, false) := by
        unfold AutoManager.advance
        rw [if_pos hw, if_pos hpe]
      have hr : m.moveOn.runCurrent now = Except.ok m.moveOn := rfl
      refine ⟨0, Or.inr rfl, ?_⟩
      unfold AutoManager.process
      rw [if_neg h1, ha]
      simp only [hr]
      rfl
  · left
    have ha : m.advance = Except.ok (m, true) := by
      unfold AutoManager.advance
      rw [if_neg hw]
    have hrc := runCurrent_cursor m now
    unfold AutoManager.process
    rw [if_neg h1, ha]
    simp only
    cases hr : m.runCurrent now with
    | error e => rw [hr] at hrc; exact hrc
    | ok s2 => rw [hr] at hrc; exact hrc

theorem addCommands_cursor (m : AutoManager σ β) (commands : List String)
    (arguments : List (List String)) (pos : Int) :
    (m.addCommands commands arguments pos).currentCommandIndex = m.currentCommandIndex := by
  unfold AutoManager.addCommands
  dsimp only
  split_ifs <;> rfl

theorem addCommand_cursor (m : AutoManager σ β) (command : String)
    (arguments : List String) (pos : Int) :
    (m.addCommand command arguments pos).currentCommandIndex = m.currentCommandIndex := by
  unfold AutoManager.addCommand
  dsimp only
  split_ifs <;> rfl

theorem registerCommand_cursor (m : AutoManager σ β) (creator : CmdCreator σ)
    (name : String) :
    (m.registerCommand creator name).currentCommandIndex = m.currentCommandIndex := by
  unfold AutoManager.registerCommand
  dsimp only
  split_ifs <;> rfl

theorem registerBackgroundCommand_cursor (m : AutoManager σ β) (typeName : String)
    (fresh : BackgroundAutoCommand β) (name : String) :
    (m.registerBackgroundCommand typeName fresh name).currentCommandIndex =
      m.currentCommandIndex := by
  unfold AutoManager.registerBackgroundCommand
  dsimp only
  split_ifs <;> rfl

/-- C16 fails as stated: with the script `drive` (no argument), three ticks leave the cursor
at 2, past the end of the script of length 1, and `killAuto()` then sets it back to 1. -/
theorem C16_killAuto_moves_cursor_back :
    (lastState (driveNoArgsScript.run
      [Op.process 0, Op.process 50, Op.process 100])).currentCommandIndex = 2 ∧
    (lastState (driveNoArgsScript.run
      [Op.process 0, Op.process 50, Op.process 100])).killAuto.currentCommandIndex = 1 ∧
    cursorPos (lastState (driveNoArgsScript.run
      [Op.process 0, Op.process 50, Op.process 100])).killAuto.currentCommandIndex <
    cursorPos (lastState (driveNoArgsScript.run
      [Op.process 0, Op.process 50, Op.process 100])).currentCommandIndex := by
  refine ⟨rfl, rfl, ?_⟩
  decide

/-- C16, amended. On a state with consistent script vectors whose 64-bit cursor is not about
to wrap, `process` never moves the cursor back (the value before the start counting as -1);
`addCommand`, `addCommands`, `registerCommand`, `registerBackgroundCommand` and
`unregisterAll` leave the cursor where it is; `killAuto` sets the cursor to the script length,
which does not move it back as long as it was not already beyond the script length. -/
theorem C16_cursor_moves_forward (m : AutoManager σ β) (now : Int) (creator : CmdCreator σ)
    (typeName : String) (fresh : BackgroundAutoCommand β) (name command : String)
    (arguments : List String) (commands : List String) (argLists : List (List String))
    (pos : Int) (hwf : m.WF) (hw : m.currentCommandIndex ≠ 2 ^ 64 - 2) :
    cursorPos m.currentCommandIndex ≤
      cursorPos (tickState (m.process now)).currentCommandIndex ∧
    (m.addCommand command arguments pos).currentCommandIndex = m.currentCommandIndex ∧
    (m.addCommands commands argLists pos).currentCommandIndex = m.currentCommandIndex ∧
    (m.registerCommand creator name).currentCommandIndex = m.currentCommandIndex ∧
    (m.registerBackgroundCommand typeName fresh name).currentCommandIndex =
      m.currentCommandIndex ∧
    m.unregisterAll.currentCommandIndex = m.currentCommandIndex ∧
    m.killAuto.currentCommandIndex = m.loadedCommands.length ∧
    (cursorPos m.currentCommandIndex ≤ m.loadedCommands.length →
      cursorPos m.currentCommandIndex ≤ cursorPos m.killAuto.currentCommandIndex) := by
  have hlen := hwf.len_lt
  have hidx := hwf.idx_lt
  refine ⟨?_, addCommand_cursor _ _ _ _, addCommands_cursor _ _ _ _,
    registerCommand_cursor _ _ _, registerBackgroundCommand_cursor _ _ _ _, rfl, rfl, ?_⟩
  · rcases process_cursor m now hwf with h | ⟨K, hK, h⟩
    · rw [h]
    · rw [h]
      have hKb : K < 2 ^ 31 := by
        rcases hK with hK | hK
        · omega
        · omega
      by_cases hstart : m.currentCommandIndex = 2 ^ 64 - 1
      · have hs : sizeSucc m.currentCommandIndex = 0 := by
          rw [hstart]; decide
        rw [hs, Nat.zero_add, @cursorPos_of_lt K (by omega)]
        have : cursorPos m.currentCommandIndex = -1 := by
          unfold cursorPos; rw [if_pos hstart]
        omega
      · have hs : sizeSucc m.currentCommandIndex = m.currentCommandIndex + 1 :=
          sizeSucc_eq (by omega)
        rw [hs] at hK ⊢
        have hb : m.currentCommandIndex + 1 + K < 2 ^ 64 - 1 := by
          rcases hK with hK | hK
          · omega
          · omega
        rw [@cursorPos_of_lt (m.currentCommandIndex + 1 + K) hb,
          @cursorPos_of_lt m.currentCommandIndex (by omega)]
        push_cast
        omega
  · intro h
    rw [show m.killAuto.currentCommandIndex = m.loadedCommands.length from rfl,
      @cursorPos_of_lt m.loadedCommands.length (by omega)]
    exact h

/-- C16 amended, at a concrete input: the script `intake_in` / `Intake_OUT` / `drive,2`
before its first tick. -/
theorem C16_cursor_moves_forward_witness :
    cursorPos runScript.currentCommandIndex ≤
      cursorPos (tickState (runScript.process 0)).currentCommandIndex ∧
    (runScript.addCommand "rotate" ["1"] 0).currentCommandIndex =
      runScript.currentCommandIndex ∧
    (runScript.addCommands ["rotate"] [["1"]] 0).currentCommandIndex =
      runScript.currentCommandIndex ∧
    (runScript.registerCommand (CommandCreator (DriveCommand msOfDigits) ())
      "forward").currentCommandIndex = runScript.currentCommandIndex ∧
    (runScript.registerBackgroundCommand "IntakeCommand" IntakeCommand
      "intake").currentCommandIndex = runScript.currentCommandIndex ∧
    runScript.unregisterAll.currentCommandIndex = runScript.currentCommandIndex ∧
    runScript.killAuto.currentCommandIndex = runScript.loadedCommands.length ∧
    (cursorPos runScript.currentCommandIndex ≤ runScript.loadedCommands.length →
      cursorPos runScript.currentCommandIndex ≤
        cursorPos runScript.killAuto.currentCommandIndex) :=
  C16_cursor_moves_forward runScript 0 (CommandCreator (DriveCommand msOfDigits) ())
    "IntakeCommand" IntakeCommand "forward" "rotate" ["1"] ["rotate"] [["1"]] 0
    runScript_WF (by decide)

/-! ## loadScript -/

theorem splitLoop_eq_nil (delimiter : Char) :
    ∀ (cs cur : List Char), splitLoop delimiter cs cur = [] ↔ cs = [] ∧ cur = [] := by
  intro cs
  induction cs with
  | nil =>
    intro cur
    unfold splitLoop
    by_cases h : cur = []
    · simp [h]
    · simp [h]
  | cons c cs ih =>
    intro cur
    unfold splitLoop
    by_cases h : c = delimiter
    · simp [h]
    · simp [h, ih]

/-- A line has no column exactly when it is empty. -/
theorem split_eq_nil (line : String) (delimiter : Char) :
    split line delimiter = [] ↔ line = "" := by
  unfold split
  rw [splitLoop_eq_nil]
  constructor
  · intro h
    exact String.ext h.1
  · intro h
    subst h
    exact ⟨rfl, rfl⟩

/-- The loop over the lines when no line is empty: every line gives one entry, its first
column as the command and the other columns as the arguments. -/
theorem loadLines_of_nonempty (lines : List String) :
    ∀ (m : AutoManager σ β), (∀ line ∈ lines, line ≠ "") →
      ∃ s, loadLines m lines = Except.ok s ∧
        s.loadedCommands =
          m.loadedCommands ++ lines.map (fun line => (split line ',').headD "") ∧
        s.loadedArguments =
          m.loadedArguments ++ lines.map (fun line => (split line ',').tail) := by
  induction lines with
  | nil => intro m _; exact ⟨m, rfl, by simp, by simp⟩
  | cons line rest ih =>
    intro m h
    have hne : split line ',' ≠ [] := by
      intro hc
      exact h line (List.mem_cons_self _ _) ((split_eq_nil line ',').1 hc)
    cases hs : split line ',' with
    | nil => exact absurd hs hne
    | cons command arguments =>
      obtain ⟨s, h1, h2, h3⟩ := ih
        { m with loadedCommands := m.loadedCommands ++ [command],
                 loadedArguments := m.loadedArguments ++ [arguments] }
        (fun l hl => h l (List.mem_cons_of_mem _ hl))
      refine ⟨s, ?_, ?_, ?_⟩
      · simp only [loadLines, hs]
        exact h1
      · rw [h2]; simp [hs]
      · rw [h3]; simp [hs]

/-- C19, at the failing input: the text `drive,2` / empty line / `rotate,1`.  The empty line
has no column, and the parser reads `columns[0]` of the empty vector after it has loaded the
first line. -/
theorem C19_empty_line_read_out_of_bounds :
    split (String.mk (normalizeLineEndings "drive,2\n\nrotate,1".data)) '\n' =
      ["drive,2", "", "rotate,1"] ∧
    split "" ',' = [] ∧
    ∃ e, mainManager.loadScript (some "drive,2\n\nrotate,1") = Except.error e ∧
      e.loadedCommands = ["drive"] ∧ e.loadedArguments = [["2"]] :=
  ⟨by decide, rfl, _, rfl, rfl, rfl⟩

/-- The three line-ending conventions give the same script for the text of the demo. -/
theorem loadScript_line_endings :
    mainManager.loadScript (some "drive,2\r\nintake_in\r\nrotate,1") =
      mainManager.loadScript (some "drive,2\nintake_in\nrotate,1") ∧
    mainManager.loadScript (some "drive,2\rintake_in\rrotate,1") =
      mainManager.loadScript (some "drive,2\nintake_in\nrotate,1") ∧
    ∃ s, mainManager.loadScript (some "drive,2\nintake_in\nrotate,1") = Except.ok (s, true) ∧
      s.loadedCommands = ["drive", "intake_in", "rotate"] ∧
      s.loadedArguments = [["2"], [], ["1"]] :=
  ⟨rfl, rfl, _, rfl, rfl, rfl⟩

/-! ## Names are matched in lower case -/

/-- The tick that finds a background entry right under the new cursor: its first call is the
`updateArgs` of that entry, on the instance the lowered name maps to. -/
theorem process_background_first (m : AutoManager σ β) (now : Int) (hwf : m.WF)
    (hnext : m.wantsNext = true) (name : String) (args : List String) (idx : Nat)
    (hname : m.loadedCommands[sizeSucc m.currentCommandIndex]? = some name)
    (hargs : m.loadedArguments[sizeSucc m.currentCommandIndex]? = some args)
    (hbg : m.backgroundCommands.lookup (tolower name) = some idx) :
    ∃ rest, (tickState (m.process now)).trace =
      m.trace ++ Event.updateArgs idx (tolower name) args :: rest := by
  have hlt : sizeSucc m.currentCommandIndex < m.loadedCommands.length := by
    by_contra hcon
    rw [List.getElem?_eq_none_iff.2 (by omega)] at hname
    cases hname
  obtain ⟨K, hK, hrun, hmax⟩ := exists_run m _ (sizeSucc m.currentCommandIndex)
    (Nat.le_of_lt hlt) rfl
  have hb0 : m.isBgEntry (sizeSucc m.currentCommandIndex) = true := by
    simp [AutoManager.isBgEntry, hname, hbg]
  obtain ⟨K3, rfl⟩ : ∃ K3, K = K3 + 1 := by
    rcases Nat.eq_zero_or_pos K with h0 | h0
    · subst h0; rw [Nat.add_zero, hb0] at hmax; cases hmax
    · exact ⟨K - 1, by omega⟩
  obtain ⟨t, hd, hend, hgo⟩ := process_run m now (K3 + 1) hwf hnext hlt hK hrun hmax
  have htr : t.trace = m.trace ++ Event.updateArgs idx (tolower name) args ::
      (List.range' (sizeSucc m.currentCommandIndex + 1) K3).filterMap m.updateEvent := by
    have := hd.calls
    rw [show m.moveOn.updateEvent = m.updateEvent from rfl,
      show m.moveOn.currentCommandIndex = sizeSucc m.currentCommandIndex from rfl,
      show m.moveOn.trace = m.trace from rfl, List.range'_succ,
      List.filterMap_cons_some (updateEvent_of_bg m _ idx name args hname hargs hbg)] at this
    exact this
  rcases Nat.lt_or_eq_of_le hK with hlt2 | heq
  · obtain ⟨s1, s2, _, _, hq1, hq2, hp2⟩ := hgo hlt2
    have hq := quiet_trans (quiet_trans hq1 hq2) (processBackground_quiet s2)
    obtain ⟨rest, hrest, _⟩ := hq.trace
    rw [hp2]
    refine ⟨(List.range' (sizeSucc m.currentCommandIndex + 1) K3).filterMap m.updateEvent ++
      rest, ?_⟩
    simp only [tickState]
    rw [hrest, htr]
    simp
  · rw [hend heq]
    exact ⟨_, htr⟩

/-- The tick that finds a foreground entry right under the new cursor: the active command
afterwards is the object returned by the creator registered for the lowered name, started
and processed once. -/
theorem process_foreground_current (m : AutoManager σ β) (now : Int) (hwf : m.WF)
    (hnext : m.wantsNext = true) (name : String) (args : List String)
    (creator : CmdCreator σ) (c0 : AutoCommand σ)
    (hname : m.loadedCommands[sizeSucc m.currentCommandIndex]? = some name)
    (hargs : m.loadedArguments[sizeSucc m.currentCommandIndex]? = some args)
    (hnobg : m.backgroundCommands.lookup (tolower name) = none)
    (hfg : m.registeredCommands.lookup (tolower name) = some creator)
    (hc0 : creator () = some c0) (hns : c0.hasStarted = false) :
    ∃ s, m.process now = Except.ok (s, true) ∧
      s.currentCommand = some
        ((({ c0 with uid := m.created } : AutoCommand σ).doStart now name args).1.process.1) := by
  have hlt : sizeSucc m.currentCommandIndex < m.loadedCommands.length := by
    by_contra hcon
    rw [List.getElem?_eq_none_iff.2 (by omega)] at hname
    cases hname
  obtain ⟨t, hd, _, hgo⟩ := process_run m now 0 hwf hnext hlt (by omega)
    (fun j hj => absurd hj (Nat.not_lt_zero j))
    (by simp [AutoManager.isBgEntry, hname, hnobg])
  obtain ⟨s1, s2, hs1, hs2, _, _, hp⟩ := hgo (by omega)
  have hti : t.currentCommandIndex = sizeSucc m.currentCommandIndex := hd.cursor
  have htn : t.loadedCommands[t.currentCommandIndex]? = some name := by
    rw [hti, hd.loadedCommands]; exact hname
  have hta : t.loadedArguments[t.currentCommandIndex]? = some args := by
    rw [hti, hd.loadedArguments]; exact hargs
  have htc : t.created = m.created := hd.created
  have hcn : t.createNext = Except.ok
      ({ t with currentCommand := some { c0 with uid := t.created },
                created := t.created + 1,
                trace := t.trace ++ [Event.create t.created] }, true) := by
    have hl : t.registeredCommands.lookup (tolower name) = some creator := by
      rw [hd.registeredCommands]; exact hfg
    simp only [AutoManager.createNext, htn, hl, hc0]
  rw [hcn] at hs1
  cases hs1
  have hns' : (({ c0 with uid := t.created } : AutoCommand σ)).hasStarted = false := hns
  simp only [AutoManager.runCurrent, hns', htn, hta, Bool.not_false, if_true] at hs2
  cases hs2
  refine ⟨_, hp, ?_⟩
  simp only [AutoManager.processBackground]
  rw [htc]

theorem taken_registerCommand (m : AutoManager σ β) (creator : CmdCreator σ) (name : String)
    (h : m.isFree name = false) : m.registerCommand creator name = m := by
  have hcond : ¬ ((m.backgroundCommands.lookup (tolower name)).isNone &&
      (m.registeredCommands.lookup (tolower name)).isNone) = true := by
    simpa [AutoManager.isFree] using h
  simp only [AutoManager.registerCommand, hcond, Bool.false_eq_true, if_false]

theorem taken_registerBackground (m : AutoManager σ β) (typeName : String)
    (fresh : BackgroundAutoCommand β) (name : String)
    (h : m.isFree name = false) : m.registerBackgroundCommand typeName fresh name = m := by
  have hcond : ¬ ((m.backgroundCommands.lookup (tolower name)).isNone &&
      (m.registeredCommands.lookup (tolower name)).isNone) = true := by
    simpa [AutoManager.isFree] using h
  simp only [AutoManager.registerBackgroundCommand, hcond, Bool.false_eq_true, if_false]

theorem isFree_congr (m : AutoManager σ β) (a b : String) (h : tolower a = tolower b) :
    m.isFree a = m.isFree b := by
  simp only [AutoManager.isFree, h]

/-- After `registerCommand(creator, a)` the lowered name is taken; when it was free before, it
is a key of the foreground registry, mapped to `creator`, and not of the background one. -/
theorem registerCommand_takes (m : AutoManager σ β) (creator : CmdCreator σ) (a : String) :
    (m.registerCommand creator a).isFree a = false ∧
    (m.isFree a = true →
      (m.registerCommand creator a).registeredCommands.lookup (tolower a) = some creator ∧
      (m.registerCommand creator a).backgroundCommands.lookup (tolower a) = none) := by
  by_cases hf : m.isFree a = true
  · have hf' := hf
    simp only [AutoManager.isFree, Bool.and_eq_true, Option.isNone_iff_eq_none] at hf'
    have hcond : ((m.backgroundCommands.lookup (tolower a)).isNone &&
        (m.registeredCommands.lookup (tolower a)).isNone) = true := hf
    have e : m.registerCommand creator a =
        { m with registeredCommands := m.registeredCommands ++ [(tolower a, creator)] } := by
      simp only [AutoManager.registerCommand, hcond, if_true]
    have hl : (m.registerCommand creator a).registeredCommands.lookup (tolower a) =
        some creator := by
      rw [e]
      simp only [lookup_append_single, hf'.2, if_true]
    have hb : (m.registerCommand creator a).backgroundCommands.lookup (tolower a) = none := by
      rw [e]; exact hf'.1
    refine ⟨?_, fun _ => ⟨hl, hb⟩⟩
    simp only [AutoManager.isFree, hl, hb]
    rfl
  · have hf' : m.isFree a = false := by simpa using hf
    rw [taken_registerCommand m creator a hf']
    exact ⟨hf', fun h => absurd h hf⟩

/-- After `registerBackgroundCommand<T>(a)` the lowered name is taken; when it was free
before, it is a key of the background registry. -/
theorem registerBackground_takes (m : AutoManager σ β) (typeName : String)
    (fresh : BackgroundAutoCommand β) (a : String) :
    (m.registerBackgroundCommand typeName fresh a).isFree a = false ∧
    (m.isFree a = true →
      ((m.registerBackgroundCommand typeName fresh a).backgroundCommands.lookup
        (tolower a)).isSome = true) := by
  by_cases hf : m.isFree a = true
  · have hf' := hf
    simp only [AutoManager.isFree, Bool.and_eq_true, Option.isNone_iff_eq_none] at hf'
    have hcond : ((m.backgroundCommands.lookup (tolower a)).isNone &&
        (m.registeredCommands.lookup (tolower a)).isNone) = true := hf
    have hl : ((m.registerBackgroundCommand typeName fresh a).backgroundCommands.lookup
        (tolower a)).isSome = true := by
      unfold AutoManager.registerBackgroundCommand
      simp only [hcond, if_true]
      split <;> simp [lookup_append_single, hf'.1]
    refine ⟨?_, fun _ => hl⟩
    simp only [AutoManager.isFree, Bool.and_eq_false_iff]
    left
    cases hx : (m.registerBackgroundCommand typeName fresh a).backgroundCommands.lookup
        (tolower a) with
    | none => rw [hx] at hl; cases hl
    | some i => rfl
  · have hf' : m.isFree a = false := by simpa using hf
    rw [taken_registerBackground m typeName fresh a hf']
    exact ⟨hf', fun h => absurd h hf⟩

/-- The tick that finds a background entry right under the new cursor: the instance the
lowered name maps to, and no other, gets the result of its `updateArgs` hook on the lowered
name and the arguments of the entry; then the `K` background entries that follow are handed
over and, when the tick returns, the loop over the background commands runs. -/
theorem process_background_instances (m : AutoManager σ β) (now : Int) (hwf : m.WF)
    (hnext : m.wantsNext = true) (name : String) (args : List String) (idx : Nat)
    (hname : m.loadedCommands[sizeSucc m.currentCommandIndex]? = some name)
    (hargs : m.loadedArguments[sizeSucc m.currentCommandIndex]? = some args)
    (hbg : m.backgroundCommands.lookup (tolower name) = some idx) :
    ∃ bg K, m.uniqueBgCommands[idx]? = some bg ∧
      ((∃ e, m.process now = Except.error e ∧
          e.uniqueBgCommands =
            (List.range' (sizeSucc m.currentCommandIndex + 1) K).foldl m.handOver
              (m.uniqueBgCommands.set idx
                { bg with self := bg.updateArgs bg.self (tolower name) args })) ∨
        (∃ s2, m.process now = Except.ok (s2, true) ∧
          s2.uniqueBgCommands =
            (processAll 0
              ((List.range' (sizeSucc m.currentCommandIndex + 1) K).foldl m.handOver
                (m.uniqueBgCommands.set idx
                  { bg with self := bg.updateArgs bg.self (tolower name) args }))).1)) := by
  have hlt : sizeSucc m.currentCommandIndex < m.loadedCommands.length := by
    by_contra hcon
    rw [List.getElem?_eq_none_iff.2 (by omega)] at hname
    cases hname
  obtain ⟨bg, hbgAt⟩ : ∃ b, m.uniqueBgCommands[idx]? = some b :=
    ⟨_, List.getElem?_eq_getElem (hwf.bg_lt _ _ hbg)⟩
  have hfirst : m.isBgEntry (sizeSucc m.currentCommandIndex) = true := by
    simp [AutoManager.isBgEntry, hname, hbg]
  obtain ⟨K1, hK1, hrun, hmax⟩ := exists_run m _ (sizeSucc m.currentCommandIndex)
    (Nat.le_of_lt hlt) rfl
  obtain ⟨K, rfl⟩ : ∃ K, K1 = K + 1 := by
    rcases Nat.eq_zero_or_pos K1 with h | h
    · subst h
      rw [Nat.add_zero, hfirst] at hmax
      cases hmax
    · exact ⟨K1 - 1, by omega⟩
  obtain ⟨hierr, hiok⟩ := process_run_instances m now (K + 1) hwf hnext hlt hK1 hrun hmax
  have hfold : (List.range' (sizeSucc m.currentCommandIndex) (K + 1)).foldl m.handOver
        m.uniqueBgCommands =
      (List.range' (sizeSucc m.currentCommandIndex + 1) K).foldl m.handOver
        (m.uniqueBgCommands.set idx
          { bg with self := bg.updateArgs bg.self (tolower name) args }) := by
    rw [List.range'_succ, List.foldl_cons,
      handOver_of_bg m _ idx name args hname hargs hbg _ bg hbgAt]
  rw [hfold] at hierr hiok
  refine ⟨bg, K, hbgAt, ?_⟩
  rcases Nat.lt_or_eq_of_le hK1 with h | h
  · exact Or.inr (hiok h)
  · exact Or.inl (hierr h)

/-- C18. Names `a` and `b` with the same lowered form.  After `a` has been registered (as a
foreground or as a background name), registering `b` in either way leaves the state
unchanged; when `a` was free, the lookup of lowered `b` finds the creator, or a background
index, registered under `a`.  In a state where the key of `a` is registered, the tick that
moves the cursor onto a script entry named `b` dispatches it to that registration: the active
command afterwards is the object made by the creator registered under `a` (started with the
name `b` as written and processed once), or the first call of the tick is `updateArgs` on the
background instance registered under `a`.  In the second case the instances after the tick
are the instances before it in which the members of the instance registered under `a`, and of
no other, have been replaced by the result of its `updateArgs` hook on the lowered name and
the argument list of the entry, after which the `K ≥ 0` background entries that follow have
been handed over and, when the tick returns, the loop over the background commands has
run. -/
theorem C18_names_case_insensitive (m s : AutoManager σ β) (a b : String)
    (creator creator2 : CmdCreator σ) (typeName typeName2 : String)
    (fresh fresh2 : BackgroundAutoCommand β) (now : Int) (args : List String)
    (hab : tolower a = tolower b) :
    (m.registerCommand creator a).registerCommand creator2 b = m.registerCommand creator a ∧
    (m.registerCommand creator a).registerBackgroundCommand typeName2 fresh2 b =
      m.registerCommand creator a ∧
    (m.registerBackgroundCommand typeName fresh a).registerCommand creator2 b =
      m.registerBackgroundCommand typeName fresh a ∧
    (m.registerBackgroundCommand typeName fresh a).registerBackgroundCommand typeName2 fresh2 b =
      m.registerBackgroundCommand typeName fresh a ∧
    (m.isFree a = true →
      (m.registerCommand creator a).registeredCommands.lookup (tolower b) = some creator) ∧
    (m.isFree a = true →
      ((m.registerBackgroundCommand typeName fresh a).backgroundCommands.lookup
        (tolower b)).isSome = true) ∧
    (s.WF → s.wantsNext = true →
      s.loadedCommands[sizeSucc s.currentCommandIndex]? = some b →
      s.loadedArguments[sizeSucc s.currentCommandIndex]? = some args →
      (∀ cr c0, s.registeredCommands.lookup (tolower a) = some cr →
        s.backgroundCommands.lookup (tolower a) = none →
        cr () = some c0 → c0.hasStarted = false →
        ∃ s2, s.process now = Except.ok (s2, true) ∧
          s2.currentCommand = some
            ((({ c0 with uid := s.created } : AutoCommand σ).doStart now b args).1.process.1)) ∧
      (∀ idx, s.backgroundCommands.lookup (tolower a) = some idx →
        ∃ rest, (tickState (s.process now)).trace =
          s.trace ++ Event.updateArgs idx (tolower b) args :: rest) ∧
      (∀ idx, s.backgroundCommands.lookup (tolower a) = some idx →
        ∃ bg K, s.uniqueBgCommands[idx]? = some bg ∧
          ((∃ e, s.process now = Except.error e ∧
              e.uniqueBgCommands =
                (List.range' (sizeSucc s.currentCommandIndex + 1) K).foldl s.handOver
                  (s.uniqueBgCommands.set idx
                    { bg with self := bg.updateArgs bg.self (tolower b) args })) ∨
            (∃ s2, s.process now = Except.ok (s2, true) ∧
              s2.uniqueBgCommands =
                (processAll 0
                  ((List.range' (sizeSucc s.currentCommandIndex + 1) K).foldl s.handOver
                    (s.uniqueBgCommands.set idx
                      { bg with self := bg.updateArgs bg.self (tolower b) args }))).1)))) := by
  have t1 := (registerCommand_takes m creator a).1
  have t2 := (registerBackground_takes m typeName fresh a).1
  rw [isFree_congr _ a b hab] at t1 t2
  refine ⟨taken_registerCommand _ _ _ t1, taken_registerBackground _ _ _ _ t1,
    taken_registerCommand _ _ _ t2, taken_registerBackground _ _ _ _ t2, ?_, ?_, ?_⟩
  · intro hf
    rw [← hab]
    exact ((registerCommand_takes m creator a).2 hf).1
  · intro hf
    rw [← hab]
    exact (registerBackground_takes m typeName fresh a).2 hf
  · intro hwf hnext hname hargs
    rw [hab]
    exact ⟨fun cr c0 hfg hnobg hc0 hns =>
        process_foreground_current s now hwf hnext b args cr c0 hname hargs hnobg hfg hc0 hns,
      fun idx hbg => process_background_first s now hwf hnext b args idx hname hargs hbg,
      fun idx hbg => process_background_instances s now hwf hnext b args idx hname hargs hbg⟩

/-! ## Processing of the background commands -/

theorem processAll_count (bs : List (BackgroundAutoCommand β)) :
    ∀ (i0 j : Nat),
      (processAll i0 bs).2.count (Event.bgProcess j) =
        if i0 ≤ j then
          match bs[j - i0]? with
          | some b => if b.shouldProcess b.self then 1 else 0
          | none => 0
        else 0 := by
  induction bs with
  | nil => intro i0 j; simp [processAll]
  | cons b bs ih =>
    intro i0 j
    have hne : ∀ k, k ≠ j → Event.bgProcess j ≠ Event.bgProcess k := by
      intro k hk h; cases h; exact hk rfl
    by_cases hlt : i0 ≤ j
    · rw [if_pos hlt]
      by_cases heq : i0 = j
      · subst heq
        simp only [Nat.sub_self, List.getElem?_cons_zero]
        unfold processAll
        split
        · rename_i hs
          dsimp only
          rw [List.count_cons_self, ih, if_neg (by omega)]
        · rename_i hs
          dsimp only
          rw [ih, if_neg (by omega)]
      · have hj : j - i0 = (j - (i0 + 1)) + 1 := by omega
        rw [hj, List.getElem?_cons_succ]
        unfold processAll
        split
        · dsimp only
          rw [List.count_cons_of_ne (hne i0 heq), ih, if_pos (by omega)]
        · dsimp only
          rw [ih, if_pos (by omega)]
    · rw [if_neg hlt]
      unfold processAll
      split
      · dsimp only
        rw [List.count_cons_of_ne (hne i0 (by omega)), ih, if_neg (by omega)]
      · dsimp only
        rw [ih, if_neg (by omega)]

theorem noBg_refl (m : AutoManager σ β) : NoBg m m := ⟨[], by simp, by simp⟩

theorem noBg_trans {a b c : AutoManager σ β} (h1 : NoBg a b) (h2 : NoBg b c) : NoBg a c := by
  obtain ⟨e1, he1, hu1⟩ := h1
  obtain ⟨e2, he2, hu2⟩ := h2
  refine ⟨e1 ++ e2, by rw [he2, he1, List.append_assoc], ?_⟩
  intro e he
  rcases List.mem_append.1 he with h | h
  · exact hu1 e h
  · exact hu2 e h

theorem noBg_of_updateArgs (evs : List Event) (h : ∀ e ∈ evs, e.isUpdateArgs = true) :
    ∀ e ∈ evs, e.isBgProcess = false := by
  intro e he
  have := h e he
  cases e <;> simp_all [Event.isUpdateArgs, Event.isBgProcess]

theorem createNext_noBg (m : AutoManager σ β) : NoBg m (tickState m.createNext) := by
  unfold AutoManager.createNext
  split
  · exact noBg_refl m
  · split
    · split
      · exact ⟨[Event.create m.created], rfl, by simp [Event.isBgProcess]⟩
      · exact ⟨[], (List.append_nil _).symm, by simp⟩
    · exact noBg_refl m

theorem advance_noBg (m : AutoManager σ β) : NoBg m (tickState m.advance) := by
  unfold AutoManager.advance
  split
  · split
    · exact ⟨[], (List.append_nil _).symm, by simp⟩
    · have hf := handleNextBgCommands_frame m.moveOn
      cases hr : m.moveOn.handleNextBgCommands with
      | error e =>
        rw [hr] at hf
        obtain ⟨evs, he, hu⟩ := hf.trace
        exact ⟨evs, he, noBg_of_updateArgs evs hu⟩
      | ok s =>
        rw [hr] at hf
        obtain ⟨evs, he, hu⟩ := hf.trace
        have hs : NoBg m s := ⟨evs, he, noBg_of_updateArgs evs hu⟩
        simp only
        split
        · exact hs
        · exact noBg_trans hs (createNext_noBg s)
  · exact noBg_refl m

theorem process_hook_noBg (c : AutoCommand σ) : ∀ e ∈ c.process.2, e.isBgProcess = false := by
  intro e he
  rw [process_events] at he
  rcases List.mem_cons.1 he with h | h
  · subst h; rfl
  · rw [List.eq_of_mem_replicate h]; rfl

theorem doStart_noBg (c : AutoCommand σ) (now : Int) (name : String) (args : List String) :
    ∀ e ∈ (c.doStart now name args).2, e.isBgProcess = false := by
  intro e he
  rw [AutoCommand.doStart, start_events] at he
  rcases List.mem_cons.1 he with h | h
  · subst h; rfl
  · rw [List.eq_of_mem_replicate h]; rfl

theorem doProcess_noBg (c : AutoCommand σ) (now : Int) :
    ∀ e ∈ (c.doProcess now).2, e.isBgProcess = false := by
  intro e he
  rcases doProcess_cases c now with h | h | h <;> rw [h] at he
  · rw [complete_snd] at he
    rw [List.mem_singleton.1 he]; rfl
  · simp at he
  · exact process_hook_noBg _ e he

theorem runCurrent_noBg (m : AutoManager σ β) (now : Int) :
    NoBg m (lastState (m.runCurrent now)) := by
  unfold AutoManager.runCurrent
  split
  · exact noBg_refl m
  · rename_i c _
    split
    · split
      · rename_i name args _ _
        refine ⟨(c.doStart now name args).2 ++ (c.doStart now name args).1.process.2,
          by simp [lastState, List.append_assoc], ?_⟩
        intro e he
        rcases List.mem_append.1 he with h | h
        · exact doStart_noBg _ _ _ _ e h
        · exact process_hook_noBg _ e h
      · exact noBg_refl m
    · exact ⟨(c.doProcess now).2, rfl, doProcess_noBg c now⟩

/-- A tick that returns, on a non-empty script: after the step for the foreground command
(state `mid`), every background instance whose `shouldProcess()` is true is processed exactly
once and no other instance is processed; no background instance is processed before. -/
theorem process_background_once (m s : AutoManager σ β) (now : Int) (r : Bool)
    (hne : m.loadedCommands ≠ []) (hp : m.process now = Except.ok (s, r)) :
    ∃ mid, NoBg m mid ∧ s = mid.processBackground ∧
      s.trace = mid.trace ++ (processAll 0 mid.uniqueBgCommands).2 ∧
      (∀ e ∈ (processAll 0 mid.uniqueBgCommands).2, e.isBgProcess = true) ∧
      ∀ i, (processAll 0 mid.uniqueBgCommands).2.count (Event.bgProcess i) =
        match mid.uniqueBgCommands[i]? with
        | some b => if b.shouldProcess b.self then 1 else 0
        | none => 0 := by
  have hpos := List.length_pos.2 hne
  have h1 : ¬ m.loadedCommandCount < 1 := by
    simp only [AutoManager.loadedCommandCount]; omega
  have ha := advance_noBg m
  unfold AutoManager.process at hp
  rw [if_neg h1] at hp
  cases hr : m.advance with
  | error e => rw [hr] at hp; cases hp
  | ok p =>
    obtain ⟨a, ra⟩ := p
    rw [hr] at hp ha
    simp only at hp
    have hc := runCurrent_noBg a now
    cases hr2 : a.runCurrent now with
    | error e => rw [hr2] at hp; cases hp
    | ok mid =>
      rw [hr2] at hp hc
      simp only [Except.ok.injEq, Prod.mk.injEq] at hp
      refine ⟨mid, noBg_trans ha hc, hp.1.symm, by rw [← hp.1]; rfl,
        processAll_events _ _, ?_⟩
      intro i
      rw [processAll_count, if_pos (Nat.zero_le _), Nat.sub_zero]

/-- C11, at the failing input: the script `drive,2` / `intake_in`, ticks at 0, 2000 and
2050 ms.  The third tick calls `updateArgs` on the intake instance, whose `shouldProcess()`
is true from then on, and stops at the out-of-bounds read of `handleNextBgCommands` before
the loop over the background commands: the instance is not processed in that tick. -/
theorem C11_background_loop_not_reached :
    ∃ e, driveIntakeScript.processTicks [0, 2000, 2050] = Except.error e ∧
      e.uniqueBgCommands.map (fun b => b.shouldProcess b.self) = [true, false] ∧
      e.trace = [Event.create 0, Event.start 0 "drive" ["2"], Event.process 0,
                 Event.handleComplete 0, Event.updateArgs 0 "intake_in" []] ∧
      e.trace.count (Event.bgProcess 0) = 0 :=
  ⟨_, rfl, rfl, rfl, by decide⟩

theorem scenario_first_tick (t0 : Int) :
    scenarioScript.process t0 =
      Except.ok (drivePhase t0 false
        [Event.create 0, Event.start 0 "drive" ["2"], Event.process 0], true) := rfl

theorem scenario_switch (t0 t3 : Int) (tr : List Event) :
    (drivePhase t0 true tr).process t3 =
      Except.ok (rotatePhase t3 false
        (tr ++ [Event.updateArgs 0 "intake_in" []] ++ [Event.create 1] ++
          [Event.start 1 "rotate" ["1"]] ++ [Event.process 1] ++ [Event.bgProcess 0]), true) := rfl

theorem scenario_end (t3 t6 : Int) (tr : List Event) :
    (rotatePhase t3 true tr).process t6 =
      Except.ok (finishedPhase 0 (tr ++ [Event.bgProcess 0]), false) := rfl

/-- A tick of a manager whose active command is started and not complete: the cursor stays,
`doProcess` is called on the command and the background commands are processed. -/
theorem process_active (m : AutoManager σ β) (c : AutoCommand σ) (now : Int)
    (hne : m.loadedCommands ≠ []) (hc : m.currentCommand = some c)
    (hnc : c.isComplete = false) (hs : c.hasStarted = true) :
    m.process now =
      Except.ok (AutoManager.processBackground
        { m with currentCommand := some (c.doProcess now).1,
                 trace := m.trace ++ (c.doProcess now).2 }, true) := by
  have hpos := List.length_pos.2 hne
  have h1 : ¬ m.loadedCommandCount < 1 := by
    simp only [AutoManager.loadedCommandCount]; omega
  have hw : ¬ m.wantsNext = true := by
    simp only [AutoManager.wantsNext, hc, hnc]
    exact Bool.false_ne_true
  have ha : m.advance = Except.ok (m, true) := by
    unfold AutoManager.advance
    rw [if_neg hw]
  have hr : m.runCurrent now = Except.ok
      { m with currentCommand := some (c.doProcess now).1,
               trace := m.trace ++ (c.doProcess now).2 } := by
    simp only [AutoManager.runCurrent, hc, hs, Bool.not_true, Bool.false_eq_true, if_false]
  unfold AutoManager.process
  rw [if_neg h1, ha]
  simp only [hr]

theorem doProcess_of_timedOut (c : AutoCommand σ) (now : Int)
    (h : c.hasTimedOut now = true) : c.doProcess now = c.complete := by
  simp [AutoCommand.doProcess, h]

theorem doProcess_of_running (c : AutoCommand σ) (now : Int)
    (h : c.hasTimedOut now = false) (hs : c._hasStarted = true) (hc : c._isComplete = false) :
    c.doProcess now = c.process := by
  simp [AutoCommand.doProcess, h, hs, hc]

theorem scenario_drive_tick (t0 t : Int) (tr : List Event) (h : t - t0 < 2000) :
    (drivePhase t0 false tr).process t =
      Except.ok (drivePhase t0 false (tr ++ [Event.process 0]), true) := by
  have hto : (scenarioDrive t0 false).hasTimedOut t = false := by
    simp only [AutoCommand.hasTimedOut, scenarioDrive, Bool.and_eq_false_iff,
      decide_eq_false_iff_not]
    right; omega
  rw [process_active _ (scenarioDrive t0 false) t
    (by show scenarioScript.loadedCommands ≠ []; decide) rfl rfl rfl,
    doProcess_of_running _ _ hto rfl rfl]
  show Except.ok (drivePhase t0 false (tr ++ [Event.process 0] ++ []), true) = _
  rw [List.append_nil]

theorem scenario_drive_timeout (t0 t : Int) (tr : List Event) (h : t - t0 ≥ 2000) :
    (drivePhase t0 false tr).process t =
      Except.ok (drivePhase t0 true (tr ++ [Event.handleComplete 0]), true) := by
  have hto : (scenarioDrive t0 false).hasTimedOut t = true := by
    simp only [AutoCommand.hasTimedOut, scenarioDrive, Bool.and_eq_true, decide_eq_true_eq]
    constructor
    · decide
    · omega
  rw [process_active _ (scenarioDrive t0 false) t
    (by show scenarioScript.loadedCommands ≠ []; decide) rfl rfl rfl,
    doProcess_of_timedOut _ _ hto]
  show Except.ok (drivePhase t0 true (tr ++ [Event.handleComplete 0] ++ []), true) = _
  rw [List.append_nil]

theorem scenario_rotate_tick (t3 t : Int) (tr : List Event) (h : t - t3 < 1000) :
    (rotatePhase t3 false tr).process t =
      Except.ok (rotatePhase t3 false (tr ++ [Event.process 1] ++ [Event.bgProcess 0]),
        true) := by
  have hto : (scenarioRotate t3 false).hasTimedOut t = false := by
    simp only [AutoCommand.hasTimedOut, scenarioRotate, Bool.and_eq_false_iff,
      decide_eq_false_iff_not]
    right; omega
  rw [process_active _ (scenarioRotate t3 false) t
    (by show scenarioScript.loadedCommands ≠ []; decide) rfl rfl rfl,
    doProcess_of_running _ _ hto rfl rfl]
  rfl

theorem scenario_rotate_timeout (t3 t : Int) (tr : List Event) (h : t - t3 ≥ 1000) :
    (rotatePhase t3 false tr).process t =
      Except.ok (rotatePhase t3 true (tr ++ [Event.handleComplete 1] ++ [Event.bgProcess 0]),
        true) := by
  have hto : (scenarioRotate t3 false).hasTimedOut t = true := by
    simp only [AutoCommand.hasTimedOut, scenarioRotate, Bool.and_eq_true, decide_eq_true_eq]
    constructor
    · decide
    · omega
  rw [process_active _ (scenarioRotate t3 false) t
    (by show scenarioScript.loadedCommands ≠ []; decide) rfl rfl rfl,
    doProcess_of_timedOut _ _ hto]
  rfl

theorem scenario_idle_tick (n : Nat) (t : Int) (tr : List Event) (hn : 3 + n + 1 < 2 ^ 64) :
    (finishedPhase n tr).process t =
      Except.ok (finishedPhase (n + 1) (tr ++ [Event.bgProcess 0]), false) := by
  have hs : sizeSucc (finishedPhase n tr).currentCommandIndex = 3 + n + 1 := sizeSucc_eq hn
  rw [process_idle (finishedPhase n tr) t
    (by show scenarioScript.loadedCommands ≠ []; decide) rfl
    (by show scenarioScript.loadedCommands.length < 2 ^ 31; decide)
    (by show 3 ≤ 3 + n + 1; omega) hn]
  simp only [AutoManager.moveOn, hs]
  rfl

theorem processTicks_cons_ok (m m1 m2 : AutoManager σ β) (t : Int) (ts : List Int)
    (r : Bool) (rs : List Bool) (h1 : m.process t = Except.ok (m1, r))
    (h2 : m1.processTicks ts = Except.ok (m2, rs)) :
    m.processTicks (t :: ts) = Except.ok (m2, r :: rs) := by
  simp only [AutoManager.processTicks, h1, h2]

theorem processTicks_append_ok (ts1 : List Int) :
    ∀ (m m1 m2 : AutoManager σ β) (ts2 : List Int) (rs1 rs2 : List Bool),
      m.processTicks ts1 = Except.ok (m1, rs1) → m1.processTicks ts2 = Except.ok (m2, rs2) →
      m.processTicks (ts1 ++ ts2) = Except.ok (m2, rs1 ++ rs2) := by
  induction ts1 with
  | nil =>
    intro m m1 m2 ts2 rs1 rs2 h1 h2
    simp only [AutoManager.processTicks, Except.ok.injEq, Prod.mk.injEq] at h1
    rw [h1.1, ← h1.2]
    exact h2
  | cons t ts ih =>
    intro m m1 m2 ts2 rs1 rs2 h1 h2
    simp only [AutoManager.processTicks] at h1
    cases hp : m.process t with
    | error e => rw [hp] at h1; cases h1
    | ok p =>
      obtain ⟨ma, ra⟩ := p
      rw [hp] at h1
      simp only at h1
      cases hq : ma.processTicks ts with
      | error e => rw [hq] at h1; cases h1
      | ok q =>
        obtain ⟨mb, rb⟩ := q
        rw [hq] at h1
        simp only [Except.ok.injEq, Prod.mk.injEq] at h1
        obtain ⟨e1, e2⟩ := h1
        subst e1 e2
        exact processTicks_cons_ok m ma m2 t (ts ++ ts2) ra (rb ++ rs2) hp
          (ih ma mb m2 ts2 rb rs2 hq h2)

theorem scenario_drive_ticks (t0 : Int) (ts : List Int) :
    ∀ (tr : List Event), (∀ t ∈ ts, t - t0 < 2000) →
      (drivePhase t0 false tr).processTicks ts =
        Except.ok (drivePhase t0 false (tr ++ List.replicate ts.length (Event.process 0)),
          List.replicate ts.length true) := by
  induction ts with
  | nil => intro tr _; simp [AutoManager.processTicks]
  | cons t ts ih =>
    intro tr h
    have h1 := scenario_drive_tick t0 t tr (h t (List.mem_cons_self _ _))
    have h2 := ih (tr ++ [Event.process 0]) (fun x hx => h x (List.mem_cons_of_mem _ hx))
    rw [processTicks_cons_ok _ _ _ t ts true _ h1 h2]
    simp [List.replicate_succ]

theorem scenario_rotate_ticks (t3 : Int) (ts : List Int) :
    ∀ (tr : List Event), (∀ t ∈ ts, t - t3 < 1000) →
      (rotatePhase t3 false tr).processTicks ts =
        Except.ok (rotatePhase t3 false
          (tr ++ (List.replicate ts.length [Event.process 1, Event.bgProcess 0]).flatten),
          List.replicate ts.length true) := by
  induction ts with
  | nil => intro tr _; simp [AutoManager.processTicks]
  | cons t ts ih =>
    intro tr h
    have h1 := scenario_rotate_tick t3 t tr (h t (List.mem_cons_self _ _))
    have h2 := ih (tr ++ [Event.process 1] ++ [Event.bgProcess 0])
      (fun x hx => h x (List.mem_cons_of_mem _ hx))
    rw [processTicks_cons_ok _ _ _ t ts true _ h1 h2]
    simp [List.replicate_succ]

theorem scenario_idle_ticks (ts : List Int) :
    ∀ (n : Nat) (tr : List Event), 3 + n + ts.length < 2 ^ 64 →
      (finishedPhase n tr).processTicks ts =
        Except.ok (finishedPhase (n + ts.length)
          (tr ++ List.replicate ts.length (Event.bgProcess 0)),
          List.replicate ts.length false) := by
  induction ts with
  | nil => intro n tr _; simp [AutoManager.processTicks]
  | cons t ts ih =>
    intro n tr h
    simp only [List.length_cons] at h
    have h1 := scenario_idle_tick n t tr (by omega)
    have h2 := ih (n + 1) (tr ++ [Event.bgProcess 0]) (by omega)
    rw [processTicks_cons_ok _ _ _ t ts false _ h1 h2]
    simp [List.replicate_succ, Nat.add_assoc, Nat.add_comm 1]

/-- C17. The script `drive,2` / `intake_in` / `rotate,1` with the registrations of main.cpp,
ticked at `t0`, then at times `ts1` less than 2000 ms after `t0`, then at `t2` (2000 ms or
more after `t0`), at `t3`, at times `ts4` less than 1000 ms after `t3`, at `t5` (1000 ms or
more after `t3`), at `t6` and at later times `ts7`.  The values returned are `true` up to and
including the tick at `t5`, and `false` from the tick at `t6` on.  The calls are, in order:
drive is created, started and processed once at `t0`; it is processed once per tick of `ts1`;
it is completed at `t2`; at `t3` `updateArgs` is called for `intake_in`, rotate is created,
started and processed, and the intake is processed; each tick of `ts4` processes rotate and
the intake; the tick at `t5` completes rotate and processes the intake; the tick at `t6` and
every later tick processes the intake. -/
theorem C17_demo_scenario (t0 t2 t3 t5 t6 : Int) (ts1 ts4 ts7 : List Int)
    (h1 : ∀ t ∈ ts1, t - t0 < 2000) (h2 : t2 - t0 ≥ 2000)
    (h4 : ∀ t ∈ ts4, t - t3 < 1000) (h5 : t5 - t3 ≥ 1000)
    (h7 : ts7.length + 4 < 2 ^ 64) :
    ∃ s, scenarioScript.processTicks
        (t0 :: (ts1 ++ t2 :: t3 :: (ts4 ++ t5 :: t6 :: ts7))) =
      Except.ok (s,
        true :: (List.replicate ts1.length true ++ true :: true ::
          (List.replicate ts4.length true ++ true :: false ::
            List.replicate ts7.length false))) ∧
      s.currentCommand = none ∧
      s.trace =
        [Event.create 0, Event.start 0 "drive" ["2"], Event.process 0] ++
        List.replicate ts1.length (Event.process 0) ++
        [Event.handleComplete 0] ++
        [Event.updateArgs 0 "intake_in" [], Event.create 1, Event.start 1 "rotate" ["1"],
          Event.process 1, Event.bgProcess 0] ++
        (List.replicate ts4.length [Event.process 1, Event.bgProcess 0]).flatten ++
        [Event.handleComplete 1, Event.bgProcess 0] ++
        Event.bgProcess 0 :: List.replicate ts7.length (Event.bgProcess 0) := by
  have hA := scenario_first_tick t0
  have hB := scenario_drive_ticks t0 ts1
    [Event.create 0, Event.start 0 "drive" ["2"], Event.process 0] h1
  have hC := scenario_drive_timeout t0 t2
    ([Event.create 0, Event.start 0 "drive" ["2"], Event.process 0] ++
      List.replicate ts1.length (Event.process 0)) h2
  have hD := scenario_switch t0 t3
    (([Event.create 0, Event.start 0 "drive" ["2"], Event.process 0] ++
      List.replicate ts1.length (Event.process 0)) ++ [Event.handleComplete 0])
  have hE := scenario_rotate_ticks t3 ts4
    ((([Event.create 0, Event.start 0 "drive" ["2"], Event.process 0] ++
      List.replicate ts1.length (Event.process 0)) ++ [Event.handleComplete 0]) ++ [Event.updateArgs 0 "intake_in" []] ++ [Event.create 1] ++
      [Event.start 1 "rotate" ["1"]] ++ [Event.process 1] ++ [Event.bgProcess 0]) h4
  have hF := scenario_rotate_timeout t3 t5
    (((([Event.create 0, Event.start 0 "drive" ["2"], Event.process 0] ++
      List.replicate ts1.length (Event.process 0)) ++ [Event.handleComplete 0]) ++ [Event.updateArgs 0 "intake_in" []] ++ [Event.create 1] ++
      [Event.start 1 "rotate" ["1"]] ++ [Event.process 1] ++ [Event.bgProcess 0]) ++
      (List.replicate ts4.length [Event.process 1, Event.bgProcess 0]).flatten) h5
  have hG := scenario_end t3 t6
    ((((([Event.create 0, Event.start 0 "drive" ["2"], Event.process 0] ++
      List.replicate ts1.length (Event.process 0)) ++ [Event.handleComplete 0]) ++ [Event.updateArgs 0 "intake_in" []] ++ [Event.create 1] ++
      [Event.start 1 "rotate" ["1"]] ++ [Event.process 1] ++ [Event.bgProcess 0]) ++
      (List.replicate ts4.length [Event.process 1, Event.bgProcess 0]).flatten) ++ [Event.handleComplete 1] ++ [Event.bgProcess 0])
  have hH := scenario_idle_ticks ts7 0
    (((((([Event.create 0, Event.start 0 "drive" ["2"], Event.process 0] ++
      List.replicate ts1.length (Event.process 0)) ++ [Event.handleComplete 0]) ++ [Event.updateArgs 0 "intake_in" []] ++ [Event.create 1] ++
      [Event.start 1 "rotate" ["1"]] ++ [Event.process 1] ++ [Event.bgProcess 0]) ++
      (List.replicate ts4.length [Event.process 1, Event.bgProcess 0]).flatten) ++ [Event.handleComplete 1] ++ [Event.bgProcess 0]) ++ [Event.bgProcess 0]) (by omega)
  have r7 := processTicks_cons_ok _ _ _ t6 ts7 false _ hG hH
  have r6 := processTicks_cons_ok _ _ _ t5 (t6 :: ts7) true _ hF r7
  have r5 := processTicks_append_ok ts4 _ _ _ (t5 :: t6 :: ts7) _ _ hE r6
  have r4 := processTicks_cons_ok _ _ _ t3 (ts4 ++ (t5 :: t6 :: ts7)) true _ hD r5
  have r3 := processTicks_cons_ok _ _ _ t2 (t3 :: (ts4 ++ (t5 :: t6 :: ts7))) true _ hC r4
  have r2 := processTicks_append_ok ts1 _ _ _ (t2 :: (t3 :: (ts4 ++ (t5 :: t6 :: ts7)))) _ _ hB r3
  have r1 := processTicks_cons_ok _ _ _ t0 (ts1 ++ (t2 :: (t3 :: (ts4 ++ (t5 :: t6 :: ts7)))))
    true _ hA r2
  refine ⟨_, r1, rfl, ?_⟩
  simp [finishedPhase]

theorem shoutScript_WF : shoutScript.WF :=
  ⟨rfl, by decide, by decide, mainManager_bg_lt⟩

/-- C17 at a concrete input: ticks at 0, 50, 100, 2000, 2050, 2100, 3050, 3100 and 3150 ms. -/
theorem C17_demo_scenario_witness :
    ∃ s, scenarioScript.processTicks [0, 50, 100, 2000, 2050, 2100, 3050, 3100, 3150] =
      Except.ok (s, [true, true, true, true, true, true, true, false, false]) ∧
      s.currentCommand = none ∧
      s.trace =
        [Event.create 0, Event.start 0 "drive" ["2"], Event.process 0,
          Event.process 0, Event.process 0,
          Event.handleComplete 0,
          Event.updateArgs 0 "intake_in" [], Event.create 1, Event.start 1 "rotate" ["1"],
          Event.process 1, Event.bgProcess 0,
          Event.process 1, Event.bgProcess 0,
          Event.handleComplete 1, Event.bgProcess 0,
          Event.bgProcess 0,
          Event.bgProcess 0] :=
  C17_demo_scenario 0 2000 2050 3050 3100 [50, 100] [2100] [3150]
    (by decide) (by decide) (by decide) (by decide) (by decide)

theorem capitalsScript_WF : capitalsScript.WF :=
  ⟨rfl, by decide, by decide, mainManager_bg_lt⟩

/-- C18 at two concrete inputs.  `drive` is registered and `DRIVE` is the name in the script:
a second registration under `DRIVE` changes nothing, and the first tick of the script
`DRIVE,2` starts the drive command under the name `DRIVE`.  `move_lifter` is registered as a
background name and `MOVE_LIFTER,3` is the first entry of the script: the first tick gives the
lifter, the second instance, the target 3. -/
theorem C18_names_case_insensitive_witness :
    tolower "drive" = tolower "DRIVE" ∧
    ((({} : AutoManager Unit BgFields).registerCommand
        (CommandCreator (DriveCommand msOfDigits) ()) "drive").registerCommand
        (CommandCreator (RotateCommand msOfDigits) ()) "DRIVE" =
      ({} : AutoManager Unit BgFields).registerCommand
        (CommandCreator (DriveCommand msOfDigits) ()) "drive") ∧
    (∃ s2, shoutScript.process 0 = Except.ok (s2, true) ∧
      (s2.currentCommand.map fun c => (c.commandName, c.arguments, c.timeout, c.hasStarted)) =
        some ("DRIVE", ["2"], 2000, true)) ∧
    tolower "Move_Lifter" = tolower "MOVE_LIFTER" ∧
    (tickState (capitalsScript.process 0)).uniqueBgCommands.map (fun b => b.self) =
      [BgFields.intake 1, BgFields.lifter 3 1] ∧
    ∃ bg K, capitalsScript.uniqueBgCommands[1]? = some bg ∧
      ((∃ e, capitalsScript.process 0 = Except.error e ∧
          e.uniqueBgCommands =
            (List.range' (sizeSucc capitalsScript.currentCommandIndex + 1) K).foldl capitalsScript.handOver
              (capitalsScript.uniqueBgCommands.set 1
                { bg with self := bg.updateArgs bg.self (tolower "MOVE_LIFTER") ["3"] })) ∨
        (∃ s2, capitalsScript.process 0 = Except.ok (s2, true) ∧
          s2.uniqueBgCommands =
            (processAll 0
              ((List.range' (sizeSucc capitalsScript.currentCommandIndex + 1) K).foldl capitalsScript.handOver
                (capitalsScript.uniqueBgCommands.set 1
                  { bg with self :=
                      bg.updateArgs bg.self (tolower "MOVE_LIFTER") ["3"] }))).1)) := by
  have h := C18_names_case_insensitive ({} : AutoManager Unit BgFields) shoutScript
    "drive" "DRIVE" (CommandCreator (DriveCommand msOfDigits) ())
    (CommandCreator (RotateCommand msOfDigits) ()) "IntakeCommand" "LifterCommand"
    IntakeCommand (LifterCommand (fun s => msOfDigits s / 1000)) 0 ["2"] (by decide)
  have h2 := C18_names_case_insensitive ({} : AutoManager Unit BgFields) capitalsScript
    "Move_Lifter" "MOVE_LIFTER" (CommandCreator (DriveCommand msOfDigits) ())
    (CommandCreator (RotateCommand msOfDigits) ()) "IntakeCommand" "LifterCommand"
    IntakeCommand (LifterCommand (fun s => msOfDigits s / 1000)) 0 ["3"] (by decide)
  refine ⟨by decide, h.1, ?_, by decide, by decide,
    (h2.2.2.2.2.2.2 capitalsScript_WF rfl rfl rfl).2.2 1 rfl⟩
  obtain ⟨s2, h1, h2⟩ := (h.2.2.2.2.2.2 shoutScript_WF rfl rfl rfl).1
    (CommandCreator (DriveCommand msOfDigits) ())
    ({ self := (), hooks := DriveCommand msOfDigits } : AutoCommand Unit) rfl rfl rfl rfl
  exact ⟨s2, h1, by rw [h2]; rfl⟩

/-! ## An entry appended to a finished script -/

/-- A tick of a non-empty script that returns `false`: no command was active, the cursor has
moved to or past the end of the script, and nothing but the background commands was run. -/
theorem process_false (m s : AutoManager σ β) (now : Int) (hwf : m.WF)
    (hne : m.loadedCommands ≠ []) (hp : m.process now = Except.ok (s, false)) :
    m.wantsNext = true ∧ m.loadedCommands.length ≤ sizeSucc m.currentCommandIndex ∧
      s = m.moveOn.processBackground := by
  have h1 : ¬ m.loadedCommandCount < 1 := by
    have := List.length_pos.2 hne
    simp only [AutoManager.loadedCommandCount]; omega
  by_cases hw : m.wantsNext = true
  · by_cases hc : sizeSucc m.currentCommandIndex < m.loadedCommands.length
    · obtain ⟨K, hK, hrun, hmax⟩ := exists_run m _ (sizeSucc m.currentCommandIndex)
        (Nat.le_of_lt hc) rfl
      obtain ⟨t, _, hend, hgo⟩ := process_run m now K hwf hw hc hK hrun hmax
      rcases Nat.lt_or_eq_of_le hK with hlt | heq
      · obtain ⟨s1, s2, _, _, _, _, hp2⟩ := hgo hlt
        rw [hp2] at hp
        simp at hp
      · rw [hend heq] at hp
        cases hp
    · have hpe : m.moveOn.pastEnd = true := by
        rw [pastEnd_eq _ (WF_moveOn hwf).len_lt]
        simp only [decide_eq_true_eq]
        exact Nat.le_of_not_lt hc
      have ha : m.advance = Except.ok (m.moveOn, false) := by
        unfold AutoManager.advance
        rw [if_pos hw, if_pos hpe]
      have hr : m.moveOn.runCurrent now = Except.ok m.moveOn := rfl
      unfold AutoManager.process at hp
      rw [if_neg h1, ha] at hp
      simp only [hr, Except.ok.injEq, Prod.mk.injEq, and_true] at hp
      exact ⟨hw, Nat.le_of_not_lt hc, hp.symm⟩
  · have ha : m.advance = Except.ok (m, true) := by
      unfold AutoManager.advance
      rw [if_neg hw]
    unfold AutoManager.process at hp
    rw [if_neg h1, ha] at hp
    simp only at hp
    cases hr : m.runCurrent now with
    | error e => rw [hr] at hp; cases hp
    | ok s2 => rw [hr] at hp; simp at hp

theorem addCommand_end (m : AutoManager σ β) (command : String) (arguments : List String) :
    m.addCommand command arguments (-1) =
      { m with loadedCommands := m.loadedCommands ++ [command],
               loadedArguments := m.loadedArguments ++ [arguments] } := by
  simp [AutoManager.addCommand]

/-- C21. A non-empty script that has finished: a tick has returned `false`, leaving state `s`.
After `addCommand(name, args, -1)` the new entry is at index `n`, the old script length, and
the cursor is at or beyond `n`.  Every later tick (the cursor being a 64-bit counter, as long
as it does not wrap) returns `false`; no command is created or started and `updateArgs` is
not called: the only calls made are `process` of background commands. -/
theorem C21_appended_entry_not_dispatched (m s : AutoManager σ β) (now : Int) (name : String)
    (args : List String) (nows : List Int) (hwf : m.WF) (hne : m.loadedCommands ≠ [])
    (hfin : m.process now = Except.ok (s, false))
    (hlen : m.loadedCommands.length + 1 < 2 ^ 31)
    (hw : s.currentCommandIndex + nows.length < 2 ^ 64) :
    (s.addCommand name args (-1)).loadedCommands = m.loadedCommands ++ [name] ∧
    (s.addCommand name args (-1)).loadedArguments = m.loadedArguments ++ [args] ∧
    (s.addCommand name args (-1)).loadedCommands[m.loadedCommands.length]? = some name ∧
    m.loadedCommands.length ≤ (s.addCommand name args (-1)).currentCommandIndex ∧
    ∃ s2 evs,
      (s.addCommand name args (-1)).processTicks nows =
        Except.ok (s2, List.replicate nows.length false) ∧
      s2.currentCommand = none ∧ s2.created = s.created ∧
      s2.trace = s.trace ++ evs ∧ ∀ e ∈ evs, e.isBgProcess = true := by
  obtain ⟨_, hidx, hs⟩ := process_false m s now hwf hne hfin
  subst hs
  rw [addCommand_end]
  have hcur : m.moveOn.processBackground.currentCommandIndex =
      sizeSucc m.currentCommandIndex := rfl
  rw [hcur] at hw
  refine ⟨rfl, rfl, ?_, hidx, ?_⟩
  · show (m.loadedCommands ++ [name])[m.loadedCommands.length]? = some name
    simp
  · cases nows with
    | nil => exact ⟨_, [], rfl, rfl, rfl, by simp, by simp⟩
    | cons t rest =>
      simp only [List.length_cons] at hw
      have hne2 : m.loadedCommands ++ [name] ≠ [] := by simp
      have hp := process_idle
        ({ m.moveOn.processBackground with
            loadedCommands := m.moveOn.processBackground.loadedCommands ++ [name],
            loadedArguments := m.moveOn.processBackground.loadedArguments ++ [args] } :
          AutoManager σ β) t hne2 rfl
        (by show (m.loadedCommands ++ [name]).length < 2 ^ 31
            simp only [List.length_append, List.length_singleton]; exact hlen)
        (by show (m.loadedCommands ++ [name]).length ≤ sizeSucc m.currentCommandIndex + 1
            simp only [List.length_append, List.length_singleton]; omega)
        (by show sizeSucc m.currentCommandIndex + 1 < 2 ^ 64; omega)
      obtain ⟨s2, evs, h1, h2, h3, h4, h5⟩ := processTicks_idle rest
        ({ m.moveOn.processBackground with
            loadedCommands := m.moveOn.processBackground.loadedCommands ++ [name],
            loadedArguments := m.moveOn.processBackground.loadedArguments ++ [args] } :
          AutoManager σ β).moveOn.processBackground hne2 rfl
        (by show (m.loadedCommands ++ [name]).length < 2 ^ 31
            simp only [List.length_append, List.length_singleton]; exact hlen)
        (by show (m.loadedCommands ++ [name]).length ≤
              sizeSucc (sizeSucc m.currentCommandIndex)
            rw [@sizeSucc_eq (sizeSucc m.currentCommandIndex) (by omega)]
            simp only [List.length_append, List.length_singleton]; omega)
        (by show sizeSucc (sizeSucc m.currentCommandIndex) + rest.length < 2 ^ 64
            rw [@sizeSucc_eq (sizeSucc m.currentCommandIndex) (by omega)]; omega)
      refine ⟨s2, (processAll 0 m.moveOn.processBackground.uniqueBgCommands).2 ++ evs,
        ?_, h2, h3, ?_, ?_⟩
      · simp only [AutoManager.processTicks, hp, h1, List.length_cons, List.replicate_succ]
      · rw [h4, ← List.append_assoc]; rfl
      · intro e he
        rcases List.mem_append.1 he with h | h
        · exact processAll_events _ _ e h
        · exact h5 e h

theorem timedOutState_WF : timedOutState.WF :=
  ⟨rfl, by decide, by decide, mainManager_bg_lt⟩

/-- C21, at a concrete input: the script `drive,2` ticked at 0, 2000 and 2050 ms (the third
tick returns `false`), then `addCommand("rotate", ["1"], -1)` and ticks at 2100 and 2150 ms. -/
theorem C21_appended_entry_not_dispatched_witness :
    timedOutState.process 2050 = Except.ok (finishedState, false) ∧
    (finishedState.addCommand "rotate" ["1"] (-1)).loadedCommands = ["drive", "rotate"] ∧
    ∃ s2 evs,
      (finishedState.addCommand "rotate" ["1"] (-1)).processTicks [2100, 2150] =
        Except.ok (s2, [false, false]) ∧
      s2.currentCommand = none ∧ s2.created = finishedState.created ∧
      s2.trace = finishedState.trace ++ evs ∧ ∀ e ∈ evs, e.isBgProcess = true :=
  ⟨rfl, rfl,
    (C21_appended_entry_not_dispatched timedOutState finishedState 2050 "rotate" ["1"]
      [2100, 2150] timedOutState_WF (by decide) rfl (by decide) (by decide)).2.2.2.2⟩

/-! ## The names passed to `updateArgs` and to `doStart` -/

theorem createNext_creates (m : AutoManager σ β) :
    (tickState m.createNext).loadedCommands = m.loadedCommands ∧
    (tickState m.createNext).loadedArguments = m.loadedArguments ∧
    (tickState m.createNext).currentCommandIndex = m.currentCommandIndex ∧
    ∃ evs, (tickState m.createNext).trace = m.trace ++ evs ∧
      ∀ e ∈ evs, e = Event.create m.created := by
  unfold AutoManager.createNext
  split
  · exact ⟨rfl, rfl, rfl, [], (List.append_nil _).symm, by simp⟩
  · split
    · split
      · exact ⟨rfl, rfl, rfl, [Event.create m.created], rfl, by simp⟩
      · exact ⟨rfl, rfl, rfl, [], (List.append_nil _).symm, by simp⟩
    · exact ⟨rfl, rfl, rfl, [], (List.append_nil _).symm, by simp⟩

/-- The first part of a tick keeps the script and calls no `start` hook. -/
theorem advance_no_start (m : AutoManager σ β) :
    (tickState m.advance).loadedCommands = m.loadedCommands ∧
    (tickState m.advance).loadedArguments = m.loadedArguments ∧
    ∃ evs, (tickState m.advance).trace = m.trace ++ evs ∧
      ∀ uid n args, Event.start uid n args ∉ evs := by
  unfold AutoManager.advance
  split
  · split
    · exact ⟨rfl, rfl, [], (List.append_nil _).symm, by simp⟩
    · have hf := handleNextBgCommands_frame m.moveOn
      cases hr : m.moveOn.handleNextBgCommands with
      | error e =>
        rw [hr] at hf
        obtain ⟨evs, he, hu⟩ := hf.trace
        refine ⟨hf.loadedCommands, hf.loadedArguments, evs, he, ?_⟩
        intro uid n args hmem
        have := hu _ hmem
        cases this
      | ok s =>
        rw [hr] at hf
        obtain ⟨evs, he, hu⟩ := hf.trace
        have hns : ∀ uid n args, Event.start uid n args ∉ evs := by
          intro uid n args hmem
          have := hu _ hmem
          cases this
        simp only
        split
        · exact ⟨hf.loadedCommands, hf.loadedArguments, evs, he, hns⟩
        · obtain ⟨h1, h2, _, evs2, he2, hc2⟩ := createNext_creates s
          refine ⟨h1.trans hf.loadedCommands, h2.trans hf.loadedArguments, evs ++ evs2, ?_, ?_⟩
          · have he' : s.trace = m.trace ++ evs := he
            rw [he2, he', List.append_assoc]
          · intro uid n args hmem
            rcases List.mem_append.1 hmem with h | h
            · exact hns uid n args h
            · have := hc2 _ h
              cases this
  · exact ⟨rfl, rfl, [], (List.append_nil _).symm, by simp⟩

/-- The second part of a tick: a `start` hook it calls gets the name and the argument list of
the entry under the cursor, as they are in the script; it makes no call of `updateArgs`. -/
theorem runCurrent_starts (m : AutoManager σ β) (now : Int) :
    (lastState (m.runCurrent now)).loadedCommands = m.loadedCommands ∧
    (lastState (m.runCurrent now)).loadedArguments = m.loadedArguments ∧
    ∃ evs, (lastState (m.runCurrent now)).trace = m.trace ++ evs ∧
      (∀ e ∈ evs, e.isUpdateArgs = false) ∧
      ∀ uid n args, Event.start uid n args ∈ evs →
        m.loadedCommands[m.currentCommandIndex]? = some n ∧
        m.loadedArguments[m.currentCommandIndex]? = some args := by
  unfold AutoManager.runCurrent
  split
  · exact ⟨rfl, rfl, [], (List.append_nil _).symm, by simp, by simp⟩
  · rename_i c _
    split
    · split
      · rename_i name args hn ha
        refine ⟨rfl, rfl, (c.doStart now name args).2 ++ (c.doStart now name args).1.process.2,
          by simp [lastState, List.append_assoc], ?_, ?_⟩
        · intro e he
          rcases List.mem_append.1 he with h | h
          · exact doStart_no_updateArgs _ _ _ _ e h
          · exact process_no_updateArgs _ e h
        · intro uid n a he
          rcases List.mem_append.1 he with h | h
          · rw [AutoCommand.doStart, start_events] at h
            rcases List.mem_cons.1 h with h | h
            · cases h
              exact ⟨hn, ha⟩
            · have := List.eq_of_mem_replicate h
              cases this
          · rw [process_events] at h
            rcases List.mem_cons.1 h with h | h
            · cases h
            · have := List.eq_of_mem_replicate h
              cases this
      · exact ⟨rfl, rfl, [], (List.append_nil _).symm, by simp, by simp⟩
    · refine ⟨rfl, rfl, (c.doProcess now).2, rfl, doProcess_no_updateArgs c now, ?_⟩
      intro uid n a he
      rcases doProcess_cases c now with h | h | h <;> rw [h] at he
      · rw [complete_snd] at he
        have := List.mem_singleton.1 he
        cases this
      · simp at he
      · rw [process_events] at he
        rcases List.mem_cons.1 he with h | h
        · cases h
        · have := List.eq_of_mem_replicate h
          cases this

/-- Every call of a `start` hook made in a tick gets the name and the argument list of the
entry the cursor is on at the end of the tick, as they are written in the script. -/
theorem process_starts (m : AutoManager σ β) (now : Int) :
    ∃ evs, (tickState (m.process now)).trace = m.trace ++ evs ∧
      ∀ uid n args, Event.start uid n args ∈ evs →
        m.loadedCommands[(tickState (m.process now)).currentCommandIndex]? = some n ∧
        m.loadedArguments[(tickState (m.process now)).currentCommandIndex]? = some args := by
  unfold AutoManager.process
  split
  · exact ⟨[], (List.append_nil _).symm, by simp⟩
  · obtain ⟨ha1, ha2, evs1, he1, hn1⟩ := advance_no_start m
    cases hr : m.advance with
    | error e =>
      rw [hr] at he1
      refine ⟨evs1, he1, ?_⟩
      intro uid n args hmem
      exact absurd hmem (hn1 uid n args)
    | ok p =>
      obtain ⟨a, r⟩ := p
      rw [hr] at he1 ha1 ha2
      simp only [tickState] at he1 ha1 ha2
      obtain ⟨_, _, evs2, he2, _, hs2⟩ := runCurrent_starts a now
      have hcur := runCurrent_cursor a now
      simp only
      cases hr2 : a.runCurrent now with
      | error e =>
        rw [hr2] at he2 hcur
        simp only [lastState] at he2 hcur
        refine ⟨evs1 ++ evs2, ?_, ?_⟩
        · simp only [tickState]; rw [he2, he1, List.append_assoc]
        · intro uid n args hmem
          simp only [tickState]
          rw [hcur, ← ha1, ← ha2]
          rcases List.mem_append.1 hmem with h | h
          · exact absurd h (hn1 uid n args)
          · exact hs2 uid n args h
      | ok s2 =>
        rw [hr2] at he2 hcur
        simp only [lastState] at he2 hcur
        refine ⟨evs1 ++ evs2 ++ (processAll 0 s2.uniqueBgCommands).2, ?_, ?_⟩
        · simp only [tickState, AutoManager.processBackground]
          rw [he2, he1, List.append_assoc, List.append_assoc, List.append_assoc]
        · intro uid n args hmem
          simp only [tickState, AutoManager.processBackground]
          rw [hcur, ← ha1, ← ha2]
          rcases List.mem_append.1 hmem with h | h
          · rcases List.mem_append.1 h with h | h
            · exact absurd h (hn1 uid n args)
            · exact hs2 uid n args h
          · have := processAll_events _ _ _ h
            cases this

/-- The calls and the instances of a tick in a well-formed state: first the `updateArgs`
calls for the `K` background entries the cursor moves over, each with the lowered name and the
argument list of its entry, then calls none of which is an `updateArgs`; the instances are
those before the tick with the `K` entries handed over and, when the tick returns, processed
by the loop over the background commands.  When the entry after the run is registered as a
foreground command, the other calls begin with the creation of the command and its `start`
with the name and arguments as written. -/
theorem process_dispatch (m : AutoManager σ β) (now : Int) (hwf : m.WF) :
    ∃ K calls rest,
      (tickState (m.process now)).trace = m.trace ++ calls ++ rest ∧
      calls.length = K ∧
      (∀ j, j < K → ∃ name args idx,
        m.loadedCommands[sizeSucc m.currentCommandIndex + j]? = some name ∧
        m.loadedArguments[sizeSucc m.currentCommandIndex + j]? = some args ∧
        m.backgroundCommands.lookup (tolower name) = some idx ∧
        calls[j]? = some (Event.updateArgs idx (tolower name) args) ∧
        ∀ bgs b, bgs[idx]? = some b →
          m.handOver bgs (sizeSucc m.currentCommandIndex + j) =
            bgs.set idx { b with self := b.updateArgs b.self (tolower name) args }) ∧
      (∀ e ∈ rest, e.isUpdateArgs = false) ∧
      (∀ e, m.process now = Except.error e →
        e.uniqueBgCommands =
          (List.range' (sizeSucc m.currentCommandIndex) K).foldl m.handOver
            m.uniqueBgCommands) ∧
      (∀ s r, m.process now = Except.ok (s, r) → m.loadedCommands ≠ [] →
        s.uniqueBgCommands =
          (processAll 0 ((List.range' (sizeSucc m.currentCommandIndex) K).foldl m.handOver
            m.uniqueBgCommands)).1) ∧
      (m.wantsNext = true → m.loadedCommands ≠ [] →
        (tickState (m.process now)).currentCommandIndex =
          sizeSucc m.currentCommandIndex + K ∧
        m.isBgEntry (sizeSucc m.currentCommandIndex + K) = false) ∧
      (m.wantsNext = true → ∀ name args creator c0,
        m.loadedCommands[sizeSucc m.currentCommandIndex + K]? = some name →
        m.loadedArguments[sizeSucc m.currentCommandIndex + K]? = some args →
        m.registeredCommands.lookup (tolower name) = some creator →
        creator () = some c0 → c0.hasStarted = false →
        ∃ tail s,
          rest = Event.create m.created :: Event.start m.created name args :: tail ∧
          m.process now = Except.ok (s, true) ∧
          s.currentCommand = some
            (AutoCommand.exec
              { c0 with
                  uid := m.created, commandName := name, arguments := args,
                  startTime := now, _hasStarted := true,
                  self := (c0.hooks.start
                    { c0.toCommandFields with
                        commandName := name, arguments := args, startTime := now,
                        _hasStarted := true }
                    c0.self name args).1 }
              (c0.hooks.start
                { c0.toCommandFields with
                    commandName := name, arguments := args, startTime := now,
                    _hasStarted := true }
                c0.self name args).2).1.process.1) := by
  by_cases h1 : m.loadedCommandCount < 1
  · have hnil : m.loadedCommands = [] := by
      simp only [AutoManager.loadedCommandCount] at h1
      exact List.length_eq_zero.1 (by omega)
    have hp : m.process now = Except.ok (m, false) := by
      simp only [AutoManager.process, h1, if_true]
    refine ⟨0, [], [], ?_, rfl, fun j hj => absurd hj (Nat.not_lt_zero j), by simp, ?_,
      fun _ _ _ hne => absurd hnil hne, fun _ hne => absurd hnil hne, ?_⟩
    · rw [hp]; simp only [tickState, List.append_nil]
    · intro e he
      rw [hp] at he
      cases he
    · intro _ name args creator c0 hname
      rw [hnil] at hname
      simp at hname
  by_cases hw : m.wantsNext = true
  · by_cases hc : sizeSucc m.currentCommandIndex < m.loadedCommands.length
    · obtain ⟨K, hK, hrun, hmax⟩ := exists_run m _ (sizeSucc m.currentCommandIndex)
        (Nat.le_of_lt hc) rfl
      obtain ⟨t, hd, hend, hgo⟩ := process_run m now K hwf hw hc hK hrun hmax
      obtain ⟨hierr, hiok⟩ := process_run_instances m now K hwf hw hc hK hrun hmax
      have hev : ∀ j, j < K →
          (m.updateEvent (sizeSucc m.currentCommandIndex + j)).isSome = true := by
        intro j hj
        obtain ⟨_, _, _, _, _, _, h⟩ := updateEvent_of_isBgEntry m _ hwf.args_len (hrun j hj)
        rw [h]; rfl
      obtain ⟨hlen, hget⟩ := filterMap_range'_of_isSome m.updateEvent K _ hev
      have hcalls : t.trace = m.trace ++
          (List.range' (sizeSucc m.currentCommandIndex) K).filterMap m.updateEvent := hd.calls
      have hcur : t.currentCommandIndex = sizeSucc m.currentCommandIndex + K := hd.cursor
      have hjs : ∀ j, j < K → ∃ name args idx,
            m.loadedCommands[sizeSucc m.currentCommandIndex + j]? = some name ∧
            m.loadedArguments[sizeSucc m.currentCommandIndex + j]? = some args ∧
            m.backgroundCommands.lookup (tolower name) = some idx ∧
            ((List.range' (sizeSucc m.currentCommandIndex) K).filterMap m.updateEvent)[j]? =
              some (Event.updateArgs idx (tolower name) args) ∧
            ∀ bgs b, bgs[idx]? = some b →
              m.handOver bgs (sizeSucc m.currentCommandIndex + j) =
                bgs.set idx { b with self := b.updateArgs b.self (tolower name) args } := by
        intro j hj
        obtain ⟨name, args, idx, h1, h2, h3, h4⟩ :=
          updateEvent_of_isBgEntry m _ hwf.args_len (hrun j hj)
        exact ⟨name, args, idx, h1, h2, h3, by rw [hget j hj, h4],
          fun bgs b hb => handOver_of_bg m _ idx name args h1 h2 h3 bgs b hb⟩
      rcases Nat.lt_or_eq_of_le hK with hlt | heq
      · obtain ⟨s1, s2, hs1, hs2, hq1, hq2, hp⟩ := hgo hlt
        obtain ⟨s0, hp0, hi0⟩ := hiok hlt
        have hq := quiet_trans (quiet_trans hq1 hq2) (processBackground_quiet s2)
        obtain ⟨rest, hrest, hno⟩ := hq.trace
        refine ⟨K, _, rest, ?_, hlen, hjs, hno, ?_, ?_, fun _ _ => ⟨?_, hmax⟩, ?_⟩
        · rw [hp]; simp only [tickState]; rw [hrest, hcalls]
        · intro e he
          rw [hp0] at he
          cases he
        · intro s r hsr _
          rw [hp0] at hsr
          cases hsr
          exact hi0
        · rw [hp]; simp only [tickState]; rw [hq.cursor, hcur]
        · intro _ name args creator c0 hname hargs hfg hc0 hns
          have htn : t.loadedCommands[t.currentCommandIndex]? = some name := by
            rw [hcur, hd.loadedCommands]; exact hname
          have hta : t.loadedArguments[t.currentCommandIndex]? = some args := by
            rw [hcur, hd.loadedArguments]; exact hargs
          have htc : t.created = m.created := hd.created
          have hcn : t.createNext = Except.ok
              ({ t with currentCommand := some { c0 with uid := t.created },
                        created := t.created + 1,
                        trace := t.trace ++ [Event.create t.created] }, true) := by
            have hl : t.registeredCommands.lookup (tolower name) = some creator := by
              rw [hd.registeredCommands]; exact hfg
            simp only [AutoManager.createNext, htn, hl, hc0]
          rw [hcn] at hs1
          cases hs1
          have hns' : (({ c0 with uid := t.created } : AutoCommand σ)).hasStarted = false := hns
          simp only [AutoManager.runCurrent, hns', htn, hta, Bool.not_false, if_true] at hs2
          cases hs2
          have hds : (({ c0 with uid := t.created } : AutoCommand σ).doStart now name args).2 =
              Event.start t.created name args ::
                (({ c0 with uid := t.created } : AutoCommand σ).doStart now name args).2.tail :=
            rfl
          rw [← htc]
          refine ⟨(({ c0 with uid := t.created } : AutoCommand σ).doStart now name args).2.tail ++
            ((({ c0 with uid := t.created } : AutoCommand σ).doStart now name args).1.process.2 ++
              (processAll 0 t.uniqueBgCommands).2), _, ?_, hp, rfl⟩
          refine List.append_cancel_left (hrest.symm.trans ?_)
          simp only [AutoManager.processBackground]
          rw [hds]
          simp only [List.append_assoc, List.singleton_append, List.cons_append,
            List.tail_cons, List.nil_append]
      · have hp := hend heq
        obtain ⟨e0, hp0, hi0⟩ := hierr heq
        refine ⟨K, _, [], ?_, hlen, hjs, by simp, ?_, ?_, fun _ _ => ⟨?_, hmax⟩, ?_⟩
        · rw [hp]; simp only [tickState]; rw [hcalls]; simp
        · intro e he
          rw [hp0] at he
          cases he
          exact hi0
        · intro s r hsr _
          rw [hp0] at hsr
          cases hsr
        · rw [hp]; simp only [tickState]; rw [hcur]
        · intro _ name args creator c0 hname
          rw [List.getElem?_eq_none_iff.2 (by omega)] at hname
          cases hname
    · have hpe : m.moveOn.pastEnd = true := by
        rw [pastEnd_eq _ (WF_moveOn hwf).len_lt]
        simp only [decide_eq_true_eq]
        exact Nat.le_of_not_lt hc
      have ha : m.advance = Except.ok (m.moveOn, false) := by
        unfold AutoManager.advance
        rw [if_pos hw, if_pos hpe]
      have hr : m.moveOn.runCurrent now = Except.ok m.moveOn := rfl
      have hp : m.process now = Except.ok (m.moveOn.processBackground, false) := by
        unfold AutoManager.process
        rw [if_neg h1, ha]
        simp only [hr]
      obtain ⟨rest, hrest, hno⟩ := (processBackground_quiet m.moveOn).trace
      refine ⟨0, [], rest, ?_, rfl, fun j hj => absurd hj (Nat.not_lt_zero j), hno, ?_, ?_,
        fun _ _ => ⟨?_, ?_⟩, ?_⟩
      · rw [hp]; simp only [tickState, List.append_nil]; exact hrest
      · intro e he
        rw [hp] at he
        cases he
      · intro s r hsr _
        rw [hp] at hsr
        cases hsr
        rfl
      · rw [hp]; rfl
      · simp only [AutoManager.isBgEntry, Nat.add_zero]
        rw [List.getElem?_eq_none_iff.2 (by omega)]
      · intro _ name args creator c0 hname
        rw [List.getElem?_eq_none_iff.2 (by omega)] at hname
        cases hname
  · have ha : m.advance = Except.ok (m, true) := by
      unfold AutoManager.advance
      rw [if_neg hw]
    obtain ⟨_, _, evs, he, hno, _⟩ := runCurrent_starts m now
    have hinst := runCurrent_instances m now
    have hp : m.process now =
        match m.runCurrent now with
        | Except.error e => Except.error e
        | Except.ok m2 => Except.ok (m2.processBackground, true) := by
      unfold AutoManager.process
      rw [if_neg h1, ha]
    cases hr : m.runCurrent now with
    | error e0 =>
      rw [hr] at he hp hinst
      simp only [lastState] at he hinst
      simp only at hp
      refine ⟨0, [], evs, ?_, rfl, fun j hj => absurd hj (Nat.not_lt_zero j), hno, ?_, ?_,
        fun h => absurd h hw, fun h => absurd h hw⟩
      · rw [hp]; simp only [tickState, List.append_nil]; exact he
      · intro e hee
        rw [hp] at hee
        cases hee
        exact hinst
      · intro s r hsr _
        rw [hp] at hsr
        cases hsr
    | ok s2 =>
      rw [hr] at he hp hinst
      simp only [lastState] at he hinst
      simp only at hp
      refine ⟨0, [], evs ++ (processAll 0 s2.uniqueBgCommands).2, ?_, rfl,
        fun j hj => absurd hj (Nat.not_lt_zero j), ?_, ?_, ?_, fun h => absurd h hw,
        fun h => absurd h hw⟩
      · rw [hp]
        simp only [tickState, AutoManager.processBackground, List.append_nil]
        rw [he, List.append_assoc]
      · intro e hmem
        rcases List.mem_append.1 hmem with h | h
        · exact hno e h
        · have := processAll_events _ _ _ h
          cases e <;> simp_all [Event.isUpdateArgs, Event.isBgProcess]
      · intro e hee
        rw [hp] at hee
        cases hee
      · intro s r hsr _
        rw [hp] at hsr
        cases hsr
        show (processAll 0 s2.uniqueBgCommands).1 = _
        rw [hinst]
        rfl

/-- C22. The calls of any tick in a well-formed state.  The cursor moves over `K ≥ 0`
entries registered as background commands: for each of them `updateArgs` is called with the
lowered form of the entry's name and with the entry's argument list, in script order; these
are the only `updateArgs` calls of the tick, and the instances afterwards are the instances
before in which, entry by entry, the members of the instance the lowered name maps to have
been replaced by the result of its `updateArgs` hook on the lowered name and the argument
list of the entry (followed, when the tick returns, by the loop over the background
commands).  When the entry after them is registered as a foreground command (its creator
returning a fresh object), the command is created and the active command afterwards is that
object after its `start` hook has been called with the entry's name as it is written in the
script and with the entry's argument list, both also stored in the object, and after the
base-class calls of the hook and one call of `process`.  Every `start` call of the tick gets
the name and the argument list of the entry the cursor is on, as they are written in the
script. -/
theorem C22_names_passed (m : AutoManager σ β) (now : Int) (hwf : m.WF) :
    ∃ K calls rest,
      (tickState (m.process now)).trace = m.trace ++ calls ++ rest ∧
      calls.length = K ∧
      (∀ j, j < K → ∃ name args idx,
        m.loadedCommands[sizeSucc m.currentCommandIndex + j]? = some name ∧
        m.loadedArguments[sizeSucc m.currentCommandIndex + j]? = some args ∧
        m.backgroundCommands.lookup (tolower name) = some idx ∧
        calls[j]? = some (Event.updateArgs idx (tolower name) args) ∧
        ∀ bgs b, bgs[idx]? = some b →
          m.handOver bgs (sizeSucc m.currentCommandIndex + j) =
            bgs.set idx { b with self := b.updateArgs b.self (tolower name) args }) ∧
      (∀ e ∈ rest, e.isUpdateArgs = false) ∧
      (∀ e, m.process now = Except.error e →
        e.uniqueBgCommands =
          (List.range' (sizeSucc m.currentCommandIndex) K).foldl m.handOver
            m.uniqueBgCommands) ∧
      (∀ s r, m.process now = Except.ok (s, r) → m.loadedCommands ≠ [] →
        s.uniqueBgCommands =
          (processAll 0 ((List.range' (sizeSucc m.currentCommandIndex) K).foldl m.handOver
            m.uniqueBgCommands)).1) ∧
      (m.wantsNext = true → m.loadedCommands ≠ [] →
        (tickState (m.process now)).currentCommandIndex =
          sizeSucc m.currentCommandIndex + K ∧
        m.isBgEntry (sizeSucc m.currentCommandIndex + K) = false) ∧
      (m.wantsNext = true → ∀ name args creator c0,
        m.loadedCommands[sizeSucc m.currentCommandIndex + K]? = some name →
        m.loadedArguments[sizeSucc m.currentCommandIndex + K]? = some args →
        m.registeredCommands.lookup (tolower name) = some creator →
        creator () = some c0 → c0.hasStarted = false →
        ∃ tail s,
          rest = Event.create m.created :: Event.start m.created name args :: tail ∧
          m.process now = Except.ok (s, true) ∧
          s.currentCommand = some
            (AutoCommand.exec
              { c0 with
                  uid := m.created, commandName := name, arguments := args,
                  startTime := now, _hasStarted := true,
                  self := (c0.hooks.start
                    { c0.toCommandFields with
                        commandName := name, arguments := args, startTime := now,
                        _hasStarted := true }
                    c0.self name args).1 }
              (c0.hooks.start
                { c0.toCommandFields with
                    commandName := name, arguments := args, startTime := now,
                    _hasStarted := true }
                c0.self name args).2).1.process.1) ∧
      (∀ uid n args, Event.start uid n args ∈ rest →
        m.loadedCommands[(tickState (m.process now)).currentCommandIndex]? = some n ∧
        m.loadedArguments[(tickState (m.process now)).currentCommandIndex]? = some args) := by
  obtain ⟨K, calls, rest, h1, h2, h3, h4, h5, h6, h7, h8⟩ := process_dispatch m now hwf
  obtain ⟨evs, he, hs⟩ := process_starts m now
  have hevs : evs = calls ++ rest := by
    refine List.append_cancel_left (he.symm.trans ?_)
    rw [h1, List.append_assoc]
  refine ⟨K, calls, rest, h1, h2, h3, h4, h5, h6, h7, h8, ?_⟩
  intro uid n args hmem
  exact hs uid n args (by rw [hevs]; exact List.mem_append_right _ hmem)

/-- C22, at a concrete input: the script `MOVE_LIFTER,3` / `INTAKE_IN` / `DRIVE,2`, first
tick.  The lifter gets the name `move_lifter` and the argument `3`, the intake command the
name `intake_in`, and the drive command the name `DRIVE` and the argument `2`. -/
theorem C22_names_passed_witness :
    (tickState (capitalsScript.process 0)).trace =
      [Event.updateArgs 1 "move_lifter" ["3"], Event.updateArgs 0 "intake_in" [],
        Event.create 0, Event.start 0 "DRIVE" ["2"], Event.process 0,
        Event.bgProcess 0, Event.bgProcess 1] ∧
    (tickState (capitalsScript.process 0)).uniqueBgCommands.map (fun b => b.self) =
      [BgFields.intake 1, BgFields.lifter 3 1] ∧
    ((tickState (capitalsScript.process 0)).currentCommand.map
      fun c => (c.commandName, c.arguments, c.timeout, c.hasStarted)) =
        some ("DRIVE", ["2"], 2000, true) ∧
    ∃ K calls rest,
      (tickState (capitalsScript.process 0)).trace = capitalsScript.trace ++ calls ++ rest ∧
      calls.length = K ∧
      (∀ j, j < K → ∃ name args idx,
        capitalsScript.loadedCommands[sizeSucc capitalsScript.currentCommandIndex + j]? = some name ∧
        capitalsScript.loadedArguments[sizeSucc capitalsScript.currentCommandIndex + j]? = some args ∧
        capitalsScript.backgroundCommands.lookup (tolower name) = some idx ∧
        calls[j]? = some (Event.updateArgs idx (tolower name) args) ∧
        ∀ bgs b, bgs[idx]? = some b →
          capitalsScript.handOver bgs (sizeSucc capitalsScript.currentCommandIndex + j) =
            bgs.set idx { b with self := b.updateArgs b.self (tolower name) args }) ∧
      (∀ e ∈ rest, e.isUpdateArgs = false) ∧
      (∀ e, capitalsScript.process 0 = Except.error e →
        e.uniqueBgCommands =
          (List.range' (sizeSucc capitalsScript.currentCommandIndex) K).foldl capitalsScript.handOver
            capitalsScript.uniqueBgCommands) ∧
      (∀ s r, capitalsScript.process 0 = Except.ok (s, r) → capitalsScript.loadedCommands ≠ [] →
        s.uniqueBgCommands =
          (processAll 0 ((List.range' (sizeSucc capitalsScript.currentCommandIndex) K).foldl capitalsScript.handOver
            capitalsScript.uniqueBgCommands)).1) ∧
      (capitalsScript.wantsNext = true → capitalsScript.loadedCommands ≠ [] →
        (tickState (capitalsScript.process 0)).currentCommandIndex =
          sizeSucc capitalsScript.currentCommandIndex + K ∧
        capitalsScript.isBgEntry (sizeSucc capitalsScript.currentCommandIndex + K) = false) ∧
      (capitalsScript.wantsNext = true → ∀ name args creator c0,
        capitalsScript.loadedCommands[sizeSucc capitalsScript.currentCommandIndex + K]? = some name →
        capitalsScript.loadedArguments[sizeSucc capitalsScript.currentCommandIndex + K]? = some args →
        capitalsScript.registeredCommands.lookup (tolower name) = some creator →
        creator () = some c0 → c0.hasStarted = false →
        ∃ tail s,
          rest = Event.create capitalsScript.created :: Event.start capitalsScript.created name args :: tail ∧
          capitalsScript.process 0 = Except.ok (s, true) ∧
          s.currentCommand = some
            (AutoCommand.exec
              { c0 with
                  uid := capitalsScript.created, commandName := name, arguments := args,
                  startTime := 0, _hasStarted := true,
                  self := (c0.hooks.start
                    { c0.toCommandFields with
                        commandName := name, arguments := args, startTime := 0,
                        _hasStarted := true }
                    c0.self name args).1 }
              (c0.hooks.start
                { c0.toCommandFields with
                    commandName := name, arguments := args, startTime := 0,
                    _hasStarted := true }
                c0.self name args).2).1.process.1) ∧
      (∀ uid n args, Event.start uid n args ∈ rest →
        capitalsScript.loadedCommands[(tickState (capitalsScript.process 0)).currentCommandIndex]? = some n ∧
        capitalsScript.loadedArguments[(tickState (capitalsScript.process 0)).currentCommandIndex]? = some args) :=
  ⟨by decide, by decide, by decide, C22_names_passed capitalsScript 0 capitalsScript_WF⟩

end team2655
